import Mathlib

/-!
# Sender-key group ratchet (WASignalGroup)

A shallow embedding of `src/WASignalGroup`: the chain-key derivation of
`sender_chain_key.js`, the ratchet resolution and the encrypt / decrypt entry
points of `group_cipher.js`, the session builder of `group_session_builder.js`,
the distribution message of `sender_key_distribution_message.js`, the key
helpers of `keyhelper.js` and the per-key task queue of `queue_job.js`.

Conventions of the embedding.

* JavaScript objects mutated in place become explicit state passing: a method
  that mutates its receiver returns the receiver after the call.
* A `throw` becomes `Except.error`; a function that can throw after having
  mutated an object returns the object next to the result.
* Buffers are lists of byte values.  Numbers are naturals (the iterations the
  code handles stay far below 2^53, where JavaScript numbers stop being
  exact integers); the bitwise operators of the version byte work on integers
  with their 32-bit semantics.
* The primitives imported from `libsignal` and the collaborators whose files
  are outside `src/` are fields of `Primitives`, or are modelled from the
  specification and marked as such.
* `queueJob` runs its callback to completion before the next one of the same
  identity starts; a single call is therefore embedded as its callback.
* The queue itself is a state machine.  JavaScript runs a turn of the event
  loop to completion, so a state is what holds between two turns, and a turn is
  a call of `executeTask` or the settlement of the call that a `processQueue`
  awaits.  A call of `processQueue` counts as parked at its `await` from the
  call of the awaitable until the result (a value, a rejection or a thrown
  error) reaches the loop.
-/

namespace WASignalGroup

/-- A buffer of bytes. -/
abbrev Bytes := List Nat

/-- The identity a record is stored under (group, sender). -/
abbrev SenderKeyName := String

/-- Modelled from the spec: `sender_message_key.js` is outside `src/`.  A message key is built
from an iteration and a seed; its IV and cipher key are an expansion of the seed. -/
structure SenderMessageKey where
  iteration : Nat
  seed : Bytes
  deriving DecidableEq, Repr

/-- Modelled from the spec: `sender_key_message.js` is outside `src/`.  The envelope carries
`keyId`, `iteration`, the ciphertext and a trailing signature. -/
structure SenderKeyMessage where
  keyId : Nat
  iteration : Nat
  ciphertext : Bytes
  signature : Bytes
  deriving DecidableEq, Repr

/-- A JavaScript string, as its list of code units. -/
structure JsString where
  codeUnits : List Nat
  deriving DecidableEq, Repr

/-- The external primitives (`libsignal/src/crypto`, the envelope codec) and the configured
bound of the skipped-key cache.  A primitive that can throw returns `none` when it does. -/
structure Primitives where
  /-- The function `calculateMAC(key, data)` of libsignal. -/
  calculateMAC : Bytes → Bytes → Bytes
  /-- The expansion of a message-key seed into `(iv, cipherKey)`. -/
  expandMessageKey : Bytes → Bytes × Bytes
  /-- The function `encrypt(key, data, iv)` of libsignal. -/
  encryptMessage : Bytes → Bytes → Bytes → Option Bytes
  /-- The function `decrypt(key, data, iv)` of libsignal. -/
  decryptMessage : Bytes → Bytes → Bytes → Option Bytes
  /-- The signature of a payload under a private key. -/
  calculateSignature : Bytes → Bytes → Bytes
  /-- The check of a signature: public key, payload, signature. -/
  verifySignature : Bytes → Bytes → Bytes → Bool
  /-- The unsigned payload of an envelope: version byte and structured encoding. -/
  signedPayload : Nat → Nat → Bytes → Bytes
  /-- The wire form of an envelope. -/
  serializeEnvelope : SenderKeyMessage → Bytes
  /-- The parser of the wire form; `none` when the bytes are not an envelope. -/
  parseEnvelope : Bytes → Option SenderKeyMessage
  /-- The size bound of the skipped-key cache of a state. -/
  maxMessageKeys : Nat
  /-- The constant `CURRENT_VERSION` of `ciphertext_message.js`. -/
  CURRENT_VERSION : Nat
  /-- The structured encoding of `{id, iteration, chainKey, signingKey}` (`protobufs.js`). -/
  protobufEncode : Nat → Nat → Bytes → Bytes → Bytes
  /-- The structured decoding; `none` when it throws. -/
  protobufDecode : Bytes → Option (Nat × Nat × Bytes × Bytes)
  /-- The base64 string `toJSON()` writes for a bytes field. -/
  base64Encode : Bytes → JsString
  /-- The bytes of `Buffer.from(string, "base64")`. -/
  base64Decode : JsString → Bytes

/-- The errors the component throws, one constructor per `throw` site. -/
inductive GroupError where
  /-- The message `'SenderKeyRecord' not found for encryption`. -/
  | recordNotFound
  /-- The message `No session to encrypt message`. -/
  | noSessionToEncrypt
  /-- The message `No session to decrypt message`. -/
  | noSessionToDecrypt
  /-- The message `Message received with outdated counter 'current', 'target'`. -/
  | outdatedCounter (current target : Nat)
  /-- The message `Message iteration exceeds limit (2000 messages ahead)`. -/
  | iterationExceedsLimit
  /-- The message `Invalid message exception` of the two cipher wrappers. -/
  | invalidMessage
  /-- The failure of `SenderKeyMessage.verifySignature`. -/
  | signatureInvalid
  /-- The failure of parsing envelope bytes. -/
  | malformedEnvelope
  /-- The failure of signing an envelope without a private key. -/
  | noSigningKey
  /-- A method call on a record that is `null` or on a state that is `undefined`. -/
  | typeError
  deriving DecidableEq, Repr

/-! ## sender_chain_key.js -/

/-- The class `SenderChainKey`: fields `iteration` and `chainKey`. -/
structure SenderChainKey where
  iteration : Nat
  chainKey : Bytes
  deriving DecidableEq, Repr

/-- The field `MESSAGE_KEY_SEED = Buffer.from([0x01])`. -/
def SenderChainKey.MESSAGE_KEY_SEED : Bytes := [0x01]

/-- The field `CHAIN_KEY_SEED = Buffer.from([0x02])`. -/
def SenderChainKey.CHAIN_KEY_SEED : Bytes := [0x02]

/-- The method `getIteration`. -/
def SenderChainKey.getIteration (c : SenderChainKey) : Nat := c.iteration

/-- The method `getSeed`. -/
def SenderChainKey.getSeed (c : SenderChainKey) : Bytes := c.chainKey

/-- The method `getDerivative(seed, key)`: `calculateMAC(key, seed)`. -/
def SenderChainKey.getDerivative (P : Primitives) (seed key : Bytes) : Bytes :=
  P.calculateMAC key seed

/-- The method `getSenderMessageKey`. -/
def SenderChainKey.getSenderMessageKey (P : Primitives) (c : SenderChainKey) : SenderMessageKey :=
  { iteration := c.iteration
    seed := SenderChainKey.getDerivative P SenderChainKey.MESSAGE_KEY_SEED c.chainKey }

/-- The method `getNext`. -/
def SenderChainKey.getNext (P : Primitives) (c : SenderChainKey) : SenderChainKey :=
  { iteration := c.iteration + 1
    chainKey := SenderChainKey.getDerivative P SenderChainKey.CHAIN_KEY_SEED c.chainKey }

/-! ## Message key, state and record (files outside `src/`) -/

/-- The method `getIteration` of a message key. -/
def SenderMessageKey.getIteration (k : SenderMessageKey) : Nat := k.iteration

/-- The method `getIv`: first component of the expansion of the seed. -/
def SenderMessageKey.getIv (P : Primitives) (k : SenderMessageKey) : Bytes :=
  (P.expandMessageKey k.seed).1

/-- The method `getCipherKey`: second component of the expansion of the seed. -/
def SenderMessageKey.getCipherKey (P : Primitives) (k : SenderMessageKey) : Bytes :=
  (P.expandMessageKey k.seed).2

/-- Modelled from the spec: `sender_key_state.js` is outside `src/`.  A state holds the key id,
the current chain key, the signing public key, the signing private key when the local party
created the state, and the skipped message keys in insertion order (oldest first). -/
structure SenderKeyState where
  keyId : Nat
  senderChainKey : SenderChainKey
  signingKeyPublic : Bytes
  signingKeyPrivate : Option Bytes
  senderMessageKeys : List SenderMessageKey
  deriving DecidableEq, Repr

/-- The method `getKeyId`. -/
def SenderKeyState.getKeyId (s : SenderKeyState) : Nat := s.keyId

/-- The method `getSenderChainKey`. -/
def SenderKeyState.getSenderChainKey (s : SenderKeyState) : SenderChainKey := s.senderChainKey

/-- The method `setSenderChainKey`. -/
def SenderKeyState.setSenderChainKey (s : SenderKeyState) (c : SenderChainKey) : SenderKeyState :=
  { s with senderChainKey := c }

/-- The method `getSigningKeyPublic`. -/
def SenderKeyState.getSigningKeyPublic (s : SenderKeyState) : Bytes := s.signingKeyPublic

/-- The method `getSigningKeyPrivate`. -/
def SenderKeyState.getSigningKeyPrivate (s : SenderKeyState) : Option Bytes := s.signingKeyPrivate

/-- Modelled from the spec: `hasSenderMessageKey` of the absent `sender_key_state.js`; the cache
holds an entry for the iteration. -/
def SenderKeyState.hasSenderMessageKey (s : SenderKeyState) (iteration : Nat) : Bool :=
  s.senderMessageKeys.any (fun k => k.iteration == iteration)

/-- Modelled from the spec: `addSenderMessageKey` of the absent `sender_key_state.js`; the key
is appended and the oldest entry is evicted when the cache exceeds its bound. -/
def SenderKeyState.addSenderMessageKey (P : Primitives) (s : SenderKeyState)
    (k : SenderMessageKey) : SenderKeyState :=
  let keys := s.senderMessageKeys ++ [k]
  { s with senderMessageKeys := if keys.length > P.maxMessageKeys then keys.drop 1 else keys }

/-- Modelled from the spec: `removeSenderMessageKey` of the absent `sender_key_state.js`; the
entry of the iteration is removed from the cache and returned (`none` for `null`). -/
def SenderKeyState.removeSenderMessageKey (s : SenderKeyState) (iteration : Nat) :
    Option SenderMessageKey × SenderKeyState :=
  (s.senderMessageKeys.find? (fun k => k.iteration == iteration),
   { s with senderMessageKeys := s.senderMessageKeys.filter (fun k => k.iteration != iteration) })

/-- Modelled from the spec: `sender_key_record.js` is outside `src/`.  A record is an ordered
collection of states, oldest first. -/
structure SenderKeyRecord where
  senderKeyStates : List SenderKeyState
  deriving DecidableEq, Repr

/-- The method `isEmpty`. -/
def SenderKeyRecord.isEmpty (r : SenderKeyRecord) : Bool := r.senderKeyStates.isEmpty

/-- Modelled from the spec: `getSenderKeyState(keyId?)` of the absent `sender_key_record.js`.
Without a key id the most recently added state is selected; with one, the first state of that
key id.  The position stands for the reference to the selected state object. -/
def SenderKeyRecord.getSenderKeyState (r : SenderKeyRecord) :
    Option Nat → Option (Nat × SenderKeyState)
  | none =>
    match r.senderKeyStates.getLast? with
    | none => none
    | some s => some (r.senderKeyStates.length - 1, s)
  | some keyId => r.senderKeyStates.enum.find? (fun p => p.2.keyId == keyId)

/-- The record after the selected state object (at position `idx`) was mutated into `s`. -/
def SenderKeyRecord.putState (r : SenderKeyRecord) (idx : Nat) (s : SenderKeyState) :
    SenderKeyRecord :=
  { senderKeyStates := r.senderKeyStates.set idx s }

/-- Modelled from the spec: `addSenderKeyState` of the absent `sender_key_record.js`; a state
without private key is appended. -/
def SenderKeyRecord.addSenderKeyState (r : SenderKeyRecord) (id iteration : Nat)
    (chainKey signatureKey : Bytes) : SenderKeyRecord :=
  { senderKeyStates := r.senderKeyStates ++
      [{ keyId := id, senderChainKey := ⟨iteration, chainKey⟩, signingKeyPublic := signatureKey,
         signingKeyPrivate := none, senderMessageKeys := [] }] }

/-- The key pair object `{ public, private }` returned by `generateSenderSigningKey`. -/
structure SigningKey where
  pub : Bytes
  priv : Bytes
  deriving DecidableEq, Repr

/-- Modelled from the spec: `setSenderKeyState` of the absent `sender_key_record.js`; the
record is set to hold the one state built from the key id, iteration, chain key and key pair. -/
def SenderKeyRecord.setSenderKeyState (_r : SenderKeyRecord) (id iteration : Nat)
    (chainKey : Bytes) (signatureKey : SigningKey) : SenderKeyRecord :=
  { senderKeyStates :=
      [{ keyId := id, senderChainKey := ⟨iteration, chainKey⟩,
         signingKeyPublic := signatureKey.pub, signingKeyPrivate := some signatureKey.priv,
         senderMessageKeys := [] }] }

/-! ## group_cipher.js: the ratchet resolution -/

/-- The `while` loop of `deriveSenderKey`: as long as the chain key is behind `iteration`, its
message key is cached and the chain key is stepped.  `fuel` bounds the number of rounds. -/
def GroupCipher.deriveLoop (P : Primitives) (iteration : Nat) :
    Nat → SenderChainKey → SenderKeyState → SenderChainKey × SenderKeyState
  | 0, senderChainKey, senderKeyState => (senderChainKey, senderKeyState)
  | fuel + 1, senderChainKey, senderKeyState =>
    if senderChainKey.getIteration < iteration then
      GroupCipher.deriveLoop P iteration fuel (senderChainKey.getNext P)
        (senderKeyState.addSenderMessageKey P (senderChainKey.getSenderMessageKey P))
    else (senderChainKey, senderKeyState)

/-- The method `deriveSenderKey(senderKeyState, iteration)`; the second component is the state
object after the call. -/
def GroupCipher.deriveSenderKey (P : Primitives) (senderKeyState : SenderKeyState)
    (iteration : Nat) : Except GroupError SenderMessageKey × SenderKeyState :=
  let senderChainKey := senderKeyState.getSenderChainKey
  if senderChainKey.getIteration > iteration then
    if senderKeyState.hasSenderMessageKey iteration then
      match senderKeyState.removeSenderMessageKey iteration with
      | (some k, s) => (.ok k, s)
      -- a `null` key fails at the first method call the caller makes on it
      | (none, s) => (.error .typeError, s)
    else
      (.error (.outdatedCounter senderChainKey.getIteration iteration), senderKeyState)
  else if iteration - senderChainKey.getIteration > 2000 then
    (.error .iterationExceedsLimit, senderKeyState)
  else
    let r := GroupCipher.deriveLoop P iteration (iteration - senderChainKey.getIteration)
      senderChainKey senderKeyState
    (.ok (r.1.getSenderMessageKey P), r.2.setSenderChainKey (r.1.getNext P))

/-! ## The envelope (file outside `src/`) -/

/-- Modelled from the spec: the constructor of the absent `sender_key_message.js` called with
fields; the envelope is signed with the private key, and signing without one fails. -/
def SenderKeyMessage.create (P : Primitives) (keyId iteration : Nat) (ciphertext : Bytes)
    (signatureKey : Option Bytes) : Except GroupError SenderKeyMessage :=
  match signatureKey with
  | none => .error .noSigningKey
  | some priv =>
    .ok { keyId := keyId, iteration := iteration, ciphertext := ciphertext,
          signature := P.calculateSignature priv (P.signedPayload keyId iteration ciphertext) }

/-- Modelled from the spec: the constructor of the absent `sender_key_message.js` called with
serialized bytes. -/
def SenderKeyMessage.fromSerialized (P : Primitives) (serialized : Bytes) :
    Except GroupError SenderKeyMessage :=
  match P.parseEnvelope serialized with
  | none => .error .malformedEnvelope
  | some m => .ok m

/-- The method `serialize` of an envelope. -/
def SenderKeyMessage.serialize (P : Primitives) (m : SenderKeyMessage) : Bytes :=
  P.serializeEnvelope m

/-- Modelled from the spec: `verifySignature` of the absent `sender_key_message.js`; the
signature is checked over the unsigned payload and a failed check throws. -/
def SenderKeyMessage.verifySignature (P : Primitives) (m : SenderKeyMessage)
    (signatureKey : Bytes) : Except GroupError Unit :=
  if P.verifySignature signatureKey (P.signedPayload m.keyId m.iteration m.ciphertext)
      m.signature then .ok ()
  else .error .signatureInvalid

/-! ## The store collaborator -/

/-- The persistent key/value store: `loadSenderKey` returns a record deserialized from what was
stored, so a record in memory is not shared with the store. -/
abbrev SenderKeyStore := SenderKeyName → Option SenderKeyRecord

/-- The method `loadSenderKey` of the store. -/
def SenderKeyStore.loadSenderKey (s : SenderKeyStore) (id : SenderKeyName) :
    Option SenderKeyRecord := s id

/-- The method `storeSenderKey` of the store. -/
def SenderKeyStore.storeSenderKey (s : SenderKeyStore) (id : SenderKeyName)
    (r : SenderKeyRecord) : SenderKeyStore :=
  fun k => if k = id then some r else s k

/-- A call made on the store. -/
inductive StoreCall where
  | loadSenderKey (id : SenderKeyName)
  | storeSenderKey (id : SenderKeyName) (record : SenderKeyRecord)
  deriving DecidableEq, Repr

/-- What an operation leaves behind: its result, the loaded record object as it is in memory
when the operation ends, the store, and the calls made on the store in order. -/
structure Run (α : Type) where
  result : Except GroupError α
  record : Option SenderKeyRecord
  store : SenderKeyStore
  calls : List StoreCall

/-! ## group_cipher.js: encrypt and decrypt -/

/-- The method `generateCipherText(iv, key, plaintext)`; a throwing primitive is rethrown as
`Invalid message exception`. -/
def GroupCipher.generateCipherText (P : Primitives) (iv key plaintext : Bytes) :
    Except GroupError Bytes :=
  match P.encryptMessage key plaintext iv with
  | some c => .ok c
  | none => .error .invalidMessage

/-- The method `extractPlainText(iv, key, ciphertext)`; a throwing primitive is rethrown as
`Invalid message exception`. -/
def GroupCipher.extractPlainText (P : Primitives) (iv key ciphertext : Bytes) :
    Except GroupError Bytes :=
  match P.decryptMessage key ciphertext iv with
  | some p => .ok p
  | none => .error .invalidMessage

/-- The body of `encrypt` up to the envelope object, before `serialize()` is returned. -/
def GroupCipher.encryptEnvelope (P : Primitives) (senderKeyStore : SenderKeyStore)
    (senderKeyIdentifier : SenderKeyName) (plaintextWithPadding : Bytes) :
    Run SenderKeyMessage :=
  match senderKeyStore.loadSenderKey senderKeyIdentifier with
  | none => ⟨.error .recordNotFound, none, senderKeyStore, [.loadSenderKey senderKeyIdentifier]⟩
  | some senderKeyRecord =>
    match senderKeyRecord.getSenderKeyState none with
    | none =>
      ⟨.error .noSessionToEncrypt, some senderKeyRecord, senderKeyStore,
        [.loadSenderKey senderKeyIdentifier]⟩
    | some (idx, senderKeyState) =>
      let iteration := senderKeyState.getSenderChainKey.getIteration
      let derived := GroupCipher.deriveSenderKey P senderKeyState
        (if iteration = 0 then 0 else iteration + 1)
      -- the state object after `deriveSenderKey`, inside the loaded record
      let senderKeyState := derived.2
      let senderKeyRecord := senderKeyRecord.putState idx senderKeyState
      match derived.1 with
      | .error e =>
        ⟨.error e, some senderKeyRecord, senderKeyStore, [.loadSenderKey senderKeyIdentifier]⟩
      | .ok senderKey =>
        match GroupCipher.generateCipherText P (senderKey.getIv P) (senderKey.getCipherKey P)
            plaintextWithPadding with
        | .error e =>
          ⟨.error e, some senderKeyRecord, senderKeyStore, [.loadSenderKey senderKeyIdentifier]⟩
        | .ok ciphertext =>
          match SenderKeyMessage.create P senderKeyState.getKeyId senderKey.getIteration
              ciphertext senderKeyState.getSigningKeyPrivate with
          | .error e =>
            ⟨.error e, some senderKeyRecord, senderKeyStore,
              [.loadSenderKey senderKeyIdentifier]⟩
          | .ok senderKeyMessage =>
            ⟨.ok senderKeyMessage, some senderKeyRecord,
              senderKeyStore.storeSenderKey senderKeyIdentifier senderKeyRecord,
              [.loadSenderKey senderKeyIdentifier,
               .storeSenderKey senderKeyIdentifier senderKeyRecord]⟩

/-- The method `encrypt(plaintextWithPadding)` of a cipher built on a store and an identity. -/
def GroupCipher.encrypt (P : Primitives) (senderKeyStore : SenderKeyStore)
    (senderKeyIdentifier : SenderKeyName) (plaintextWithPadding : Bytes) : Run Bytes :=
  let r := GroupCipher.encryptEnvelope P senderKeyStore senderKeyIdentifier plaintextWithPadding
  ⟨r.result.map (SenderKeyMessage.serialize P), r.record, r.store, r.calls⟩

/-- The method `decrypt(senderKeyMessageBytes)` of a cipher built on a store and an identity. -/
def GroupCipher.decrypt (P : Primitives) (senderKeyStore : SenderKeyStore)
    (senderKeyIdentifier : SenderKeyName) (senderKeyMessageBytes : Bytes) : Run Bytes :=
  match senderKeyStore.loadSenderKey senderKeyIdentifier with
  | none => ⟨.error .recordNotFound, none, senderKeyStore, [.loadSenderKey senderKeyIdentifier]⟩
  | some senderKeyRecord =>
    match SenderKeyMessage.fromSerialized P senderKeyMessageBytes with
    | .error e =>
      ⟨.error e, some senderKeyRecord, senderKeyStore, [.loadSenderKey senderKeyIdentifier]⟩
    | .ok senderKeyMessage =>
      match senderKeyRecord.getSenderKeyState (some senderKeyMessage.keyId) with
      | none =>
        ⟨.error .noSessionToDecrypt, some senderKeyRecord, senderKeyStore,
          [.loadSenderKey senderKeyIdentifier]⟩
      | some (idx, senderKeyState) =>
        match senderKeyMessage.verifySignature P senderKeyState.getSigningKeyPublic with
        | .error e =>
          ⟨.error e, some senderKeyRecord, senderKeyStore,
            [.loadSenderKey senderKeyIdentifier]⟩
        | .ok () =>
          let derived := GroupCipher.deriveSenderKey P senderKeyState senderKeyMessage.iteration
          -- the state object after `deriveSenderKey`, inside the loaded record
          let senderKeyRecord := senderKeyRecord.putState idx derived.2
          match derived.1 with
          | .error e =>
            ⟨.error e, some senderKeyRecord, senderKeyStore,
              [.loadSenderKey senderKeyIdentifier]⟩
          | .ok senderKey =>
            match GroupCipher.extractPlainText P (senderKey.getIv P) (senderKey.getCipherKey P)
                senderKeyMessage.ciphertext with
            | .error e =>
              ⟨.error e, some senderKeyRecord, senderKeyStore,
                [.loadSenderKey senderKeyIdentifier]⟩
            | .ok plaintext =>
              ⟨.ok plaintext, some senderKeyRecord,
                senderKeyStore.storeSenderKey senderKeyIdentifier senderKeyRecord,
                [.loadSenderKey senderKeyIdentifier,
                 .storeSenderKey senderKeyIdentifier senderKeyRecord]⟩

/-! ## sender_key_distribution_message.js -/

/-- The conversion `ToInt32` of an integer: its value modulo 2^32, in the signed range. -/
def toInt32 (x : Int) : Int :=
  if x % 4294967296 < 2147483648 then x % 4294967296 else x % 4294967296 - 4294967296

/-- The 32 bits of an integer operand, as a natural below 2^32 (`ToUint32`). -/
def toUint32 (x : Int) : Nat := (x % 4294967296).toNat

/-- The operator `a << k` of JavaScript on integers. -/
def jsShiftLeft (a : Int) (k : Nat) : Int := toInt32 ((toUint32 a <<< (k % 32) : Nat) : Int)

/-- The operator `a | b` of JavaScript on integers. -/
def jsOr (a b : Int) : Int := toInt32 ((toUint32 a ||| toUint32 b : Nat) : Int)

/-- The operator `a & b` of JavaScript on integers. -/
def jsAnd (a b : Int) : Int := toInt32 ((toUint32 a &&& toUint32 b : Nat) : Int)

/-- The operator `a % b` of JavaScript on integers: the remainder has the sign of `a`. -/
def jsRem (a b : Int) : Int := Int.tmod a b

/-- A bytes field of a message object: a Buffer, or the base64 string `toJSON()` made of it. -/
inductive BufferOrString where
  | buffer (b : Bytes)
  | string (s : JsString)
  deriving DecidableEq, Repr

/-- The class `SenderKeyDistributionMessage`. -/
structure SenderKeyDistributionMessage where
  id : Nat
  iteration : Nat
  chainKey : BufferOrString
  signatureKey : BufferOrString
  serialized : Bytes
  deriving DecidableEq, Repr

/-- The method `intsToByteHighAndLow(highValue, lowValue)`. -/
def SenderKeyDistributionMessage.intsToByteHighAndLow (highValue lowValue : Int) : Int :=
  jsRem (jsAnd (jsOr (jsShiftLeft highValue 4) lowValue) 0xff) 256

/-- The constructor called with fields (`serialized` absent); `Buffer.from([version])` keeps
the low eight bits of `version`. -/
def SenderKeyDistributionMessage.fromFields (P : Primitives) (id iteration : Nat)
    (chainKey signatureKey : Bytes) : SenderKeyDistributionMessage :=
  let version :=
    SenderKeyDistributionMessage.intsToByteHighAndLow P.CURRENT_VERSION P.CURRENT_VERSION
  { id := id, iteration := iteration, chainKey := .buffer chainKey,
    signatureKey := .buffer signatureKey,
    serialized := [(version % 256).toNat] ++ P.protobufEncode id iteration chainKey signatureKey }

/-- The constructor called with serialized bytes: the first byte is dropped, the rest is
decoded, and `toJSON()` turns the two bytes fields into base64 strings; a throwing decoder is
`none`. -/
def SenderKeyDistributionMessage.fromSerialized (P : Primitives) (serialized : Bytes) :
    Option SenderKeyDistributionMessage :=
  match P.protobufDecode (serialized.drop 1) with
  | none => none
  | some (id, iteration, chainKey, signingKey) =>
    some { id := id, iteration := iteration, chainKey := .string (P.base64Encode chainKey),
           signatureKey := .string (P.base64Encode signingKey), serialized := serialized }

/-- The method `serialize`. -/
def SenderKeyDistributionMessage.serialize (m : SenderKeyDistributionMessage) : Bytes :=
  m.serialized

/-- The method `getId`. -/
def SenderKeyDistributionMessage.getId (m : SenderKeyDistributionMessage) : Nat := m.id

/-- The method `getIteration`. -/
def SenderKeyDistributionMessage.getIteration (m : SenderKeyDistributionMessage) : Nat :=
  m.iteration

/-- The method `getChainKey`. -/
def SenderKeyDistributionMessage.getChainKey (P : Primitives)
    (m : SenderKeyDistributionMessage) : Bytes :=
  match m.chainKey with
  | .string s => P.base64Decode s
  | .buffer b => b

/-- The method `getSignatureKey`. -/
def SenderKeyDistributionMessage.getSignatureKey (P : Primitives)
    (m : SenderKeyDistributionMessage) : Bytes :=
  match m.signatureKey with
  | .string s => P.base64Decode s
  | .buffer b => b

/-! ## keyhelper.js -/

/-- The key pair `{ pubKey, privKey }` of `generateKeyPair`. -/
structure KeyPair where
  pubKey : Bytes
  privKey : Bytes
  deriving DecidableEq, Repr

/-- One outcome of the random source: the draw of `randomInt(2147483647)`, the 32 bytes of
`randomBytes(32)` and the key pair of `generateKeyPair()`. -/
structure RandomSource where
  randomInt : Fin 2147483647
  randomBytes : Bytes
  randomBytes_length : randomBytes.length = 32
  generateKeyPair : KeyPair

/-- The function `generateSenderKey`. -/
def generateSenderKey (rnd : RandomSource) : Bytes := rnd.randomBytes

/-- The function `generateSenderKeyId`. -/
def generateSenderKeyId (rnd : RandomSource) : Nat := rnd.randomInt.val

/-- The function `generateSenderSigningKey(key)`. -/
def generateSenderSigningKey (rnd : RandomSource) (key : Option KeyPair) : SigningKey :=
  let key := match key with
    | none => rnd.generateKeyPair
    | some k => k
  { pub := key.pubKey, priv := key.privKey }

/-! ## group_session_builder.js -/

/-- The method `process(senderKeyIdentifier, senderKeyDistributionMessage)`. -/
def GroupSessionBuilder.process (P : Primitives) (senderKeyStore : SenderKeyStore)
    (senderKeyIdentifier : SenderKeyName)
    (senderKeyDistributionMessage : SenderKeyDistributionMessage) : Run Unit :=
  match senderKeyStore.loadSenderKey senderKeyIdentifier with
  | none => ⟨.error .typeError, none, senderKeyStore, [.loadSenderKey senderKeyIdentifier]⟩
  | some senderKeyRecord =>
    let r := senderKeyRecord.addSenderKeyState senderKeyDistributionMessage.getId
      senderKeyDistributionMessage.getIteration (senderKeyDistributionMessage.getChainKey P)
      (senderKeyDistributionMessage.getSignatureKey P)
    ⟨.ok (), some r, senderKeyStore.storeSenderKey senderKeyIdentifier r,
      [.loadSenderKey senderKeyIdentifier, .storeSenderKey senderKeyIdentifier r]⟩

/-- The method `create(senderKeyIdentifier)`. -/
def GroupSessionBuilder.create (P : Primitives) (rnd : RandomSource)
    (senderKeyStore : SenderKeyStore) (senderKeyIdentifier : SenderKeyName) :
    Run SenderKeyDistributionMessage :=
  match senderKeyStore.loadSenderKey senderKeyIdentifier with
  | none => ⟨.error .typeError, none, senderKeyStore, [.loadSenderKey senderKeyIdentifier]⟩
  | some senderKeyRecord =>
    let r :=
      if senderKeyRecord.isEmpty then
        senderKeyRecord.setSenderKeyState (generateSenderKeyId rnd) 0 (generateSenderKey rnd)
          (generateSenderSigningKey rnd none)
      else senderKeyRecord
    let store :=
      if senderKeyRecord.isEmpty then senderKeyStore.storeSenderKey senderKeyIdentifier r
      else senderKeyStore
    let calls :=
      if senderKeyRecord.isEmpty then
        [StoreCall.loadSenderKey senderKeyIdentifier, .storeSenderKey senderKeyIdentifier r]
      else [.loadSenderKey senderKeyIdentifier]
    match r.getSenderKeyState none with
    | none => ⟨.error .typeError, some r, store, calls⟩
    | some (_, senderKeyState) =>
      ⟨.ok (SenderKeyDistributionMessage.fromFields P senderKeyState.getKeyId
          senderKeyState.getSenderChainKey.getIteration senderKeyState.getSenderChainKey.getSeed
          senderKeyState.getSigningKeyPublic), some r, store, calls⟩

/-! ## Sequences of calls -/

/-- The targets are resolved one after the other on the same state object; the results are
collected in order. -/
def deriveAll (P : Primitives) :
    SenderKeyState → List Nat → List (Except GroupError SenderMessageKey) × SenderKeyState
  | s, [] => ([], s)
  | s, t :: ts =>
    let r := GroupCipher.deriveSenderKey P s t
    let rest := deriveAll P r.2 ts
    (r.1 :: rest.1, rest.2)

/-- Consecutive `encrypt` calls on one identity, each on the store the previous one left; the
run stops at the first failure. -/
def encryptAll (P : Primitives) (id : SenderKeyName) :
    SenderKeyStore → List Bytes → Except GroupError (List Bytes) × SenderKeyStore
  | store, [] => (.ok [], store)
  | store, p :: ps =>
    match (GroupCipher.encrypt P store id p).result with
    | .error e => (.error e, (GroupCipher.encrypt P store id p).store)
    | .ok c =>
      match encryptAll P id (GroupCipher.encrypt P store id p).store ps with
      | (.error e, s) => (.error e, s)
      | (.ok cs, s) => (.ok (c :: cs), s)

/-- The envelope objects of consecutive `encrypt` calls on one identity. -/
def encryptAllEnvelopes (P : Primitives) (id : SenderKeyName) :
    SenderKeyStore → List Bytes → Except GroupError (List SenderKeyMessage) × SenderKeyStore
  | store, [] => (.ok [], store)
  | store, p :: ps =>
    match (GroupCipher.encryptEnvelope P store id p).result with
    | .error e => (.error e, (GroupCipher.encryptEnvelope P store id p).store)
    | .ok c =>
      match encryptAllEnvelopes P id (GroupCipher.encryptEnvelope P store id p).store ps with
      | (.error e, s) => (.error e, s)
      | (.ok cs, s) => (.ok (c :: cs), s)

/-- Consecutive `decrypt` calls on one identity, each on the store the previous one left; the
run stops at the first failure. -/
def decryptAll (P : Primitives) (id : SenderKeyName) :
    SenderKeyStore → List Bytes → Except GroupError (List Bytes) × SenderKeyStore
  | store, [] => (.ok [], store)
  | store, c :: cs =>
    match (GroupCipher.decrypt P store id c).result with
    | .error e => (.error e, (GroupCipher.decrypt P store id c).store)
    | .ok p =>
      match decryptAll P id (GroupCipher.decrypt P store id c).store cs with
      | (.error e, s) => (.error e, s)
      | (.ok ps, s) => (.ok (p :: ps), s)

/-- The chain seed after `n` ratchet steps: `stepChain^n(seed)`. -/
def stepChain (P : Primitives) (n : Nat) (seed : Bytes) : Bytes :=
  (fun s => P.calculateMAC s SenderChainKey.CHAIN_KEY_SEED)^[n] seed

/-- The message keys of the `n` consecutive chain keys that start at `c`, in order. -/
def skippedKeys (P : Primitives) : SenderChainKey → Nat → List SenderMessageKey
  | _, 0 => []
  | c, n + 1 => c.getSenderMessageKey P :: skippedKeys P (c.getNext P) n

/-- The states reached from a fresh state (empty skipped-key cache) by calls of
`deriveSenderKey`, the only place where `encrypt` and `decrypt` change a state. -/
inductive Reachable (P : Primitives) : SenderKeyState → Prop where
  | fresh (s : SenderKeyState) : s.senderMessageKeys = [] → Reachable P s
  | step (s : SenderKeyState) (t : Nat) :
    Reachable P s → Reachable P (GroupCipher.deriveSenderKey P s t).2

/-- The delivery order `targets` stays within bounds on the state `s`: each target is at most
2000 ahead of the current iteration when it is delivered, and the keys it makes the state cache
fit in the cache without eviction. -/
def deliverable (P : Primitives) : SenderKeyState → List Nat → Bool
  | _, [] => true
  | s, t :: ts =>
    decide (t - s.senderChainKey.iteration ≤ 2000) &&
    decide (s.senderMessageKeys.length + (t - s.senderChainKey.iteration)
      ≤ P.maxMessageKeys) &&
    deliverable P (GroupCipher.deriveSenderKey P s t).2 ts

/-- The state `create` puts in an empty record for an outcome of the random source. -/
def freshState (rnd : RandomSource) : SenderKeyState :=
  { keyId := generateSenderKeyId rnd, senderChainKey := ⟨0, generateSenderKey rnd⟩,
    signingKeyPublic := (generateSenderSigningKey rnd none).pub,
    signingKeyPrivate := some (generateSenderSigningKey rnd none).priv,
    senderMessageKeys := [] }

/-- An operation of the component on the record of an identity. -/
inductive Operation where
  | create (rnd : RandomSource)
  | process (m : SenderKeyDistributionMessage)
  | encrypt (plaintextWithPadding : Bytes)
  | decrypt (senderKeyMessageBytes : Bytes)

/-- The store an operation leaves. -/
def Operation.storeAfter (P : Primitives) (store : SenderKeyStore) (id : SenderKeyName) :
    Operation → SenderKeyStore
  | .create rnd => (GroupSessionBuilder.create P rnd store id).store
  | .process m => (GroupSessionBuilder.process P store id m).store
  | .encrypt x => (GroupCipher.encrypt P store id x).store
  | .decrypt x => (GroupCipher.decrypt P store id x).store

/-- The loaded record object an operation leaves in memory. -/
def Operation.recordAfter (P : Primitives) (store : SenderKeyStore) (id : SenderKeyName) :
    Operation → Option SenderKeyRecord
  | .create rnd => (GroupSessionBuilder.create P rnd store id).record
  | .process m => (GroupSessionBuilder.process P store id m).record
  | .encrypt x => (GroupCipher.encrypt P store id x).record
  | .decrypt x => (GroupCipher.decrypt P store id x).record

/-- The records reached from the empty record by `create`, `process`, `encrypt` and `decrypt`
calls on its identity: the record an operation stores, and the record object it leaves in
memory. -/
inductive ReachableRecord (P : Primitives) : SenderKeyRecord → Prop where
  | empty : ReachableRecord P ⟨[]⟩
  | stored (store : SenderKeyStore) (id : SenderKeyName) (op : Operation)
      (r r' : SenderKeyRecord) : ReachableRecord P r → store.loadSenderKey id = some r →
      (op.storeAfter P store id).loadSenderKey id = some r' → ReachableRecord P r'
  | loaded (store : SenderKeyStore) (id : SenderKeyName) (op : Operation)
      (r r' : SenderKeyRecord) : ReachableRecord P r → store.loadSenderKey id = some r →
      op.recordAfter P store id = some r' → ReachableRecord P r'

/-- The number of states of a record that hold a signing private key. -/
def SenderKeyRecord.privateKeyCount (r : SenderKeyRecord) : Nat :=
  r.senderKeyStates.countP (fun s => s.signingKeyPrivate.isSome)

/-- A call on the store with the bucket key of the queue task inside which it is made; `none`
when it is made outside every task. -/
structure StoreAccess where
  task : Option String
  call : StoreCall
  deriving DecidableEq, Repr

/-- The method `queueJob(asyncFunction)` of `GroupCipher`, seen from the store: the calls of
the callback are made inside a task submitted under the key `senderKeyIdentifier.toString()`. -/
def GroupCipher.queueJob (senderKeyIdentifier : SenderKeyName) (calls : List StoreCall) :
    List StoreAccess :=
  calls.map (fun c => ⟨some senderKeyIdentifier, c⟩)

/-- The store accesses of `encrypt`: its whole body is the callback of `this.queueJob`. -/
def GroupCipher.encryptAccesses (P : Primitives) (senderKeyStore : SenderKeyStore)
    (senderKeyIdentifier : SenderKeyName) (plaintextWithPadding : Bytes) : List StoreAccess :=
  GroupCipher.queueJob senderKeyIdentifier
    (GroupCipher.encrypt P senderKeyStore senderKeyIdentifier plaintextWithPadding).calls

/-- The store accesses of `decrypt`: its whole body is the callback of `this.queueJob`. -/
def GroupCipher.decryptAccesses (P : Primitives) (senderKeyStore : SenderKeyStore)
    (senderKeyIdentifier : SenderKeyName) (senderKeyMessageBytes : Bytes) : List StoreAccess :=
  GroupCipher.queueJob senderKeyIdentifier
    (GroupCipher.decrypt P senderKeyStore senderKeyIdentifier senderKeyMessageBytes).calls

/-- The store accesses of `process`: the method awaits the store directly, in no task. -/
def GroupSessionBuilder.processAccesses (P : Primitives) (senderKeyStore : SenderKeyStore)
    (senderKeyIdentifier : SenderKeyName)
    (senderKeyDistributionMessage : SenderKeyDistributionMessage) : List StoreAccess :=
  (GroupSessionBuilder.process P senderKeyStore senderKeyIdentifier
    senderKeyDistributionMessage).calls.map (fun c => ⟨none, c⟩)

/-- The store accesses of `create`: the method awaits the store directly, in no task. -/
def GroupSessionBuilder.createAccesses (P : Primitives) (rnd : RandomSource)
    (senderKeyStore : SenderKeyStore) (senderKeyIdentifier : SenderKeyName) :
    List StoreAccess :=
  (GroupSessionBuilder.create P rnd senderKeyStore senderKeyIdentifier).calls.map
    (fun c => ⟨none, c⟩)

/-- A store whose only record is the empty record, kept under `id`. -/
def emptyStore (id : SenderKeyName) : SenderKeyStore :=
  fun k => if k = id then some ⟨[]⟩ else none

/-! ## queue_job.js -/

/-- What awaiting a call of a queued function yields: the value it returns (or its promise
resolves with), or the error it throws (or its promise rejects with). -/
inductive Settlement where
  | value (v : String)
  | error (e : String)
deriving DecidableEq, Repr

/-- A function handed to `executeTask`: its `name` property and what awaiting a call of it
yields. -/
structure AsyncFunction where
  name : String
  result : Settlement
deriving DecidableEq, Repr

/-- An entry `{ awaitable, resolve, reject }` of a task queue.  The functions `resolve` and
`reject` are those of the promise that `executeTask` returns; `promise` is the number of that
promise. -/
structure QueueTask where
  awaitable : AsyncFunction
  promise : Nat
deriving DecidableEq, Repr

/-- Where a call of `processQueue` stands between two turns of the event loop: parked at
`await task.awaitable()` (from the call of the awaitable until its result reaches the loop)
with its local variables, returned after `cleanupCallback()`, or ended by a `TypeError`
because `taskQueue[i]` was `undefined`. -/
inductive Position where
  | awaiting (offset executionLimit i : Nat) (task : QueueTask)
  | returned
  | threw
deriving DecidableEq, Repr

/-- The constant `GARBAGE_COLLECTION_LIMIT`. -/
def GARBAGE_COLLECTION_LIMIT : Nat := 10000

/-- The control flow of `processQueue` from the test `i < executionLimit` of the `for` loop up
to the next `await` or to the return: inside the batch the next entry is read and its awaitable
called; after the batch, while the array is longer than the batch, either the first
`executionLimit` entries are spliced away and `offset` reset to 0, or `offset` moves to
`executionLimit`, and the `while` loop goes round; otherwise the loop is left and
`cleanupCallback()` runs.  The first argument bounds the number of rounds of the `while` loop;
the result is `none` when it is used up. -/
def processQueue.forLoop : Nat → List QueueTask → Nat → Nat → Nat →
    Option (List QueueTask × Position)
  | 0, _, _, _, _ => none
  | fuel + 1, taskQueue, offset, executionLimit, i =>
    if i < executionLimit then
      match taskQueue[i]? with
      | some task => some (taskQueue, .awaiting offset executionLimit i task)
      | none => some (taskQueue, .threw)
    else if executionLimit < taskQueue.length then
      if executionLimit ≥ GARBAGE_COLLECTION_LIMIT then
        processQueue.forLoop fuel (taskQueue.drop executionLimit) 0
          (min (taskQueue.drop executionLimit).length GARBAGE_COLLECTION_LIMIT) 0
      else
        processQueue.forLoop fuel taskQueue executionLimit
          (min taskQueue.length GARBAGE_COLLECTION_LIMIT) executionLimit
    else some (taskQueue, .returned)

/-- The number of rounds of the `while` loop given to one turn of `processQueue`. -/
def processQueue.rounds : Nat := 2

/-- The call `processQueue(taskQueue, cleanupCallback)` up to its first `await` (or its
return): `offset = 0`, `executionLimit = Math.min(taskQueue.length, GARBAGE_COLLECTION_LIMIT)`,
`i = offset`. -/
def processQueue (taskQueue : List QueueTask) : Option (List QueueTask × Position) :=
  processQueue.forLoop processQueue.rounds taskQueue 0
    (min taskQueue.length GARBAGE_COLLECTION_LIMIT) 0

/-- The continuation of `processQueue` once the awaited call has settled and `task.resolve` or
`task.reject` has been called: `i++`, then on to the next `await` (or the return). -/
def processQueue.afterAwait (taskQueue : List QueueTask) (offset executionLimit i : Nat) :
    Option (List QueueTask × Position) :=
  processQueue.forLoop processQueue.rounds taskQueue offset executionLimit (i + 1)

/-- What an observer of the queue sees, in order: `executeTask` pushed an entry for a key,
`processQueue` called the awaitable of an entry, `processQueue` called `task.resolve(value)`
or `task.reject(error)`. -/
inductive Event where
  | submitted (bucketKey : String) (promise : Nat) (asyncFunction : AsyncFunction)
  | started (bucketKey : String) (promise : Nat)
  | resolved (bucketKey : String) (promise : Nat) (value : String)
  | rejected (bucketKey : String) (promise : Nat) (error : String)
deriving DecidableEq, Repr

/-- One call of `processQueue` together with the array it was given.  `executeTask` creates the
array and makes the call in the same breath, so the two are numbered together; `bucketKey` is
the key that the `cleanupCallback` of the call deletes. -/
structure Activation where
  taskQueue : List QueueTask
  bucketKey : String
  position : Position
deriving DecidableEq, Repr

/-- The state of the module between two turns of the event loop: the map `asyncTaskQueues`
(a key is mapped to the number of its array), the arrays with the calls of `processQueue` that
drain them, the number of promises handed out so far, and the events so far. -/
structure QueueState where
  asyncTaskQueues : String → Option Nat
  activations : List Activation
  promises : Nat
  trace : List Event

/-- The module as loaded: `asyncTaskQueues = new Map()`. -/
def QueueState.init : QueueState := ⟨fun _ => none, [], 0, []⟩

/-- The effect on the map of the end of a turn of `processQueue`: on return the
`cleanupCallback`, `asyncTaskQueues.delete(bucketKey)`, has run. -/
def processQueue.cleanup (asyncTaskQueues : String → Option Nat) (bucketKey : String) :
    Position → String → Option Nat
  | .returned => fun k => if k = bucketKey then none else asyncTaskQueues k
  | _ => asyncTaskQueues

/-- The event of a turn of `processQueue` that ends at an `await`: the awaitable of the entry
has been called. -/
def processQueue.startEvents (bucketKey : String) : Position → List Event
  | .awaiting _ _ _ task => [.started bucketKey task.promise]
  | _ => []

/-- The call `executeTask(bucketKey, asyncFunction)` with a string key: a function without a
name is named after the key; a key without an entry gets a new array, the entry is pushed, and
a call of `processQueue` on the array is started (it runs up to its first `await`); a key with
an entry has the task pushed onto its array.  The promise returned has the number
`st.promises`. -/
def executeTask (st : QueueState) (bucketKey : String) (asyncFunction : AsyncFunction) :
    Option QueueState :=
  let named : AsyncFunction :=
    if asyncFunction.name = "" then ⟨bucketKey, asyncFunction.result⟩ else asyncFunction
  let task : QueueTask := ⟨named, st.promises⟩
  match st.asyncTaskQueues bucketKey with
  | none =>
    (processQueue [task]).map fun turn =>
      { asyncTaskQueues :=
          processQueue.cleanup
            (fun k => if k = bucketKey then some st.activations.length
              else st.asyncTaskQueues k)
            bucketKey turn.2
        activations := st.activations ++ [⟨turn.1, bucketKey, turn.2⟩]
        promises := st.promises + 1
        trace := st.trace ++ [.submitted bucketKey st.promises named]
          ++ processQueue.startEvents bucketKey turn.2 }
  | some taskQueue =>
    some
      { asyncTaskQueues := st.asyncTaskQueues
        activations := st.activations.modify
          (fun a => ⟨a.taskQueue ++ [task], a.bucketKey, a.position⟩) taskQueue
        promises := st.promises + 1
        trace := st.trace ++ [.submitted bucketKey st.promises named] }

/-- The call of `task.resolve` or `task.reject` after the `await`: the value of the awaited
call goes to `resolve`, the error caught goes to `reject`. -/
def processQueue.settle (bucketKey : String) (task : QueueTask) : Event :=
  match task.awaitable.result with
  | .value v => .resolved bucketKey task.promise v
  | .error e => .rejected bucketKey task.promise e

/-- The turn of the event loop in which the call awaited by a call of `processQueue` has
settled: the promise of the task is settled, and the loop goes on to its next `await` or to its
return.  There is no such turn (`none`) for a call that is not parked at an `await`. -/
def processQueue.resume (st : QueueState) (activation : Nat) : Option QueueState :=
  match st.activations[activation]? with
  | some ⟨taskQueue, bucketKey, .awaiting offset executionLimit i task⟩ =>
    (processQueue.afterAwait taskQueue offset executionLimit i).map fun turn =>
      { asyncTaskQueues := processQueue.cleanup st.asyncTaskQueues bucketKey turn.2
        activations := st.activations.set activation ⟨turn.1, bucketKey, turn.2⟩
        promises := st.promises
        trace := st.trace ++ [processQueue.settle bucketKey task]
          ++ processQueue.startEvents bucketKey turn.2 }
  | _ => none

/-- A turn of the event loop that concerns the queue: a call of `executeTask`, or the
settlement of the call awaited by a call of `processQueue`. -/
inductive Turn where
  | executeTask (bucketKey : String) (asyncFunction : AsyncFunction)
  | settled (activation : Nat)
deriving DecidableEq, Repr

/-- One turn. -/
def QueueState.step (st : QueueState) : Turn → Option QueueState
  | .executeTask bucketKey asyncFunction => executeTask st bucketKey asyncFunction
  | .settled activation => processQueue.resume st activation

/-- A sequence of turns, from a given state. -/
def QueueState.run : QueueState → List Turn → Option QueueState
  | st, [] => some st
  | st, turn :: turns => (st.step turn).bind fun st' => st'.run turns

/-- The promises of the entries pushed for a key, in order. -/
def submittedOn (bucketKey : String) (trace : List Event) : List Nat :=
  trace.filterMap fun e =>
    match e with
    | .submitted k p _ => if k = bucketKey then some p else none
    | _ => none

/-- The promises of the entries of a key whose awaitable has been called, in order. -/
def startedOn (bucketKey : String) (trace : List Event) : List Nat :=
  trace.filterMap fun e =>
    match e with
    | .started k p => if k = bucketKey then some p else none
    | _ => none

/-- The promises of the entries of a key that have been resolved or rejected, in order. -/
def settledOn (bucketKey : String) (trace : List Event) : List Nat :=
  trace.filterMap fun e =>
    match e with
    | .resolved k p _ => if k = bucketKey then some p else none
    | .rejected k p _ => if k = bucketKey then some p else none
    | _ => none

/-- The promises of all entries pushed, for any key, in order. -/
def submittedAll (trace : List Event) : List Nat :=
  trace.filterMap fun e =>
    match e with
    | .submitted _ p _ => some p
    | _ => none

/-- The promises on which `resolve` or `reject` has been called, for any key, in order. -/
def settledAll (trace : List Event) : List Nat :=
  trace.filterMap fun e =>
    match e with
    | .resolved _ p _ => some p
    | .rejected _ p _ => some p
    | _ => none

/-- The discipline of one key: an awaitable is called only when every entry of the key started
before has been settled, and it is the awaitable of the next entry pushed for the key; a promise
is settled only when its entry is the one started and not yet settled. -/
def Event.follows (history : List Event) : Event → Prop
  | .submitted _ _ _ => True
  | .started k p =>
    startedOn k history = settledOn k history ∧
    (submittedOn k history)[(startedOn k history).length]? = some p
  | .resolved k p _ => startedOn k history = settledOn k history ++ [p]
  | .rejected k p _ => startedOn k history = settledOn k history ++ [p]

/-- The invariant of the queue: the map has an entry for a key exactly when a call of
`processQueue` for the key is parked at an `await`; such a call stands inside its batch, at an
entry of its array, and the entries from there on are the entries pushed for the key and not
yet settled, in order; no call has thrown; an idle key has all its entries started and settled;
promises are numbered in order; every settlement carries the result of the function pushed with
the promise; and the events follow the discipline of `Event.follows`. -/
structure QueueInv (st : QueueState) : Prop where
  entry : ∀ key ref, st.asyncTaskQueues key = some ref →
    ∃ q o l i t, st.activations[ref]? = some ⟨q, key, .awaiting o l i t⟩
  active : ∀ ref q key o l i t, st.activations[ref]? = some ⟨q, key, .awaiting o l i t⟩ →
    st.asyncTaskQueues key = some ref ∧ i < l ∧ l ≤ q.length ∧
    l ≤ GARBAGE_COLLECTION_LIMIT ∧ q[i]? = some t ∧
    startedOn key st.trace = settledOn key st.trace ++ [t.promise] ∧
    submittedOn key st.trace
      = settledOn key st.trace ++ (q.drop i).map QueueTask.promise ∧
    ∀ task ∈ q.drop i, Event.submitted key task.promise task.awaitable ∈ st.trace
  sound : ∀ (ref : Nat) q key, st.activations[ref]? ≠ some (Activation.mk q key .threw)
  idle : ∀ key, st.asyncTaskQueues key = none →
    startedOn key st.trace = submittedOn key st.trace ∧
    settledOn key st.trace = submittedOn key st.trace
  tickets : submittedAll st.trace = List.range st.promises
  resolved : ∀ k p v, Event.resolved k p v ∈ st.trace →
    ∃ f, Event.submitted k p f ∈ st.trace ∧ f.result = .value v
  rejected : ∀ k p e, Event.rejected k p e ∈ st.trace →
    ∃ f, Event.submitted k p f ∈ st.trace ∧ f.result = .error e
  ordered : ∀ pre e post, st.trace = pre ++ e :: post → e.follows pre

/-- Five turns: three tasks for key `a` (the second one throws), one task for key `b`, and the
settlement of the first task of `a`. -/
def toyTurns : List Turn :=
  [.executeTask "a" ⟨"", .value "x"⟩, .executeTask "a" ⟨"f", .error "y"⟩,
    .executeTask "b" ⟨"", .value "z"⟩, .executeTask "a" ⟨"g", .value "w"⟩, .settled 0]

/-- The array of key `a` after `toyTurns`. -/
def toyTaskQueue : List QueueTask :=
  [⟨⟨"a", .value "x"⟩, 0⟩, ⟨⟨"f", .error "y"⟩, 1⟩, ⟨⟨"g", .value "w"⟩, 3⟩]

/-- The state after `toyTurns`: the second task of `a` and the task of `b` are in flight. -/
def toyQueueState : QueueState where
  asyncTaskQueues := fun k => if k = "b" then some 1 else if k = "a" then some 0 else none
  activations :=
    [⟨toyTaskQueue, "a", .awaiting 1 3 1 ⟨⟨"f", .error "y"⟩, 1⟩⟩,
      ⟨[⟨⟨"b", .value "z"⟩, 2⟩], "b", .awaiting 0 1 0 ⟨⟨"b", .value "z"⟩, 2⟩⟩]
  promises := 4
  trace :=
    [.submitted "a" 0 ⟨"a", .value "x"⟩, .started "a" 0, .submitted "a" 1 ⟨"f", .error "y"⟩,
      .submitted "b" 2 ⟨"b", .value "z"⟩, .started "b" 2, .submitted "a" 3 ⟨"g", .value "w"⟩,
      .resolved "a" 0 "x", .started "a" 1]

/-! ## Small concrete primitives, for evaluation on examples -/

/-- A toy instance of the primitives: the MAC appends the data to the key, the cipher
prefixes the data with the length of the key, a signature is the key followed by the payload,
and the envelope is laid out as key id, iteration, ciphertext length, ciphertext, signature. -/
def toyPrimitives : Primitives where
  calculateMAC := fun key data => key ++ data
  expandMessageKey := fun seed => (seed, seed)
  encryptMessage := fun key data _ => some (key.length :: data)
  decryptMessage := fun key data _ =>
    match data with
    | [] => none
    | n :: rest => if n = key.length then some rest else none
  calculateSignature := fun priv payload => priv ++ payload
  verifySignature := fun pub payload sig => decide (sig = pub ++ payload)
  signedPayload := fun keyId iteration ciphertext => keyId :: iteration :: ciphertext
  serializeEnvelope := fun m =>
    m.keyId :: m.iteration :: m.ciphertext.length :: (m.ciphertext ++ m.signature)
  parseEnvelope := fun b =>
    match b with
    | k :: i :: n :: rest => some ⟨k, i, rest.take n, rest.drop n⟩
    | _ => none
  maxMessageKeys := 2000
  CURRENT_VERSION := 3
  protobufEncode := fun id iteration chainKey signingKey =>
    id :: iteration :: chainKey.length :: (chainKey ++ signingKey)
  protobufDecode := fun b =>
    match b with
    | k :: i :: n :: rest => some (k, i, rest.take n, rest.drop n)
    | _ => none
  base64Encode := fun b => ⟨b.map (fun x => x + 1)⟩
  base64Decode := fun s => s.codeUnits.map (fun x => x - 1)

/-- The toy primitives with a cipher that always throws. -/
def failingCipherPrimitives : Primitives :=
  { toyPrimitives with encryptMessage := fun _ _ _ => none }

/-- A fixed outcome of the random source. -/
def toyRandom : RandomSource where
  randomInt := ⟨7, by decide⟩
  randomBytes := List.replicate 32 9
  randomBytes_length := by decide
  generateKeyPair := ⟨[5], [5]⟩

/-- The chain key of the state a record selects for sending. -/
def sendingChainKey (r : SenderKeyRecord) : Option SenderChainKey :=
  (r.getSenderKeyState none).map (fun p => p.2.senderChainKey)

/-- The current iteration of the state of key id `keyId` in the record stored under `id`. -/
def storedIteration (store : SenderKeyStore) (id : SenderKeyName) (keyId : Nat) : Option Nat :=
  (store.loadSenderKey id).bind
    (fun r => (r.getSenderKeyState (some keyId)).map (fun p => p.2.senderChainKey.iteration))

/-- The state a peer builds from the toy distribution message. -/
def toyPeerState : SenderKeyState :=
  { keyId := 7, senderChainKey := ⟨0, List.replicate 32 9⟩, signingKeyPublic := [5],
    signingKeyPrivate := none, senderMessageKeys := [] }

/-- The state `create` builds from the fixed random outcome. -/
def toySenderState : SenderKeyState :=
  { keyId := 7, senderChainKey := ⟨0, List.replicate 32 9⟩, signingKeyPublic := [5],
    signingKeyPrivate := some [5], senderMessageKeys := [] }

/-- The envelope object of the sender for the plaintext `[2]`, at iteration 2. -/
def toyMessage2 : SenderKeyMessage := ⟨7, 2, [35, 2], [5, 7, 2, 35, 2]⟩

/-- The store of a sender after `create` on an empty record, with the fixed random outcome. -/
def toySenderStore : SenderKeyStore :=
  (GroupSessionBuilder.create toyPrimitives toyRandom (emptyStore "g") "g").store

/-- The distribution message `create` returns for the fixed random outcome. -/
def toyDistribution : SenderKeyDistributionMessage :=
  SenderKeyDistributionMessage.fromFields toyPrimitives 7 0 (List.replicate 32 9) [5]

/-- The store of a peer after `process` of the distribution message on an empty record. -/
def toyPeerStore : SenderKeyStore :=
  (GroupSessionBuilder.process toyPrimitives (emptyStore "g") "g" toyDistribution).store

/-- The envelope bytes of the sender for the plaintext `[1]`, at iteration 0. -/
def toyEnvelope0 : Bytes := [7, 0, 2, 33, 1, 5, 7, 0, 33, 1]

/-- The envelope bytes of the sender for the plaintext `[2]`, at iteration 2. -/
def toyEnvelope2 : Bytes := [7, 2, 2, 35, 2, 5, 7, 2, 35, 2]

/-- The outcome of the random source in which `randomInt` draws 0. -/
def zeroRandom : RandomSource where
  randomInt := ⟨0, by decide⟩
  randomBytes := List.replicate 32 9
  randomBytes_length := by decide
  generateKeyPair := ⟨[5], [5]⟩

/-- A state at iteration 0 with an empty cache and the toy key pair. -/
def toyState : SenderKeyState :=
  { keyId := 7, senderChainKey := ⟨0, [9]⟩, signingKeyPublic := [5],
    signingKeyPrivate := some [5], senderMessageKeys := [] }

/-! ## The ratchet walk -/

theorem getNext_iterate (P : Primitives) (n : Nat) (c : SenderChainKey) :
    (SenderChainKey.getNext P)^[n] c = ⟨c.iteration + n, stepChain P n c.chainKey⟩ := by
  induction n generalizing c with
  | zero => simp [stepChain]
  | succ n ih =>
    rw [Function.iterate_succ_apply, ih]
    simp only [SenderChainKey.getNext, SenderChainKey.getDerivative, stepChain,
      SenderChainKey.CHAIN_KEY_SEED, Function.iterate_succ_apply]
    congr 1
    omega

theorem mem_skippedKeys (P : Primitives) (n : Nat) (c : SenderChainKey) (k : SenderMessageKey) :
    k ∈ skippedKeys P c n ↔
      ∃ j, j < n ∧ k = ⟨c.iteration + j,
        P.calculateMAC (stepChain P j c.chainKey) SenderChainKey.MESSAGE_KEY_SEED⟩ := by
  induction n generalizing c with
  | zero => simp [skippedKeys]
  | succ n ih =>
    simp only [skippedKeys, List.mem_cons, ih]
    constructor
    · rintro (h | ⟨j, hj, h⟩)
      · exact ⟨0, by omega, by
          simp [h, SenderChainKey.getSenderMessageKey, SenderChainKey.getDerivative, stepChain]⟩
      · refine ⟨j + 1, by omega, ?_⟩
        rw [h]
        simp only [SenderChainKey.getNext, SenderChainKey.getDerivative, stepChain,
          SenderChainKey.CHAIN_KEY_SEED, Function.iterate_succ_apply]
        congr 1
        omega
    · rintro ⟨j, hj, h⟩
      cases j with
      | zero =>
        left
        simp [h, SenderChainKey.getSenderMessageKey, SenderChainKey.getDerivative, stepChain]
      | succ j =>
        right
        refine ⟨j, by omega, ?_⟩
        rw [h]
        simp only [SenderChainKey.getNext, SenderChainKey.getDerivative, stepChain,
          SenderChainKey.CHAIN_KEY_SEED, Function.iterate_succ_apply]
        congr 1
        omega

theorem length_skippedKeys (P : Primitives) (n : Nat) (c : SenderChainKey) :
    (skippedKeys P c n).length = n := by
  induction n generalizing c with
  | zero => rfl
  | succ n ih => simp [skippedKeys, ih]

/-- The loop of `deriveSenderKey`, given as many rounds as the chain key is behind, steps the
chain key that many times and adds the skipped message keys one by one. -/
theorem deriveLoop_eq (P : Primitives) (iteration fuel : Nat) (c : SenderChainKey)
    (s : SenderKeyState) (h : c.iteration + fuel = iteration) :
    GroupCipher.deriveLoop P iteration fuel c s =
      ((SenderChainKey.getNext P)^[fuel] c,
        (skippedKeys P c fuel).foldl (fun a k => a.addSenderMessageKey P k) s) := by
  induction fuel generalizing c s with
  | zero => simp [GroupCipher.deriveLoop, skippedKeys]
  | succ n ih =>
    have hlt : c.getIteration < iteration := by
      simp only [SenderChainKey.getIteration]; omega
    simp only [GroupCipher.deriveLoop, hlt, if_true, skippedKeys, List.foldl_cons,
      Function.iterate_succ_apply]
    exact ih _ _ (by simp only [SenderChainKey.getNext]; omega)

theorem addAll_frame (P : Primitives) (ks : List SenderMessageKey) (s : SenderKeyState) :
    (ks.foldl (fun a k => a.addSenderMessageKey P k) s).keyId = s.keyId ∧
    (ks.foldl (fun a k => a.addSenderMessageKey P k) s).senderChainKey = s.senderChainKey ∧
    (ks.foldl (fun a k => a.addSenderMessageKey P k) s).signingKeyPublic = s.signingKeyPublic ∧
    (ks.foldl (fun a k => a.addSenderMessageKey P k) s).signingKeyPrivate
      = s.signingKeyPrivate := by
  induction ks generalizing s with
  | nil => simp
  | cons k ks ih =>
    simp only [List.foldl_cons]
    obtain ⟨h1, h2, h3, h4⟩ := ih (s.addSenderMessageKey P k)
    exact ⟨h1, h2, h3, h4⟩

theorem addAll_suffix (P : Primitives) (ks : List SenderMessageKey) (s : SenderKeyState) :
    (ks.foldl (fun a k => a.addSenderMessageKey P k) s).senderMessageKeys
      <:+ s.senderMessageKeys ++ ks := by
  induction ks generalizing s with
  | nil => simp
  | cons k ks ih =>
    simp only [List.foldl_cons]
    refine (ih (s.addSenderMessageKey P k)).trans ?_
    have h : (s.addSenderMessageKey P k).senderMessageKeys <:+ s.senderMessageKeys ++ [k] := by
      simp only [SenderKeyState.addSenderMessageKey]
      split
      · exact List.drop_suffix 1 _
      · exact List.suffix_refl _
    obtain ⟨t, ht⟩ := h
    exact ⟨t, by rw [← List.append_assoc, ht]; simp⟩

theorem addAll_noEvict (P : Primitives) (ks : List SenderMessageKey) (s : SenderKeyState)
    (h : s.senderMessageKeys.length + ks.length ≤ P.maxMessageKeys) :
    (ks.foldl (fun a k => a.addSenderMessageKey P k) s).senderMessageKeys
      = s.senderMessageKeys ++ ks := by
  induction ks generalizing s with
  | nil => simp
  | cons k ks ih =>
    simp only [List.foldl_cons, List.length_cons] at h ⊢
    have hk : (s.addSenderMessageKey P k).senderMessageKeys = s.senderMessageKeys ++ [k] := by
      simp only [SenderKeyState.addSenderMessageKey, List.length_append, List.length_singleton]
      rw [if_neg (by omega)]
    rw [ih _ (by rw [hk]; simp; omega), hk]
    simp

/-- The state the forward branch of `deriveSenderKey` leaves: the skipped keys added, the chain
key one step past the target. -/
theorem deriveSenderKey_forward (P : Primitives) (s : SenderKeyState) (t : Nat)
    (h1 : s.senderChainKey.iteration ≤ t) (h2 : t - s.senderChainKey.iteration ≤ 2000) :
    GroupCipher.deriveSenderKey P s t =
      (.ok ⟨t, P.calculateMAC (stepChain P (t - s.senderChainKey.iteration)
              s.senderChainKey.chainKey) SenderChainKey.MESSAGE_KEY_SEED⟩,
       ((skippedKeys P s.senderChainKey (t - s.senderChainKey.iteration)).foldl
          (fun a k => a.addSenderMessageKey P k) s).setSenderChainKey
          ⟨t + 1, stepChain P (t - s.senderChainKey.iteration + 1) s.senderChainKey.chainKey⟩) := by
  have hfuel : s.senderChainKey.iteration + (t - s.senderChainKey.iteration) = t := by omega
  simp only [GroupCipher.deriveSenderKey, SenderKeyState.getSenderChainKey,
    SenderChainKey.getIteration]
  rw [if_neg (by omega), if_neg (by omega), deriveLoop_eq P t _ _ _ hfuel, getNext_iterate]
  simp only [SenderChainKey.getSenderMessageKey, SenderChainKey.getNext,
    SenderChainKey.getDerivative, hfuel, stepChain, Function.iterate_succ_apply',
    SenderChainKey.CHAIN_KEY_SEED]

theorem deriveSenderKey_gap (P : Primitives) (s : SenderKeyState) (t : Nat)
    (h1 : s.senderChainKey.iteration ≤ t) (h2 : 2000 < t - s.senderChainKey.iteration) :
    GroupCipher.deriveSenderKey P s t = (.error .iterationExceedsLimit, s) := by
  simp only [GroupCipher.deriveSenderKey, SenderKeyState.getSenderChainKey,
    SenderChainKey.getIteration]
  rw [if_neg (by omega), if_pos (by omega)]

theorem deriveSenderKey_miss (P : Primitives) (s : SenderKeyState) (t : Nat)
    (h1 : t < s.senderChainKey.iteration)
    (h2 : ∀ k ∈ s.senderMessageKeys, k.iteration ≠ t) :
    GroupCipher.deriveSenderKey P s t =
      (.error (.outdatedCounter s.senderChainKey.iteration t), s) := by
  have hhas : s.hasSenderMessageKey t = false := by
    simp only [SenderKeyState.hasSenderMessageKey, List.any_eq_false, beq_iff_eq]
    exact fun k hk => h2 k hk
  simp only [GroupCipher.deriveSenderKey, SenderKeyState.getSenderChainKey,
    SenderChainKey.getIteration]
  rw [if_pos (by omega), hhas]
  simp

theorem deriveSenderKey_hit (P : Primitives) (s : SenderKeyState) (t : Nat)
    (h1 : t < s.senderChainKey.iteration) (k : SenderMessageKey)
    (h2 : s.senderMessageKeys.find? (fun k => k.iteration == t) = some k) :
    GroupCipher.deriveSenderKey P s t =
      (.ok k, { s with senderMessageKeys :=
        s.senderMessageKeys.filter (fun k => k.iteration != t) }) := by
  have hhas : s.hasSenderMessageKey t = true := by
    simp only [SenderKeyState.hasSenderMessageKey, List.any_eq_true]
    have hk : (fun k : SenderMessageKey => k.iteration == t) k = true :=
      List.find?_some (p := fun k : SenderMessageKey => k.iteration == t) h2
    exact ⟨k, List.mem_of_find?_eq_some h2, hk⟩
  simp only [GroupCipher.deriveSenderKey, SenderKeyState.getSenderChainKey,
    SenderChainKey.getIteration]
  rw [if_pos (by omega), hhas]
  simp [SenderKeyState.removeSenderMessageKey, h2]

/-- The three outcomes of a call below the current iteration or past it. -/
theorem deriveSenderKey_old (P : Primitives) (s : SenderKeyState) (t : Nat)
    (h1 : t < s.senderChainKey.iteration) :
    (∃ k, k ∈ s.senderMessageKeys ∧ k.iteration = t ∧
      GroupCipher.deriveSenderKey P s t =
        (.ok k, { s with senderMessageKeys :=
          s.senderMessageKeys.filter (fun k => k.iteration != t) })) ∨
    ((∀ k ∈ s.senderMessageKeys, k.iteration ≠ t) ∧
      GroupCipher.deriveSenderKey P s t =
        (.error (.outdatedCounter s.senderChainKey.iteration t), s)) := by
  cases hf : s.senderMessageKeys.find? (fun k => k.iteration == t) with
  | none =>
    right
    have : ∀ k ∈ s.senderMessageKeys, k.iteration ≠ t := by
      intro k hk
      have := List.find?_eq_none.1 hf k hk
      simpa using this
    exact ⟨this, deriveSenderKey_miss P s t h1 this⟩
  | some k =>
    left
    have hk : (fun k : SenderMessageKey => k.iteration == t) k = true :=
      List.find?_some (p := fun k : SenderMessageKey => k.iteration == t) hf
    exact ⟨k, List.mem_of_find?_eq_some hf, by simpa using hk,
      deriveSenderKey_hit P s t h1 k hf⟩

/-! ## Claims on the ratchet resolution -/

/-- C5 (skip bound): for a target at or past the current iteration `c`, `deriveSenderKey` fails
with the iteration-limit error exactly when `t - c > 2000`, and returns a key otherwise; so
`c + 2001` fails and `c + 2000` succeeds. -/
theorem skip_bound_enforcement (P : Primitives) (s : SenderKeyState) (t : Nat)
    (h : s.senderChainKey.iteration ≤ t) :
    ((GroupCipher.deriveSenderKey P s t).1 = .error .iterationExceedsLimit
        ↔ 2000 < t - s.senderChainKey.iteration) ∧
    (t - s.senderChainKey.iteration ≤ 2000 →
        ∃ k, (GroupCipher.deriveSenderKey P s t).1 = .ok k) ∧
    (GroupCipher.deriveSenderKey P s (s.senderChainKey.iteration + 2001)).1
        = .error .iterationExceedsLimit ∧
    (∃ k, (GroupCipher.deriveSenderKey P s (s.senderChainKey.iteration + 2000)).1 = .ok k) := by
  refine ⟨⟨?_, ?_⟩, ?_, ?_, ?_⟩
  · intro he
    by_contra hn
    rw [deriveSenderKey_forward P s t h (by omega)] at he
    simp at he
  · intro hg
    rw [deriveSenderKey_gap P s t h hg]
  · intro hg
    exact ⟨_, by rw [deriveSenderKey_forward P s t h hg]⟩
  · rw [deriveSenderKey_gap P s _ (by omega) (by omega)]
  · exact ⟨_, by rw [deriveSenderKey_forward P s _ (by omega) (by omega)]⟩

theorem skip_bound_enforcement_witness :
    toyState.senderChainKey.iteration ≤ 2000 ∧
    (((GroupCipher.deriveSenderKey toyPrimitives toyState 2000).1 = .error .iterationExceedsLimit
        ↔ 2000 < 2000 - toyState.senderChainKey.iteration) ∧
    (2000 - toyState.senderChainKey.iteration ≤ 2000 →
        ∃ k, (GroupCipher.deriveSenderKey toyPrimitives toyState 2000).1 = .ok k) ∧
    (GroupCipher.deriveSenderKey toyPrimitives toyState
        (toyState.senderChainKey.iteration + 2001)).1 = .error .iterationExceedsLimit ∧
    (∃ k, (GroupCipher.deriveSenderKey toyPrimitives toyState
        (toyState.senderChainKey.iteration + 2000)).1 = .ok k)) :=
  ⟨by decide, skip_bound_enforcement toyPrimitives toyState 2000 (by decide)⟩

/-! ## Claims on `decrypt` and `encrypt` as store operations -/

/-- C6 (tamper detection): when the signature of the parsed envelope does not verify against
the signing public key of the selected state, `decrypt` fails with the invalid-signature error
after its load and nothing else: the record in memory (hence the chain key and the cache of
every state) and the store are what they were, so any next envelope is treated exactly as it
would have been before the call. -/
theorem tamper_detection (P : Primitives) (store : SenderKeyStore) (id : SenderKeyName)
    (bytes : Bytes) (record : SenderKeyRecord) (m : SenderKeyMessage) (idx : Nat)
    (s : SenderKeyState)
    (hload : store.loadSenderKey id = some record)
    (hparse : P.parseEnvelope bytes = some m)
    (hsel : record.getSenderKeyState (some m.keyId) = some (idx, s))
    (hbad : P.verifySignature s.signingKeyPublic
      (P.signedPayload m.keyId m.iteration m.ciphertext) m.signature = false) :
    (GroupCipher.decrypt P store id bytes).result = .error .signatureInvalid ∧
    (GroupCipher.decrypt P store id bytes).record = some record ∧
    (GroupCipher.decrypt P store id bytes).store = store ∧
    (GroupCipher.decrypt P store id bytes).calls = [.loadSenderKey id] ∧
    ∀ next, GroupCipher.decrypt P (GroupCipher.decrypt P store id bytes).store id next
      = GroupCipher.decrypt P store id next := by
  have h : GroupCipher.decrypt P store id bytes
      = ⟨.error .signatureInvalid, some record, store, [.loadSenderKey id]⟩ := by
    simp only [GroupCipher.decrypt, hload, SenderKeyMessage.fromSerialized, hparse, hsel,
      SenderKeyMessage.verifySignature, SenderKeyState.getSigningKeyPublic, hbad]
    simp
  rw [h]
  simp

theorem tamper_detection_witness :
    toyPeerStore.loadSenderKey "g" = some ⟨[toyPeerState]⟩ ∧
    toyPrimitives.parseEnvelope [7, 2, 2, 35, 2, 5, 7, 2, 35, 3]
      = some ⟨7, 2, [35, 2], [5, 7, 2, 35, 3]⟩ ∧
    (GroupCipher.decrypt toyPrimitives toyPeerStore "g"
      [7, 2, 2, 35, 2, 5, 7, 2, 35, 3]).result = .error .signatureInvalid ∧
    (GroupCipher.decrypt toyPrimitives toyPeerStore "g"
      [7, 2, 2, 35, 2, 5, 7, 2, 35, 3]).store = toyPeerStore ∧
    (GroupCipher.decrypt toyPrimitives
      (GroupCipher.decrypt toyPrimitives toyPeerStore "g"
        [7, 2, 2, 35, 2, 5, 7, 2, 35, 3]).store "g" toyEnvelope0).result = .ok [1] :=
  ⟨by rfl, by rfl,
    (tamper_detection toyPrimitives toyPeerStore "g" [7, 2, 2, 35, 2, 5, 7, 2, 35, 3]
      ⟨[toyPeerState]⟩ ⟨7, 2, [35, 2], [5, 7, 2, 35, 3]⟩ 0 toyPeerState
      (by rfl) (by rfl) (by rfl) (by rfl)).1,
    (tamper_detection toyPrimitives toyPeerStore "g" [7, 2, 2, 35, 2, 5, 7, 2, 35, 3]
      ⟨[toyPeerState]⟩ ⟨7, 2, [35, 2], [5, 7, 2, 35, 3]⟩ 0 toyPeerState
      (by rfl) (by rfl) (by rfl) (by rfl)).2.2.1,
    by rfl⟩

theorem encryptEnvelope_calls (P : Primitives) (store : SenderKeyStore) (id : SenderKeyName)
    (x : Bytes) :
    match (GroupCipher.encryptEnvelope P store id x).result with
    | .ok _ => ∃ r, (GroupCipher.encryptEnvelope P store id x).calls
          = [.loadSenderKey id, .storeSenderKey id r] ∧
        (GroupCipher.encryptEnvelope P store id x).store = store.storeSenderKey id r
    | .error _ => (GroupCipher.encryptEnvelope P store id x).calls = [.loadSenderKey id] ∧
        (GroupCipher.encryptEnvelope P store id x).store = store := by
  unfold GroupCipher.encryptEnvelope
  cases hl : store.loadSenderKey id with
  | none => simp
  | some record =>
    simp only []
    cases hs : record.getSenderKeyState none with
    | none => simp
    | some p =>
      obtain ⟨idx, s⟩ := p
      simp only []
      generalize GroupCipher.deriveSenderKey P s
        (if s.getSenderChainKey.getIteration = 0 then 0
          else s.getSenderChainKey.getIteration + 1) = d
      obtain ⟨(e | k), s'⟩ := d
      · simp
      · simp only []
        cases hc : GroupCipher.generateCipherText P (k.getIv P) (k.getCipherKey P) x with
        | error e => simp
        | ok c =>
          simp only []
          cases hm : SenderKeyMessage.create P s'.getKeyId k.getIteration c
            s'.getSigningKeyPrivate with
          | error e => simp
          | ok m => simp

/-- C7 (writes only on success): `encrypt` and `decrypt` call `storeSenderKey` exactly once, as
the last call on the store, when they succeed; when they fail, for whatever reason, the only
call they make is the load and the store is what it was. -/
theorem store_written_only_on_success (P : Primitives) (store : SenderKeyStore)
    (id : SenderKeyName) (x : Bytes) :
    (match (GroupCipher.encrypt P store id x).result with
      | .ok _ => ∃ r, (GroupCipher.encrypt P store id x).calls
            = [.loadSenderKey id, .storeSenderKey id r] ∧
          (GroupCipher.encrypt P store id x).store = store.storeSenderKey id r
      | .error _ => (GroupCipher.encrypt P store id x).calls = [.loadSenderKey id] ∧
          (GroupCipher.encrypt P store id x).store = store) ∧
    (match (GroupCipher.decrypt P store id x).result with
      | .ok _ => ∃ r, (GroupCipher.decrypt P store id x).calls
            = [.loadSenderKey id, .storeSenderKey id r] ∧
          (GroupCipher.decrypt P store id x).store = store.storeSenderKey id r
      | .error _ => (GroupCipher.decrypt P store id x).calls = [.loadSenderKey id] ∧
          (GroupCipher.decrypt P store id x).store = store) := by
  constructor
  · have h := encryptEnvelope_calls P store id x
    simp only [GroupCipher.encrypt]
    cases hr : (GroupCipher.encryptEnvelope P store id x).result with
    | error e => rw [hr] at h; simpa [Except.map] using h
    | ok m => rw [hr] at h; simpa [Except.map] using h
  · unfold GroupCipher.decrypt
    cases hl : store.loadSenderKey id with
    | none => simp
    | some record =>
      simp only []
      cases hp : SenderKeyMessage.fromSerialized P x with
      | error e => simp
      | ok m =>
        simp only []
        cases hs : record.getSenderKeyState (some m.keyId) with
        | none => simp
        | some p =>
          obtain ⟨idx, s⟩ := p
          simp only []
          cases hv : m.verifySignature P s.getSigningKeyPublic with
          | error e => simp
          | ok u =>
            simp only []
            generalize GroupCipher.deriveSenderKey P s m.iteration = d
            obtain ⟨(e | k), s'⟩ := d
            · simp
            · simp only []
              cases hc : GroupCipher.extractPlainText P (k.getIv P) (k.getCipherKey P)
                m.ciphertext with
              | error e => simp
              | ok c => simp

/-! ## The shape of a call once the state is selected -/

theorem deriveSenderKey_frame (P : Primitives) (s : SenderKeyState) (t : Nat) :
    (GroupCipher.deriveSenderKey P s t).2.keyId = s.keyId ∧
    (GroupCipher.deriveSenderKey P s t).2.signingKeyPublic = s.signingKeyPublic ∧
    (GroupCipher.deriveSenderKey P s t).2.signingKeyPrivate = s.signingKeyPrivate := by
  by_cases h1 : t < s.senderChainKey.iteration
  · rcases deriveSenderKey_old P s t h1 with ⟨k, _, _, h⟩ | ⟨_, h⟩ <;> rw [h] <;> simp
  · by_cases h2 : 2000 < t - s.senderChainKey.iteration
    · rw [deriveSenderKey_gap P s t (by omega) h2]
      simp
    · rw [deriveSenderKey_forward P s t (by omega) (by omega)]
      obtain ⟨a, _, b, c⟩ := addAll_frame P
        (skippedKeys P s.senderChainKey (t - s.senderChainKey.iteration)) s
      exact ⟨a, b, c⟩

theorem encryptEnvelope_selected (P : Primitives) (store : SenderKeyStore) (id : SenderKeyName)
    (x : Bytes) (record : SenderKeyRecord) (idx : Nat) (s s' : SenderKeyState)
    (k : SenderMessageKey)
    (hl : store.loadSenderKey id = some record)
    (hs : record.getSenderKeyState none = some (idx, s))
    (hd : GroupCipher.deriveSenderKey P s
      (if s.senderChainKey.iteration = 0 then 0 else s.senderChainKey.iteration + 1)
        = (.ok k, s')) :
    GroupCipher.encryptEnvelope P store id x =
      match P.encryptMessage (k.getCipherKey P) x (k.getIv P) with
      | none => ⟨.error .invalidMessage, some (record.putState idx s'), store,
          [.loadSenderKey id]⟩
      | some c =>
        match s'.signingKeyPrivate with
        | none => ⟨.error .noSigningKey, some (record.putState idx s'), store,
            [.loadSenderKey id]⟩
        | some priv =>
          ⟨.ok ⟨s'.keyId, k.iteration, c,
              P.calculateSignature priv (P.signedPayload s'.keyId k.iteration c)⟩,
            some (record.putState idx s'), store.storeSenderKey id (record.putState idx s'),
            [.loadSenderKey id, .storeSenderKey id (record.putState idx s')]⟩ := by
  simp only [GroupCipher.encryptEnvelope, hl, hs, SenderKeyState.getSenderChainKey,
    SenderChainKey.getIteration, hd, GroupCipher.generateCipherText]
  cases P.encryptMessage (k.getCipherKey P) x (k.getIv P) with
  | none => rfl
  | some c =>
    simp only [SenderKeyMessage.create, SenderKeyState.getSigningKeyPrivate,
      SenderKeyState.getKeyId, SenderMessageKey.getIteration]
    cases s'.signingKeyPrivate with
    | none => rfl
    | some priv => rfl

theorem decrypt_selected (P : Primitives) (store : SenderKeyStore) (id : SenderKeyName)
    (bytes : Bytes) (record : SenderKeyRecord) (m : SenderKeyMessage) (idx : Nat)
    (s : SenderKeyState)
    (hl : store.loadSenderKey id = some record)
    (hp : P.parseEnvelope bytes = some m)
    (hs : record.getSenderKeyState (some m.keyId) = some (idx, s))
    (hv : P.verifySignature s.signingKeyPublic
      (P.signedPayload m.keyId m.iteration m.ciphertext) m.signature = true) :
    GroupCipher.decrypt P store id bytes =
      match (GroupCipher.deriveSenderKey P s m.iteration).1 with
      | .error e => ⟨.error e,
          some (record.putState idx (GroupCipher.deriveSenderKey P s m.iteration).2), store,
          [.loadSenderKey id]⟩
      | .ok k =>
        match P.decryptMessage (k.getCipherKey P) m.ciphertext (k.getIv P) with
        | none => ⟨.error .invalidMessage,
            some (record.putState idx (GroupCipher.deriveSenderKey P s m.iteration).2), store,
            [.loadSenderKey id]⟩
        | some p => ⟨.ok p,
            some (record.putState idx (GroupCipher.deriveSenderKey P s m.iteration).2),
            store.storeSenderKey id
              (record.putState idx (GroupCipher.deriveSenderKey P s m.iteration).2),
            [.loadSenderKey id, .storeSenderKey id
              (record.putState idx (GroupCipher.deriveSenderKey P s m.iteration).2)]⟩ := by
  simp only [GroupCipher.decrypt, hl, SenderKeyMessage.fromSerialized, hp, hs,
    SenderKeyMessage.verifySignature, SenderKeyState.getSigningKeyPublic, hv, if_true,
    GroupCipher.extractPlainText]
  cases (GroupCipher.deriveSenderKey P s m.iteration).1 with
  | error e => rfl
  | ok k =>
    simp only []
    cases P.decryptMessage (k.getCipherKey P) m.ciphertext (k.getIv P) with
    | none => rfl
    | some p => rfl

theorem decrypt_badSignature (P : Primitives) (store : SenderKeyStore) (id : SenderKeyName)
    (bytes : Bytes) (record : SenderKeyRecord) (m : SenderKeyMessage) (idx : Nat)
    (s : SenderKeyState)
    (hl : store.loadSenderKey id = some record)
    (hp : P.parseEnvelope bytes = some m)
    (hs : record.getSenderKeyState (some m.keyId) = some (idx, s))
    (hv : P.verifySignature s.signingKeyPublic
      (P.signedPayload m.keyId m.iteration m.ciphertext) m.signature = false) :
    GroupCipher.decrypt P store id bytes
      = ⟨.error .signatureInvalid, some record, store, [.loadSenderKey id]⟩ := by
  simp only [GroupCipher.decrypt, hl, SenderKeyMessage.fromSerialized, hp, hs,
    SenderKeyMessage.verifySignature, SenderKeyState.getSigningKeyPublic, hv]
  simp

theorem deriveSenderKey_ok_old (P : Primitives) (s : SenderKeyState) (t : Nat)
    (k : SenderMessageKey) (hk : (GroupCipher.deriveSenderKey P s t).1 = .ok k)
    (h1 : t < s.senderChainKey.iteration) :
    k ∈ s.senderMessageKeys ∧ k.iteration = t ∧
    (GroupCipher.deriveSenderKey P s t).2 =
      { s with senderMessageKeys := s.senderMessageKeys.filter (fun k => k.iteration != t) } := by
  rcases deriveSenderKey_old P s t h1 with ⟨k', hm, hi, h⟩ | ⟨_, h⟩
  · rw [h] at hk ⊢
    simp only [Except.ok.injEq] at hk
    subst hk
    exact ⟨hm, hi, rfl⟩
  · rw [h] at hk
    simp at hk

theorem deriveSenderKey_ok_forward (P : Primitives) (s : SenderKeyState) (t : Nat)
    (k : SenderMessageKey) (hk : (GroupCipher.deriveSenderKey P s t).1 = .ok k)
    (h1 : s.senderChainKey.iteration ≤ t) :
    t - s.senderChainKey.iteration ≤ 2000 ∧
    k = ⟨t, P.calculateMAC (stepChain P (t - s.senderChainKey.iteration)
          s.senderChainKey.chainKey) SenderChainKey.MESSAGE_KEY_SEED⟩ ∧
    (GroupCipher.deriveSenderKey P s t).2 =
      ((skippedKeys P s.senderChainKey (t - s.senderChainKey.iteration)).foldl
          (fun a k => a.addSenderMessageKey P k) s).setSenderChainKey
          ⟨t + 1, stepChain P (t - s.senderChainKey.iteration + 1) s.senderChainKey.chainKey⟩ := by
  by_cases h2 : 2000 < t - s.senderChainKey.iteration
  · rw [deriveSenderKey_gap P s t h1 h2] at hk
    simp at hk
  · have h := deriveSenderKey_forward P s t h1 (by omega)
    rw [h] at hk ⊢
    simp only [Except.ok.injEq] at hk
    exact ⟨by omega, hk.symm, rfl⟩

/-- C10 (decrypt state transition, amended): when `decrypt` succeeds on a state at iteration `N`
for an envelope of iteration `target`, the stored state is the one `deriveSenderKey` left and
its iteration is `max N (target + 1)`: `target + 1` for a target at or past `N`, and `N`
itself, with the chain key untouched, for a target below `N` served from the cache. -/
theorem decrypt_state_transition (P : Primitives) (store : SenderKeyStore)
    (id : SenderKeyName) (bytes : Bytes) (record : SenderKeyRecord) (m : SenderKeyMessage)
    (idx : Nat) (s : SenderKeyState) (p : Bytes)
    (hl : store.loadSenderKey id = some record)
    (hp : P.parseEnvelope bytes = some m)
    (hs : record.getSenderKeyState (some m.keyId) = some (idx, s))
    (hok : (GroupCipher.decrypt P store id bytes).result = .ok p) :
    (GroupCipher.decrypt P store id bytes).store.loadSenderKey id
      = some (record.putState idx (GroupCipher.deriveSenderKey P s m.iteration).2) ∧
    (GroupCipher.deriveSenderKey P s m.iteration).2.senderChainKey.iteration
      = max s.senderChainKey.iteration (m.iteration + 1) ∧
    (m.iteration < s.senderChainKey.iteration →
      (GroupCipher.deriveSenderKey P s m.iteration).2.senderChainKey = s.senderChainKey) ∧
    (s.senderChainKey.iteration ≤ m.iteration →
      (GroupCipher.deriveSenderKey P s m.iteration).2.senderChainKey.iteration
        = m.iteration + 1) := by
  cases hv : P.verifySignature s.signingKeyPublic
      (P.signedPayload m.keyId m.iteration m.ciphertext) m.signature with
  | false =>
    rw [decrypt_badSignature P store id bytes record m idx s hl hp hs hv] at hok
    simp at hok
  | true =>
    rw [decrypt_selected P store id bytes record m idx s hl hp hs hv] at hok ⊢
    cases hd : (GroupCipher.deriveSenderKey P s m.iteration).1 with
    | error e => rw [hd] at hok; simp at hok
    | ok k =>
      rw [hd] at hok
      simp only [] at hok ⊢
      cases hc : P.decryptMessage (k.getCipherKey P) m.ciphertext (k.getIv P) with
      | none => rw [hc] at hok; simp at hok
      | some q =>
        have hold : m.iteration < s.senderChainKey.iteration →
            (GroupCipher.deriveSenderKey P s m.iteration).2.senderChainKey
              = s.senderChainKey := by
          intro h1
          rw [(deriveSenderKey_ok_old P s m.iteration k hd h1).2.2]
        have hnew : s.senderChainKey.iteration ≤ m.iteration →
            (GroupCipher.deriveSenderKey P s m.iteration).2.senderChainKey.iteration
              = m.iteration + 1 := by
          intro h1
          rw [(deriveSenderKey_ok_forward P s m.iteration k hd h1).2.2]
          rfl
        refine ⟨by simp [SenderKeyStore.storeSenderKey, SenderKeyStore.loadSenderKey], ?_,
          hold, hnew⟩
        by_cases h1 : m.iteration < s.senderChainKey.iteration
        · rw [hold h1]; omega
        · rw [hnew (by omega)]; omega

theorem decrypt_state_transition_witness :
    toyPeerStore.loadSenderKey "g" = some ⟨[toyPeerState]⟩ ∧
    toyPrimitives.parseEnvelope toyEnvelope2 = some toyMessage2 ∧
    (⟨[toyPeerState]⟩ : SenderKeyRecord).getSenderKeyState (some toyMessage2.keyId)
      = some (0, toyPeerState) ∧
    (GroupCipher.decrypt toyPrimitives toyPeerStore "g" toyEnvelope2).result = .ok [2] ∧
    (GroupCipher.decrypt toyPrimitives toyPeerStore "g" toyEnvelope2).store.loadSenderKey "g"
      = some ((⟨[toyPeerState]⟩ : SenderKeyRecord).putState 0
          (GroupCipher.deriveSenderKey toyPrimitives toyPeerState toyMessage2.iteration).2) ∧
    (GroupCipher.deriveSenderKey toyPrimitives toyPeerState
        toyMessage2.iteration).2.senderChainKey.iteration
      = max toyPeerState.senderChainKey.iteration (toyMessage2.iteration + 1) ∧
    (toyMessage2.iteration < toyPeerState.senderChainKey.iteration →
      (GroupCipher.deriveSenderKey toyPrimitives toyPeerState
        toyMessage2.iteration).2.senderChainKey = toyPeerState.senderChainKey) ∧
    (toyPeerState.senderChainKey.iteration ≤ toyMessage2.iteration →
      (GroupCipher.deriveSenderKey toyPrimitives toyPeerState
        toyMessage2.iteration).2.senderChainKey.iteration = toyMessage2.iteration + 1) :=
  ⟨by rfl, by rfl, by rfl, by rfl,
    decrypt_state_transition toyPrimitives toyPeerStore "g" toyEnvelope2 ⟨[toyPeerState]⟩
      toyMessage2 0 toyPeerState [2] (by rfl) (by rfl) (by rfl) (by rfl)⟩

/-- The claim C10 as stated fails: a peer that resolved iteration 2 (and so stands at iteration
3) decrypts the envelope of iteration 0 from its cache and still stands at iteration 3, not at
`max 3 0 + 1`. -/
theorem decrypt_state_transition_counterexample :
    (encryptAll toyPrimitives "g" toySenderStore [[1], [2]]).1
      = .ok [toyEnvelope0, toyEnvelope2] ∧
    storedIteration (GroupCipher.decrypt toyPrimitives toyPeerStore "g" toyEnvelope2).store "g" 7
      = some 3 ∧
    (GroupCipher.decrypt toyPrimitives
      (GroupCipher.decrypt toyPrimitives toyPeerStore "g" toyEnvelope2).store "g"
      toyEnvelope0).result = .ok [1] ∧
    storedIteration (GroupCipher.decrypt toyPrimitives
      (GroupCipher.decrypt toyPrimitives toyPeerStore "g" toyEnvelope2).store "g"
      toyEnvelope0).store "g" 7 = some 3 ∧
    (3 : Nat) ≠ max 3 0 + 1 := by
  refine ⟨by rfl, by rfl, by rfl, by rfl, by decide⟩

/-- What a successful `encrypt` call did, read back from its result. -/
theorem encryptEnvelope_ok (P : Primitives) (store : SenderKeyStore) (id : SenderKeyName)
    (x : Bytes) (record : SenderKeyRecord) (idx : Nat) (s : SenderKeyState)
    (env : SenderKeyMessage)
    (hl : store.loadSenderKey id = some record)
    (hs : record.getSenderKeyState none = some (idx, s))
    (hok : (GroupCipher.encryptEnvelope P store id x).result = .ok env) :
    ∃ k priv,
      (GroupCipher.deriveSenderKey P s
        (if s.senderChainKey.iteration = 0 then 0 else s.senderChainKey.iteration + 1)).1
          = .ok k ∧
      P.encryptMessage (k.getCipherKey P) x (k.getIv P) = some env.ciphertext ∧
      s.signingKeyPrivate = some priv ∧
      env = ⟨s.keyId, k.iteration, env.ciphertext,
        P.calculateSignature priv (P.signedPayload s.keyId k.iteration env.ciphertext)⟩ ∧
      GroupCipher.encryptEnvelope P store id x =
        ⟨.ok env,
          some (record.putState idx (GroupCipher.deriveSenderKey P s
            (if s.senderChainKey.iteration = 0 then 0 else s.senderChainKey.iteration + 1)).2),
          store.storeSenderKey id (record.putState idx (GroupCipher.deriveSenderKey P s
            (if s.senderChainKey.iteration = 0 then 0 else s.senderChainKey.iteration + 1)).2),
          [.loadSenderKey id, .storeSenderKey id (record.putState idx
            (GroupCipher.deriveSenderKey P s
              (if s.senderChainKey.iteration = 0 then 0
                else s.senderChainKey.iteration + 1)).2)]⟩ := by
  obtain ⟨hkid, _, hpriv⟩ := deriveSenderKey_frame P s
    (if s.senderChainKey.iteration = 0 then 0 else s.senderChainKey.iteration + 1)
  generalize hd : GroupCipher.deriveSenderKey P s
    (if s.senderChainKey.iteration = 0 then 0 else s.senderChainKey.iteration + 1) = d at *
  obtain ⟨(e | k), s'⟩ := d
  · simp [GroupCipher.encryptEnvelope, hl, hs, SenderKeyState.getSenderChainKey,
      SenderChainKey.getIteration, hd] at hok
  · rw [encryptEnvelope_selected P store id x record idx s s' k hl hs hd] at hok ⊢
    simp only [] at hkid hpriv ⊢
    cases hc : P.encryptMessage (k.getCipherKey P) x (k.getIv P) with
    | none => rw [hc] at hok; simp at hok
    | some c =>
      rw [hc] at hok
      simp only [] at hok ⊢
      cases hp : s'.signingKeyPrivate with
      | none => rw [hp] at hok; simp at hok
      | some priv =>
        rw [hp] at hok
        simp only [Except.ok.injEq] at hok
        subst hok
        rw [hkid]
        exact ⟨k, priv, rfl, hc, by rw [← hpriv, hp], rfl, rfl⟩

/-- C8 (cipher failure in `encrypt`, amended): when the cipher primitive throws, `encrypt`
fails with `Invalid message exception`, makes no call on the store but the load, and the store
(hence the persisted record) is what it was; the loaded record object however was already
mutated by `deriveSenderKey`: its sending state stands one step past the target. -/
theorem encrypt_cipher_failure (P : Primitives) (store : SenderKeyStore) (id : SenderKeyName)
    (x : Bytes) (record : SenderKeyRecord) (idx : Nat) (s : SenderKeyState)
    (k : SenderMessageKey)
    (hl : store.loadSenderKey id = some record)
    (hs : record.getSenderKeyState none = some (idx, s))
    (hd : (GroupCipher.deriveSenderKey P s
      (if s.senderChainKey.iteration = 0 then 0 else s.senderChainKey.iteration + 1)).1
        = .ok k)
    (hfail : P.encryptMessage (k.getCipherKey P) x (k.getIv P) = none) :
    (GroupCipher.encrypt P store id x).result = .error .invalidMessage ∧
    (GroupCipher.encrypt P store id x).calls = [.loadSenderKey id] ∧
    (GroupCipher.encrypt P store id x).store = store ∧
    (GroupCipher.encrypt P store id x).store.loadSenderKey id = some record ∧
    (GroupCipher.encrypt P store id x).record
      = some (record.putState idx (GroupCipher.deriveSenderKey P s
          (if s.senderChainKey.iteration = 0 then 0 else s.senderChainKey.iteration + 1)).2) ∧
    (GroupCipher.deriveSenderKey P s
      (if s.senderChainKey.iteration = 0 then 0
        else s.senderChainKey.iteration + 1)).2.senderChainKey.iteration
      = (if s.senderChainKey.iteration = 0 then 0 else s.senderChainKey.iteration + 1) + 1 := by
  have hle : s.senderChainKey.iteration ≤
      (if s.senderChainKey.iteration = 0 then 0 else s.senderChainKey.iteration + 1) := by
    split <;> omega
  have hfw := deriveSenderKey_ok_forward P s _ k hd hle
  have hpair : GroupCipher.deriveSenderKey P s
      (if s.senderChainKey.iteration = 0 then 0 else s.senderChainKey.iteration + 1)
      = (.ok k, (GroupCipher.deriveSenderKey P s
      (if s.senderChainKey.iteration = 0 then 0 else s.senderChainKey.iteration + 1)).2) := by
    rw [← hd]
  have he := encryptEnvelope_selected P store id x record idx s _ k hl hs hpair
  rw [hfail] at he
  simp only [GroupCipher.encrypt, he, Except.map]
  refine ⟨trivial, trivial, trivial, hl, trivial, ?_⟩
  rw [hfw.2.2]
  rfl

theorem encrypt_cipher_failure_witness :
    toySenderStore.loadSenderKey "g" = some ⟨[toySenderState]⟩ ∧
    (⟨[toySenderState]⟩ : SenderKeyRecord).getSenderKeyState none = some (0, toySenderState) ∧
    (GroupCipher.encrypt failingCipherPrimitives toySenderStore "g" [1]).result
      = .error .invalidMessage ∧
    (GroupCipher.encrypt failingCipherPrimitives toySenderStore "g" [1]).store
      = toySenderStore :=
  ⟨by rfl, by rfl,
    (encrypt_cipher_failure failingCipherPrimitives toySenderStore "g" [1] ⟨[toySenderState]⟩ 0
      toySenderState ⟨0, List.replicate 32 9 ++ [1]⟩ (by rfl) (by rfl) (by rfl) (by rfl)).1,
    (encrypt_cipher_failure failingCipherPrimitives toySenderStore "g" [1] ⟨[toySenderState]⟩ 0
      toySenderState ⟨0, List.replicate 32 9 ++ [1]⟩ (by rfl) (by rfl) (by rfl) (by rfl)).2.2.1⟩

/-- The claim C8 as stated fails: with a cipher that throws, `encrypt` fails and the store is
untouched, yet the sending state of the loaded record went from iteration 0 to iteration 1. -/
theorem encrypt_cipher_failure_counterexample :
    (GroupCipher.encrypt failingCipherPrimitives toySenderStore "g" [1]).result
      = .error .invalidMessage ∧
    (toySenderStore.loadSenderKey "g").bind sendingChainKey
      = some ⟨0, List.replicate 32 9⟩ ∧
    (GroupCipher.encrypt failingCipherPrimitives toySenderStore "g" [1]).record.bind
      sendingChainKey = some ⟨1, List.replicate 32 9 ++ [2]⟩ ∧
    (GroupCipher.encrypt failingCipherPrimitives toySenderStore "g" [1]).record.bind
      sendingChainKey ≠ (toySenderStore.loadSenderKey "g").bind sendingChainKey := by
  refine ⟨by rfl, by rfl, by rfl, by decide⟩

/-- C9 (encrypt advances the chain, amended): a successful `encrypt` on a sending state with
chain key `(it, seed)` returns the serialized envelope of target iteration `0` when `it = 0`
and `it + 1` when `it > 0`; the ciphertext is made with the message key of that target, whose
seed is `HMAC(seed, 0x01)` for `it = 0` and `HMAC(stepChain(seed), 0x01)` for `it > 0`; and the
stored state has chain key `(1, stepChain(seed))` for `it = 0` and
`(it + 2, stepChain^2(seed))` for `it > 0`. -/
theorem encrypt_advances_chain (P : Primitives) (store : SenderKeyStore) (id : SenderKeyName)
    (x : Bytes) (record : SenderKeyRecord) (idx : Nat) (s : SenderKeyState) (bytes : Bytes)
    (hl : store.loadSenderKey id = some record)
    (hs : record.getSenderKeyState none = some (idx, s))
    (hok : (GroupCipher.encrypt P store id x).result = .ok bytes) :
    ∃ (env : SenderKeyMessage) (s' : SenderKeyState),
      bytes = P.serializeEnvelope env ∧
      (GroupCipher.encrypt P store id x).store.loadSenderKey id
        = some (record.putState idx s') ∧
      (s.senderChainKey.iteration = 0 →
        env.iteration = 0 ∧
        P.encryptMessage
          (SenderMessageKey.getCipherKey P ⟨0, P.calculateMAC s.senderChainKey.chainKey [0x01]⟩)
          x (SenderMessageKey.getIv P ⟨0, P.calculateMAC s.senderChainKey.chainKey [0x01]⟩)
          = some env.ciphertext ∧
        s'.senderChainKey = ⟨1, stepChain P 1 s.senderChainKey.chainKey⟩) ∧
      (0 < s.senderChainKey.iteration →
        env.iteration = s.senderChainKey.iteration + 1 ∧
        P.encryptMessage
          (SenderMessageKey.getCipherKey P ⟨s.senderChainKey.iteration + 1,
            P.calculateMAC (stepChain P 1 s.senderChainKey.chainKey) [0x01]⟩)
          x (SenderMessageKey.getIv P ⟨s.senderChainKey.iteration + 1,
            P.calculateMAC (stepChain P 1 s.senderChainKey.chainKey) [0x01]⟩)
          = some env.ciphertext ∧
        s'.senderChainKey
          = ⟨s.senderChainKey.iteration + 2, stepChain P 2 s.senderChainKey.chainKey⟩) := by
  cases hr : (GroupCipher.encryptEnvelope P store id x).result with
  | error e => simp [GroupCipher.encrypt, hr, Except.map] at hok
  | ok env =>
    have hb : bytes = P.serializeEnvelope env := by
      simp only [GroupCipher.encrypt, hr, Except.map, SenderKeyMessage.serialize,
        Except.ok.injEq] at hok
      exact hok.symm
    obtain ⟨k, priv, hd, hc, _, henv, he⟩ :=
      encryptEnvelope_ok P store id x record idx s env hl hs hr
    refine ⟨env, (GroupCipher.deriveSenderKey P s
      (if s.senderChainKey.iteration = 0 then 0 else s.senderChainKey.iteration + 1)).2,
      hb, ?_, ?_, ?_⟩
    · simp only [GroupCipher.encrypt, he]
      simp [SenderKeyStore.storeSenderKey, SenderKeyStore.loadSenderKey]
    · intro h0
      rw [if_pos h0] at hd ⊢
      obtain ⟨_, hk, hs'⟩ := deriveSenderKey_ok_forward P s 0 k hd (by omega)
      have hki : env.iteration = k.iteration := by rw [henv]
      rw [hs', hki]
      subst hk
      simp only [h0, Nat.sub_zero, stepChain, Function.iterate_zero, id_eq,
        SenderChainKey.MESSAGE_KEY_SEED] at hc ⊢
      exact ⟨trivial, hc, rfl⟩
    · intro h0
      rw [if_neg (by omega)] at hd ⊢
      obtain ⟨_, hk, hs'⟩ := deriveSenderKey_ok_forward P s _ k hd (by omega)
      have hki : env.iteration = k.iteration := by rw [henv]
      have h1 : s.senderChainKey.iteration + 1 - s.senderChainKey.iteration = 1 := by omega
      rw [hs', hki]
      subst hk
      rw [h1] at hc ⊢
      exact ⟨rfl, hc, rfl⟩

theorem encrypt_advances_chain_witness :
    toySenderStore.loadSenderKey "g" = some ⟨[toySenderState]⟩ ∧
    (⟨[toySenderState]⟩ : SenderKeyRecord).getSenderKeyState none = some (0, toySenderState) ∧
    (GroupCipher.encrypt toyPrimitives toySenderStore "g" [1]).result = .ok toyEnvelope0 ∧
    ∃ (env : SenderKeyMessage) (s' : SenderKeyState),
      toyEnvelope0 = toyPrimitives.serializeEnvelope env ∧
      (GroupCipher.encrypt toyPrimitives toySenderStore "g" [1]).store.loadSenderKey "g"
        = some ((⟨[toySenderState]⟩ : SenderKeyRecord).putState 0 s') ∧
      (toySenderState.senderChainKey.iteration = 0 →
        env.iteration = 0 ∧
        toyPrimitives.encryptMessage
          (SenderMessageKey.getCipherKey toyPrimitives
            ⟨0, toyPrimitives.calculateMAC toySenderState.senderChainKey.chainKey [0x01]⟩)
          [1] (SenderMessageKey.getIv toyPrimitives
            ⟨0, toyPrimitives.calculateMAC toySenderState.senderChainKey.chainKey [0x01]⟩)
          = some env.ciphertext ∧
        s'.senderChainKey
          = ⟨1, stepChain toyPrimitives 1 toySenderState.senderChainKey.chainKey⟩) ∧
      (0 < toySenderState.senderChainKey.iteration →
        env.iteration = toySenderState.senderChainKey.iteration + 1 ∧
        toyPrimitives.encryptMessage
          (SenderMessageKey.getCipherKey toyPrimitives
            ⟨toySenderState.senderChainKey.iteration + 1, toyPrimitives.calculateMAC
              (stepChain toyPrimitives 1 toySenderState.senderChainKey.chainKey) [0x01]⟩)
          [1] (SenderMessageKey.getIv toyPrimitives
            ⟨toySenderState.senderChainKey.iteration + 1, toyPrimitives.calculateMAC
              (stepChain toyPrimitives 1 toySenderState.senderChainKey.chainKey) [0x01]⟩)
          = some env.ciphertext ∧
        s'.senderChainKey = ⟨toySenderState.senderChainKey.iteration + 2,
          stepChain toyPrimitives 2 toySenderState.senderChainKey.chainKey⟩) :=
  ⟨by rfl, by rfl, by rfl,
    encrypt_advances_chain toyPrimitives toySenderStore "g" [1] ⟨[toySenderState]⟩ 0
      toySenderState toyEnvelope0 (by rfl) (by rfl) (by rfl)⟩

/-- The claim C9 as stated fails: on a sending state at iteration 1 a successful `encrypt` uses
the message key of iteration 2, not 1, and leaves the chain key at iteration 3, not 2. -/
theorem encrypt_advances_chain_counterexample :
    ((GroupCipher.encrypt toyPrimitives toySenderStore "g" [1]).store.loadSenderKey "g").bind
      sendingChainKey = some ⟨1, List.replicate 32 9 ++ [2]⟩ ∧
    (GroupCipher.encryptEnvelope toyPrimitives
      (GroupCipher.encrypt toyPrimitives toySenderStore "g" [1]).store "g" [2]).result
      = .ok toyMessage2 ∧
    toyMessage2.iteration = 2 ∧
    ((GroupCipher.encryptEnvelope toyPrimitives
      (GroupCipher.encrypt toyPrimitives toySenderStore "g" [1]).store "g"
      [2]).store.loadSenderKey "g").bind sendingChainKey
      = some ⟨3, List.replicate 32 9 ++ [2, 2, 2]⟩ ∧
    toyMessage2.iteration ≠ 1 ∧ (3 : Nat) ≠ 1 + 1 := by
  refine ⟨by rfl, by rfl, by rfl, by rfl, by decide, by decide⟩

/-! ## Consecutive `encrypt` calls -/

theorem create_fresh (P : Primitives) (rnd : RandomSource) (store : SenderKeyStore)
    (id : SenderKeyName) (record : SenderKeyRecord)
    (hl : store.loadSenderKey id = some record) (he : record.isEmpty = true) :
    (GroupSessionBuilder.create P rnd store id).result
      = .ok (SenderKeyDistributionMessage.fromFields P rnd.randomInt.val 0 rnd.randomBytes
          rnd.generateKeyPair.pubKey) ∧
    (GroupSessionBuilder.create P rnd store id).store.loadSenderKey id
      = some ⟨[{ keyId := rnd.randomInt.val, senderChainKey := ⟨0, rnd.randomBytes⟩,
                 signingKeyPublic := rnd.generateKeyPair.pubKey,
                 signingKeyPrivate := some rnd.generateKeyPair.privKey,
                 senderMessageKeys := [] }]⟩ := by
  simp only [GroupSessionBuilder.create, hl, he, if_true]
  simp [SenderKeyRecord.setSenderKeyState, SenderKeyRecord.getSenderKeyState,
    SenderKeyStore.storeSenderKey, SenderKeyStore.loadSenderKey, generateSenderKeyId,
    generateSenderKey, generateSenderSigningKey, SenderKeyState.getKeyId,
    SenderKeyState.getSenderChainKey, SenderChainKey.getIteration, SenderChainKey.getSeed,
    SenderKeyState.getSigningKeyPublic]

theorem encryptEnvelope_single (P : Primitives) (store : SenderKeyStore) (id : SenderKeyName)
    (x : Bytes) (s : SenderKeyState) (env : SenderKeyMessage)
    (hl : store.loadSenderKey id = some ⟨[s]⟩)
    (hok : (GroupCipher.encryptEnvelope P store id x).result = .ok env) :
    ∃ s', (GroupCipher.encryptEnvelope P store id x).store.loadSenderKey id = some ⟨[s']⟩ ∧
      env.iteration
        = (if s.senderChainKey.iteration = 0 then 0 else s.senderChainKey.iteration + 1) ∧
      s'.senderChainKey.iteration
        = (if s.senderChainKey.iteration = 0 then 0 else s.senderChainKey.iteration + 1) + 1 := by
  have hs : (⟨[s]⟩ : SenderKeyRecord).getSenderKeyState none = some (0, s) := rfl
  have hle : s.senderChainKey.iteration ≤
      (if s.senderChainKey.iteration = 0 then 0 else s.senderChainKey.iteration + 1) := by
    split <;> omega
  obtain ⟨k, priv, hd, _, _, henv, he⟩ := encryptEnvelope_ok P store id x ⟨[s]⟩ 0 s env hl hs hok
  obtain ⟨_, hk, hs'⟩ := deriveSenderKey_ok_forward P s _ k hd hle
  refine ⟨(GroupCipher.deriveSenderKey P s
    (if s.senderChainKey.iteration = 0 then 0 else s.senderChainKey.iteration + 1)).2,
    ?_, ?_, ?_⟩
  · rw [he]
    simp [SenderKeyStore.storeSenderKey, SenderKeyStore.loadSenderKey,
      SenderKeyRecord.putState]
  · rw [henv, hk]
  · rw [hs']
    rfl

theorem encryptAllEnvelopes_cons (P : Primitives) (id : SenderKeyName) (store : SenderKeyStore)
    (x : Bytes) (xs : List Bytes) (envs : List SenderKeyMessage)
    (hok : (encryptAllEnvelopes P id store (x :: xs)).1 = .ok envs) :
    ∃ env rest, envs = env :: rest ∧
      (GroupCipher.encryptEnvelope P store id x).result = .ok env ∧
      (encryptAllEnvelopes P id (GroupCipher.encryptEnvelope P store id x).store xs).1
        = .ok rest := by
  unfold encryptAllEnvelopes at hok
  cases hr : (GroupCipher.encryptEnvelope P store id x).result with
  | error e => rw [hr] at hok; simp at hok
  | ok env =>
    rw [hr] at hok
    simp only [] at hok
    generalize encryptAllEnvelopes P id (GroupCipher.encryptEnvelope P store id x).store xs
      = r at hok ⊢
    obtain ⟨(e | rest), st⟩ := r
    · simp at hok
    · simp only [Except.ok.injEq] at hok
      exact ⟨env, rest, hok.symm, rfl, rfl⟩

theorem encryptAllEnvelopes_iterations_pos (P : Primitives) (id : SenderKeyName)
    (xs : List Bytes) :
    ∀ (store : SenderKeyStore) (s : SenderKeyState) (envs : List SenderKeyMessage),
      store.loadSenderKey id = some ⟨[s]⟩ → 0 < s.senderChainKey.iteration →
      (encryptAllEnvelopes P id store xs).1 = .ok envs →
      envs.map (fun m => m.iteration)
        = (List.range xs.length).map (fun i => s.senderChainKey.iteration + 1 + 2 * i) := by
  induction xs with
  | nil =>
    intro store s envs _ _ hok
    simp only [encryptAllEnvelopes, Except.ok.injEq] at hok
    subst hok
    rfl
  | cons x xs ih =>
    intro store s envs hl hpos hok
    obtain ⟨env, rest, henvs, hr, hrest⟩ := encryptAllEnvelopes_cons P id store x xs envs hok
    obtain ⟨s', hl', hit, hit'⟩ := encryptEnvelope_single P store id x s env hl hr
    rw [if_neg (by omega)] at hit hit'
    have := ih _ s' rest hl' (by omega) hrest
    rw [henvs, List.map_cons, this, hit, List.length_cons, List.range_succ_eq_map,
      List.map_cons, List.map_map]
    congr 1
    apply List.map_congr_left
    intro i _
    simp only [Function.comp, hit']
    omega

/-- C2 (forward ratchet on send, amended): `N` consecutive successful `encrypt` calls on a
freshly created sending state produce envelopes whose iterations are `0, 2, 4, ..., 2 (N - 1)`
in that order, all distinct. -/
theorem encrypt_iterations (P : Primitives) (rnd : RandomSource) (store : SenderKeyStore)
    (id : SenderKeyName) (record : SenderKeyRecord) (xs : List Bytes)
    (envs : List SenderKeyMessage)
    (hl : store.loadSenderKey id = some record) (he : record.isEmpty = true)
    (hok : (encryptAllEnvelopes P id (GroupSessionBuilder.create P rnd store id).store xs).1
      = .ok envs) :
    envs.length = xs.length ∧
    envs.map (fun m => m.iteration) = (List.range xs.length).map (fun i => 2 * i) ∧
    (envs.map (fun m => m.iteration)).Nodup := by
  have hmain : envs.map (fun m => m.iteration)
      = (List.range xs.length).map (fun i => 2 * i) := by
    obtain ⟨_, hfresh⟩ := create_fresh P rnd store id record hl he
    cases xs with
    | nil =>
      simp only [encryptAllEnvelopes, Except.ok.injEq] at hok
      subst hok
      rfl
    | cons x xs =>
      obtain ⟨env, rest, henvs, hr, hrest⟩ := encryptAllEnvelopes_cons P id _ x xs envs hok
      obtain ⟨s', hl', hit, hit'⟩ := encryptEnvelope_single P _ id x _ env hfresh hr
      simp only [if_true] at hit hit'
      have := encryptAllEnvelopes_iterations_pos P id xs _ s' rest hl' (by omega) hrest
      rw [henvs, List.map_cons, this, hit, List.length_cons, List.range_succ_eq_map,
        List.map_cons, List.map_map]
      congr 1
      apply List.map_congr_left
      intro i _
      simp only [Function.comp, hit']
      omega
  refine ⟨?_, hmain, ?_⟩
  · have := congrArg List.length hmain
    simpa using this
  · rw [hmain]
    exact (List.nodup_range _).map (fun a b h => by simpa using h)

theorem encrypt_iterations_witness :
    (emptyStore "g").loadSenderKey "g" = some ⟨[]⟩ ∧
    (⟨[]⟩ : SenderKeyRecord).isEmpty = true ∧
    (encryptAllEnvelopes toyPrimitives "g"
      (GroupSessionBuilder.create toyPrimitives toyRandom (emptyStore "g") "g").store
      [[1], [2], [3]]).1
      = .ok [⟨7, 0, [33, 1], [5, 7, 0, 33, 1]⟩, toyMessage2, ⟨7, 4, [37, 3], [5, 7, 4, 37, 3]⟩] ∧
    ([⟨7, 0, [33, 1], [5, 7, 0, 33, 1]⟩, toyMessage2,
        ⟨7, 4, [37, 3], [5, 7, 4, 37, 3]⟩] : List SenderKeyMessage).length
      = ([[1], [2], [3]] : List Bytes).length ∧
    ([⟨7, 0, [33, 1], [5, 7, 0, 33, 1]⟩, toyMessage2,
        ⟨7, 4, [37, 3], [5, 7, 4, 37, 3]⟩] : List SenderKeyMessage).map (fun m => m.iteration)
      = (List.range ([[1], [2], [3]] : List Bytes).length).map (fun i => 2 * i) ∧
    (([⟨7, 0, [33, 1], [5, 7, 0, 33, 1]⟩, toyMessage2,
        ⟨7, 4, [37, 3], [5, 7, 4, 37, 3]⟩] : List SenderKeyMessage).map
          (fun m => m.iteration)).Nodup :=
  ⟨by rfl, by rfl, by rfl,
    encrypt_iterations toyPrimitives toyRandom (emptyStore "g") "g" ⟨[]⟩ [[1], [2], [3]] _
      (by rfl) (by rfl) (by rfl)⟩

/-- The claim C2 as stated fails: two consecutive `encrypt` calls on a freshly created sending
state produce the iterations 0 and 2, not 0 and 1. -/
theorem encrypt_iterations_counterexample :
    (encryptAllEnvelopes toyPrimitives "g"
      (GroupSessionBuilder.create toyPrimitives toyRandom (emptyStore "g") "g").store
      [[1], [2]]).1.map (fun envs => envs.map (fun m => m.iteration)) = .ok [0, 2] ∧
    ([0, 2] : List Nat) ≠ List.range 2 := by
  refine ⟨by rfl, by decide⟩

/-! ## Replay rejection -/

theorem mem_cache_forward (P : Primitives) (s : SenderKeyState) (n : Nat) (k : SenderMessageKey)
    (hk : k ∈ ((skippedKeys P s.senderChainKey n).foldl
      (fun a k => a.addSenderMessageKey P k) s).senderMessageKeys) :
    k ∈ s.senderMessageKeys ∨
      ∃ j, j < n ∧ k = ⟨s.senderChainKey.iteration + j,
        P.calculateMAC (stepChain P j s.senderChainKey.chainKey)
          SenderChainKey.MESSAGE_KEY_SEED⟩ := by
  have h := (addAll_suffix P (skippedKeys P s.senderChainKey n) s).subset hk
  rcases List.mem_append.1 h with h | h
  · exact Or.inl h
  · exact Or.inr ((mem_skippedKeys P n s.senderChainKey k).1 h)

/-- Every cached key of a reachable state is older than the current chain key. -/
theorem reachable_cache_lt (P : Primitives) (s : SenderKeyState) (hr : Reachable P s) :
    ∀ k ∈ s.senderMessageKeys, k.iteration < s.senderChainKey.iteration := by
  induction hr with
  | fresh s h => intro k hk; rw [h] at hk; simp at hk
  | step s t _ ih =>
    by_cases h1 : t < s.senderChainKey.iteration
    · rcases deriveSenderKey_old P s t h1 with ⟨k', _, _, h⟩ | ⟨_, h⟩
      · rw [h]
        intro k hk
        exact ih k (List.mem_filter.1 hk).1
      · rw [h]; exact ih
    · by_cases h2 : 2000 < t - s.senderChainKey.iteration
      · rw [deriveSenderKey_gap P s t (by omega) h2]; exact ih
      · rw [deriveSenderKey_forward P s t (by omega) (by omega)]
        intro k hk
        simp only [SenderKeyState.setSenderChainKey] at hk ⊢
        rcases mem_cache_forward P s _ k hk with h | ⟨j, hj, h⟩
        · have := ih k h; omega
        · rw [h]; simp only []; omega

/-- The target `t` is spent in `s`: it lies below the current iteration and is not cached. -/
theorem spent_preserved (P : Primitives) (s : SenderKeyState) (t u : Nat)
    (h : t < s.senderChainKey.iteration ∧ ∀ k ∈ s.senderMessageKeys, k.iteration ≠ t) :
    t < (GroupCipher.deriveSenderKey P s u).2.senderChainKey.iteration ∧
    ∀ k ∈ (GroupCipher.deriveSenderKey P s u).2.senderMessageKeys, k.iteration ≠ t := by
  obtain ⟨hlt, hne⟩ := h
  by_cases h1 : u < s.senderChainKey.iteration
  · rcases deriveSenderKey_old P s u h1 with ⟨k', _, _, h⟩ | ⟨_, h⟩
    · rw [h]
      exact ⟨hlt, fun k hk => hne k (List.mem_filter.1 hk).1⟩
    · rw [h]; exact ⟨hlt, hne⟩
  · by_cases h2 : 2000 < u - s.senderChainKey.iteration
    · rw [deriveSenderKey_gap P s u (by omega) h2]; exact ⟨hlt, hne⟩
    · rw [deriveSenderKey_forward P s u (by omega) (by omega)]
      simp only [SenderKeyState.setSenderChainKey]
      refine ⟨by omega, fun k hk => ?_⟩
      rcases mem_cache_forward P s _ k hk with h | ⟨j, _, h⟩
      · exact hne k h
      · rw [h]; simp only []; omega

theorem spent_deriveAll (P : Primitives) (t : Nat) (ts : List Nat) :
    ∀ s : SenderKeyState,
      (t < s.senderChainKey.iteration ∧ ∀ k ∈ s.senderMessageKeys, k.iteration ≠ t) →
      t < (deriveAll P s ts).2.senderChainKey.iteration ∧
      ∀ k ∈ (deriveAll P s ts).2.senderMessageKeys, k.iteration ≠ t := by
  induction ts with
  | nil => intro s h; exact h
  | cons u us ih =>
    intro s h
    simp only [deriveAll]
    exact ih _ (spent_preserved P s t u h)

theorem spent_after_ok (P : Primitives) (s : SenderKeyState) (hr : Reachable P s) (t : Nat)
    (k : SenderMessageKey) (hk : (GroupCipher.deriveSenderKey P s t).1 = .ok k) :
    t < (GroupCipher.deriveSenderKey P s t).2.senderChainKey.iteration ∧
    ∀ k ∈ (GroupCipher.deriveSenderKey P s t).2.senderMessageKeys, k.iteration ≠ t := by
  by_cases h1 : t < s.senderChainKey.iteration
  · rw [(deriveSenderKey_ok_old P s t k hk h1).2.2]
    refine ⟨h1, fun k hk => ?_⟩
    simpa using (List.mem_filter.1 hk).2
  · rw [(deriveSenderKey_ok_forward P s t k hk (by omega)).2.2]
    simp only [SenderKeyState.setSenderChainKey]
    refine ⟨by omega, fun k hk => ?_⟩
    rcases mem_cache_forward P s _ k hk with h | ⟨j, hj, h⟩
    · have := reachable_cache_lt P s hr k h; omega
    · rw [h]; simp only []; omega

/-- C4 (replay rejection): on a state reachable from a fresh one, once `deriveSenderKey` has
returned the key of target `t`, a call for the same `t` fails with the outdated-counter error,
immediately (`ts = []`) and after any further calls `ts`; so the key of an iteration is handed
out at most once, from the chain key or from the cache. -/
theorem replay_rejection (P : Primitives) (s : SenderKeyState) (hr : Reachable P s) (t : Nat)
    (k : SenderMessageKey) (hk : (GroupCipher.deriveSenderKey P s t).1 = .ok k)
    (ts : List Nat) :
    (GroupCipher.deriveSenderKey P
      (deriveAll P (GroupCipher.deriveSenderKey P s t).2 ts).2 t).1
      = .error (.outdatedCounter
          (deriveAll P (GroupCipher.deriveSenderKey P s t).2 ts).2.senderChainKey.iteration t) := by
  obtain ⟨h1, h2⟩ := spent_deriveAll P t ts _ (spent_after_ok P s hr t k hk)
  rw [deriveSenderKey_miss P _ t h1 h2]

theorem replay_rejection_witness :
    Reachable toyPrimitives (GroupCipher.deriveSenderKey toyPrimitives toyState 2).2 ∧
    (GroupCipher.deriveSenderKey toyPrimitives
      (GroupCipher.deriveSenderKey toyPrimitives toyState 2).2 0).1 = .ok ⟨0, [9, 1]⟩ ∧
    (GroupCipher.deriveSenderKey toyPrimitives
      (deriveAll toyPrimitives (GroupCipher.deriveSenderKey toyPrimitives
        (GroupCipher.deriveSenderKey toyPrimitives toyState 2).2 0).2 [1]).2 0).1
      = .error (.outdatedCounter
          (deriveAll toyPrimitives (GroupCipher.deriveSenderKey toyPrimitives
            (GroupCipher.deriveSenderKey toyPrimitives toyState 2).2
              0).2 [1]).2.senderChainKey.iteration 0) :=
  ⟨Reachable.step _ 2 (Reachable.fresh _ rfl), by rfl,
    replay_rejection toyPrimitives _ (Reachable.step _ 2 (Reachable.fresh _ rfl)) 0
      ⟨0, [9, 1]⟩ (by rfl) [1]⟩

/-! ## Out-of-order delivery -/

theorem stepChain_add (P : Primitives) (a b : Nat) (x : Bytes) :
    stepChain P a (stepChain P b x) = stepChain P (a + b) x := by
  simp only [stepChain]
  rw [Function.iterate_add_apply]

/-- The invariant of a peer state that started at `(i0, seed)` with an empty cache and has
resolved the targets `delivered`. -/
theorem delivery_invariant_step (P : Primitives) (i0 : Nat) (seed : Bytes) (s : SenderKeyState)
    (delivered : List Nat) (t : Nat)
    (h1 : i0 ≤ s.senderChainKey.iteration ∧
      s.senderChainKey.chainKey = stepChain P (s.senderChainKey.iteration - i0) seed)
    (h2 : ∀ k ∈ s.senderMessageKeys, i0 ≤ k.iteration ∧
      k.iteration < s.senderChainKey.iteration ∧
      k.seed = P.calculateMAC (stepChain P (k.iteration - i0) seed) [0x01])
    (h3 : ∀ j, i0 ≤ j → j < s.senderChainKey.iteration → j ∉ delivered →
      ∃ k ∈ s.senderMessageKeys, k.iteration = j)
    (h4 : ∀ d ∈ delivered, d < s.senderChainKey.iteration)
    (ht : i0 ≤ t) (hnew : t ∉ delivered)
    (hgap : t - s.senderChainKey.iteration ≤ 2000)
    (hfit : s.senderMessageKeys.length + (t - s.senderChainKey.iteration)
      ≤ P.maxMessageKeys) :
    (GroupCipher.deriveSenderKey P s t).1
      = .ok ⟨t, P.calculateMAC (stepChain P (t - i0) seed) [0x01]⟩ ∧
    (i0 ≤ (GroupCipher.deriveSenderKey P s t).2.senderChainKey.iteration ∧
      (GroupCipher.deriveSenderKey P s t).2.senderChainKey.chainKey
        = stepChain P ((GroupCipher.deriveSenderKey P s t).2.senderChainKey.iteration - i0)
            seed) ∧
    (∀ k ∈ (GroupCipher.deriveSenderKey P s t).2.senderMessageKeys, i0 ≤ k.iteration ∧
      k.iteration < (GroupCipher.deriveSenderKey P s t).2.senderChainKey.iteration ∧
      k.seed = P.calculateMAC (stepChain P (k.iteration - i0) seed) [0x01]) ∧
    (∀ j, i0 ≤ j → j < (GroupCipher.deriveSenderKey P s t).2.senderChainKey.iteration →
      j ∉ t :: delivered →
      ∃ k ∈ (GroupCipher.deriveSenderKey P s t).2.senderMessageKeys, k.iteration = j) ∧
    (∀ d ∈ t :: delivered,
      d < (GroupCipher.deriveSenderKey P s t).2.senderChainKey.iteration) := by
  by_cases hlt : t < s.senderChainKey.iteration
  · obtain ⟨k0, hk0, hk0t⟩ := h3 t ht hlt hnew
    rcases deriveSenderKey_old P s t hlt with ⟨k, hk, hkt, h⟩ | ⟨hno, _⟩
    · rw [h]
      simp only []
      refine ⟨?_, h1, ?_, ?_, ?_⟩
      · obtain ⟨_, _, hseed⟩ := h2 k hk
        rw [hkt] at hseed
        cases k
        simp only [] at hkt hseed
        rw [hkt, hseed]
      · intro k hk
        exact h2 k (List.mem_filter.1 hk).1
      · intro j hj1 hj2 hj3
        simp only [List.mem_cons, not_or] at hj3
        obtain ⟨k, hk, hkj⟩ := h3 j hj1 hj2 hj3.2
        exact ⟨k, List.mem_filter.2 ⟨hk, by simpa [hkj] using hj3.1⟩, hkj⟩
      · intro d hd
        rcases List.mem_cons.1 hd with hd | hd
        · rw [hd]; exact hlt
        · exact h4 d hd
    · exact absurd hk0t (hno k0 hk0)
  · have hle : s.senderChainKey.iteration ≤ t := by omega
    rw [deriveSenderKey_forward P s t hle hgap]
    simp only [SenderKeyState.setSenderChainKey]
    have hcache := addAll_noEvict P
      (skippedKeys P s.senderChainKey (t - s.senderChainKey.iteration)) s
      (by rw [length_skippedKeys]; exact hfit)
    rw [hcache]
    obtain ⟨hi0, hseed⟩ := h1
    refine ⟨?_, ⟨by omega, ?_⟩, ?_, ?_, ?_⟩
    · rw [hseed, stepChain_add]
      have ha : t - s.senderChainKey.iteration + (s.senderChainKey.iteration - i0) = t - i0 := by
        omega
      rw [ha]
      rfl
    · rw [hseed, stepChain_add]
      have ha : t - s.senderChainKey.iteration + 1 + (s.senderChainKey.iteration - i0)
          = t + 1 - i0 := by omega
      rw [ha]
    · intro k hk
      rcases List.mem_append.1 hk with hk | hk
      · obtain ⟨a, b, c⟩ := h2 k hk
        exact ⟨a, by omega, c⟩
      · obtain ⟨j, hj, hkj⟩ := (mem_skippedKeys P _ _ k).1 hk
        rw [hkj]
        simp only [SenderChainKey.MESSAGE_KEY_SEED]
        refine ⟨by omega, by omega, ?_⟩
        rw [hseed, stepChain_add]
        have ha : j + (s.senderChainKey.iteration - i0)
            = s.senderChainKey.iteration + j - i0 := by omega
        rw [ha]
    · intro j hj1 hj2 hj3
      simp only [List.mem_cons, not_or] at hj3
      by_cases hjc : j < s.senderChainKey.iteration
      · obtain ⟨k, hk, hkj⟩ := h3 j hj1 hjc hj3.2
        exact ⟨k, List.mem_append.2 (Or.inl hk), hkj⟩
      · refine ⟨⟨s.senderChainKey.iteration + (j - s.senderChainKey.iteration), _⟩,
          List.mem_append.2 (Or.inr ((mem_skippedKeys P _ _ _).2
            ⟨j - s.senderChainKey.iteration, by omega, rfl⟩)), ?_⟩
        simp only []
        omega
    · intro d hd
      rcases List.mem_cons.1 hd with hd | hd
      · omega
      · have := h4 d hd; omega

theorem delivery_all (P : Primitives) (i0 : Nat) (seed : Bytes) (ts : List Nat) :
    ∀ (s : SenderKeyState) (delivered : List Nat),
      (i0 ≤ s.senderChainKey.iteration ∧
        s.senderChainKey.chainKey = stepChain P (s.senderChainKey.iteration - i0) seed) →
      (∀ k ∈ s.senderMessageKeys, i0 ≤ k.iteration ∧
        k.iteration < s.senderChainKey.iteration ∧
        k.seed = P.calculateMAC (stepChain P (k.iteration - i0) seed) [0x01]) →
      (∀ j, i0 ≤ j → j < s.senderChainKey.iteration → j ∉ delivered →
        ∃ k ∈ s.senderMessageKeys, k.iteration = j) →
      (∀ d ∈ delivered, d < s.senderChainKey.iteration) →
      ts.Nodup → (∀ t ∈ ts, i0 ≤ t ∧ t ∉ delivered) → deliverable P s ts = true →
      (deriveAll P s ts).1
        = ts.map (fun t => .ok ⟨t, P.calculateMAC (stepChain P (t - i0) seed) [0x01]⟩) := by
  induction ts with
  | nil => intro s delivered _ _ _ _ _ _ _; rfl
  | cons t ts ih =>
    intro s delivered h1 h2 h3 h4 hnd hts hdel
    simp only [deliverable, Bool.and_eq_true, decide_eq_true_eq] at hdel
    obtain ⟨⟨hgap, hfit⟩, hrest⟩ := hdel
    obtain ⟨ht, hnew⟩ := hts t (List.mem_cons_self _ _)
    obtain ⟨hres, g1, g2, g3, g4⟩ :=
      delivery_invariant_step P i0 seed s delivered t h1 h2 h3 h4 ht hnew hgap hfit
    have hnd' := List.nodup_cons.1 hnd
    simp only [deriveAll, List.map_cons, hres]
    congr 1
    refine ih _ (t :: delivered) g1 g2 g3 g4 hnd'.2 ?_ hrest
    intro u hu
    obtain ⟨hu1, hu2⟩ := hts u (List.mem_cons_of_mem _ hu)
    refine ⟨hu1, ?_⟩
    simp only [List.mem_cons, not_or]
    exact ⟨fun h => hnd'.1 (h ▸ hu), hu2⟩

/-- C3 (out-of-order tolerance): on a fresh peer state with chain key `(i0, s)` and an empty
cache, for every delivery order of distinct targets at or past `i0` that stays within the skip
bound and the cache size, every call of `deriveSenderKey` succeeds and returns the message key
of its target `t` with seed `HMAC(stepChain^(t - i0)(s), 0x01)`: the key depends on the target
only, not on the order. -/
theorem out_of_order_delivery (P : Primitives) (s : SenderKeyState) (targets : List Nat)
    (hfresh : s.senderMessageKeys = []) (hnd : targets.Nodup)
    (hge : ∀ t ∈ targets, s.senderChainKey.iteration ≤ t)
    (hdel : deliverable P s targets = true) :
    (deriveAll P s targets).1
      = targets.map (fun t => .ok ⟨t, P.calculateMAC
          (stepChain P (t - s.senderChainKey.iteration) s.senderChainKey.chainKey) [0x01]⟩) := by
  refine delivery_all P s.senderChainKey.iteration s.senderChainKey.chainKey targets s []
    ⟨le_refl _, by simp [stepChain]⟩ ?_ ?_ ?_ hnd ?_ hdel
  · intro k hk; rw [hfresh] at hk; simp at hk
  · intro j h1 h2; omega
  · intro d hd; simp at hd
  · intro t ht; exact ⟨hge t ht, by simp⟩

theorem out_of_order_delivery_witness :
    toyState.senderMessageKeys = [] ∧ ([2, 0, 1] : List Nat).Nodup ∧
    (∀ t ∈ ([2, 0, 1] : List Nat), toyState.senderChainKey.iteration ≤ t) ∧
    deliverable toyPrimitives toyState [2, 0, 1] = true ∧
    (deriveAll toyPrimitives toyState [2, 0, 1]).1
      = [.ok ⟨2, [9, 2, 2, 1]⟩, .ok ⟨0, [9, 1]⟩, .ok ⟨1, [9, 2, 1]⟩] ∧
    (deriveAll toyPrimitives toyState [2, 0, 1]).1
      = ([2, 0, 1] : List Nat).map (fun t => .ok ⟨t, toyPrimitives.calculateMAC
          (stepChain toyPrimitives (t - toyState.senderChainKey.iteration)
            toyState.senderChainKey.chainKey) [0x01]⟩) :=
  ⟨rfl, by decide, by decide, by rfl, by rfl,
    out_of_order_delivery toyPrimitives toyState [2, 0, 1] rfl (by decide) (by decide)
      (by rfl)⟩

/-! ## Round trip between a sender and a peer -/

theorem getSenderKeyState_single (p : SenderKeyState) (keyId : Nat) (h : p.keyId = keyId) :
    (⟨[p]⟩ : SenderKeyRecord).getSenderKeyState (some keyId) = some (0, p) := by
  simp [SenderKeyRecord.getSenderKeyState, List.enum, List.enumFrom, List.find?, h]

/-- One message: the sender record `[s]` and the peer record `[p]` agree on key id and chain
key, the peer verifies with the public key matching the sender's private key. -/
theorem roundtrip_step (P : Primitives)
    (hcipher : ∀ key iv x c, P.encryptMessage key x iv = some c →
      P.decryptMessage key c iv = some x)
    (hparse : ∀ m, P.parseEnvelope (P.serializeEnvelope m) = some m)
    (pub priv : Bytes)
    (hsig : ∀ payload, P.verifySignature pub payload (P.calculateSignature priv payload) = true)
    (S T : SenderKeyStore) (ids idp : SenderKeyName) (s p : SenderKeyState)
    (hS : S.loadSenderKey ids = some ⟨[s]⟩) (hT : T.loadSenderKey idp = some ⟨[p]⟩)
    (hkey : p.keyId = s.keyId) (hchain : p.senderChainKey = s.senderChainKey)
    (hpriv : s.signingKeyPrivate = some priv) (hpub : p.signingKeyPublic = pub)
    (x c : Bytes) (hok : (GroupCipher.encrypt P S ids x).result = .ok c) :
    (GroupCipher.decrypt P T idp c).result = .ok x ∧
    ∃ s' p', (GroupCipher.encrypt P S ids x).store.loadSenderKey ids = some ⟨[s']⟩ ∧
      (GroupCipher.decrypt P T idp c).store.loadSenderKey idp = some ⟨[p']⟩ ∧
      p'.keyId = s'.keyId ∧ p'.senderChainKey = s'.senderChainKey ∧
      s'.signingKeyPrivate = some priv ∧ p'.signingKeyPublic = pub := by
  cases hr : (GroupCipher.encryptEnvelope P S ids x).result with
  | error e => simp [GroupCipher.encrypt, hr, Except.map] at hok
  | ok env =>
    have hc : c = P.serializeEnvelope env := by
      simp only [GroupCipher.encrypt, hr, Except.map, SenderKeyMessage.serialize,
        Except.ok.injEq] at hok
      exact hok.symm
    have hsel : (⟨[s]⟩ : SenderKeyRecord).getSenderKeyState none = some (0, s) := rfl
    obtain ⟨k, priv', hd, hct, hpriv', henv, he⟩ :=
      encryptEnvelope_ok P S ids x ⟨[s]⟩ 0 s env hS hsel hr
    have hpp : priv' = priv := by
      rw [hpriv] at hpriv'
      exact (Option.some.inj hpriv').symm
    subst hpp
    have hle : s.senderChainKey.iteration ≤
        (if s.senderChainKey.iteration = 0 then 0 else s.senderChainKey.iteration + 1) := by
      split <;> omega
    obtain ⟨hgap, hk, hs'⟩ := deriveSenderKey_ok_forward P s _ k hd hle
    have hit : env.iteration
        = (if s.senderChainKey.iteration = 0 then 0 else s.senderChainKey.iteration + 1) := by
      rw [henv, hk]
    have hkid : env.keyId = s.keyId := by rw [henv]
    have hsg : env.signature = P.calculateSignature priv'
        (P.signedPayload env.keyId env.iteration env.ciphertext) := by
      rw [hkid, hit]
      conv_lhs => rw [henv]
      rw [hk]
    have hpsel : (⟨[p]⟩ : SenderKeyRecord).getSenderKeyState (some env.keyId) = some (0, p) :=
      getSenderKeyState_single p env.keyId (by rw [hkey, hkid])
    have hv : P.verifySignature p.signingKeyPublic
        (P.signedPayload env.keyId env.iteration env.ciphertext) env.signature = true := by
      rw [hpub, hsg]
      exact hsig _
    have hfw := deriveSenderKey_forward P p env.iteration (by rw [hchain, hit]; exact hle)
      (by rw [hchain, hit]; exact hgap)
    have hres1 : (GroupCipher.deriveSenderKey P p env.iteration).1 = .ok k := by
      rw [hfw, hchain, hit, ← hk]
    have hres2 : (GroupCipher.deriveSenderKey P p env.iteration).2.senderChainKey
        = (GroupCipher.deriveSenderKey P s
            (if s.senderChainKey.iteration = 0 then 0
              else s.senderChainKey.iteration + 1)).2.senderChainKey := by
      rw [hfw, hs', hchain, hit]
      rfl
    have hdec := decrypt_selected P T idp c ⟨[p]⟩ env 0 p hT (by rw [hc]; exact hparse env)
      hpsel hv
    rw [hres1] at hdec
    simp only [] at hdec
    rw [hcipher _ _ _ _ hct] at hdec
    simp only [] at hdec
    rw [hdec]
    refine ⟨rfl, (GroupCipher.deriveSenderKey P s
      (if s.senderChainKey.iteration = 0 then 0 else s.senderChainKey.iteration + 1)).2,
      (GroupCipher.deriveSenderKey P p env.iteration).2, ?_, ?_, ?_, hres2, ?_, ?_⟩
    · simp only [GroupCipher.encrypt, he]
      simp [SenderKeyStore.storeSenderKey, SenderKeyStore.loadSenderKey,
        SenderKeyRecord.putState]
    · simp only [SenderKeyStore.storeSenderKey, SenderKeyStore.loadSenderKey, if_true,
        SenderKeyRecord.putState, List.set_cons_zero]
    · rw [(deriveSenderKey_frame P s _).1, (deriveSenderKey_frame P p _).1, hkey]
    · rw [(deriveSenderKey_frame P s _).2.2, hpriv]
    · rw [(deriveSenderKey_frame P p _).2.1, hpub]

theorem encryptAll_cons (P : Primitives) (id : SenderKeyName) (store : SenderKeyStore)
    (x : Bytes) (xs : List Bytes) (cs : List Bytes)
    (hok : (encryptAll P id store (x :: xs)).1 = .ok cs) :
    ∃ c rest, cs = c :: rest ∧
      (GroupCipher.encrypt P store id x).result = .ok c ∧
      (encryptAll P id (GroupCipher.encrypt P store id x).store xs).1 = .ok rest := by
  unfold encryptAll at hok
  cases hr : (GroupCipher.encrypt P store id x).result with
  | error e => rw [hr] at hok; simp at hok
  | ok c =>
    rw [hr] at hok
    simp only [] at hok
    generalize encryptAll P id (GroupCipher.encrypt P store id x).store xs = r at hok ⊢
    obtain ⟨(e | rest), st⟩ := r
    · simp at hok
    · simp only [Except.ok.injEq] at hok
      exact ⟨c, rest, hok.symm, rfl, rfl⟩

theorem decryptAll_cons (P : Primitives) (id : SenderKeyName) (store : SenderKeyStore)
    (c x : Bytes) (cs xs : List Bytes)
    (h1 : (GroupCipher.decrypt P store id c).result = .ok x)
    (h2 : (decryptAll P id (GroupCipher.decrypt P store id c).store cs).1 = .ok xs) :
    (decryptAll P id store (c :: cs)).1 = .ok (x :: xs) := by
  unfold decryptAll
  rw [h1]
  simp only []
  generalize decryptAll P id (GroupCipher.decrypt P store id c).store cs = r at h2 ⊢
  obtain ⟨(e | rest), st⟩ := r
  · simp at h2
  · simp only [Except.ok.injEq] at h2
    rw [h2]

theorem roundtrip_all (P : Primitives)
    (hcipher : ∀ key iv x c, P.encryptMessage key x iv = some c →
      P.decryptMessage key c iv = some x)
    (hparse : ∀ m, P.parseEnvelope (P.serializeEnvelope m) = some m)
    (pub priv : Bytes)
    (hsig : ∀ payload, P.verifySignature pub payload (P.calculateSignature priv payload) = true)
    (ids idp : SenderKeyName) (xs : List Bytes) :
    ∀ (S T : SenderKeyStore) (s p : SenderKeyState) (cs : List Bytes),
      S.loadSenderKey ids = some ⟨[s]⟩ → T.loadSenderKey idp = some ⟨[p]⟩ →
      p.keyId = s.keyId → p.senderChainKey = s.senderChainKey →
      s.signingKeyPrivate = some priv → p.signingKeyPublic = pub →
      (encryptAll P ids S xs).1 = .ok cs → (decryptAll P idp T cs).1 = .ok xs := by
  induction xs with
  | nil =>
    intro S T s p cs _ _ _ _ _ _ hok
    simp only [encryptAll, Except.ok.injEq] at hok
    subst hok
    rfl
  | cons x xs ih =>
    intro S T s p cs hS hT hkey hchain hpriv hpub hok
    obtain ⟨c, rest, hcs, hr, hrest⟩ := encryptAll_cons P ids S x xs cs hok
    obtain ⟨hdec, s', p', hS', hT', hkey', hchain', hpriv', hpub'⟩ :=
      roundtrip_step P hcipher hparse pub priv hsig S T ids idp s p hS hT hkey hchain hpriv
        hpub x c hr
    rw [hcs]
    exact decryptAll_cons P idp T c x rest xs hdec
      (ih _ _ s' p' rest hS' hT' hkey' hchain' hpriv' hpub' hrest)

theorem encrypt_single_total (P : Primitives)
    (htotal : ∀ key x iv, ∃ c, P.encryptMessage key x iv = some c)
    (S : SenderKeyStore) (ids : SenderKeyName) (s : SenderKeyState) (priv : Bytes)
    (hS : S.loadSenderKey ids = some ⟨[s]⟩) (hpriv : s.signingKeyPrivate = some priv)
    (x : Bytes) :
    ∃ c s', (GroupCipher.encrypt P S ids x).result = .ok c ∧
      (GroupCipher.encrypt P S ids x).store.loadSenderKey ids = some ⟨[s']⟩ ∧
      s'.signingKeyPrivate = some priv := by
  have hsel : (⟨[s]⟩ : SenderKeyRecord).getSenderKeyState none = some (0, s) := rfl
  have hle : s.senderChainKey.iteration ≤
      (if s.senderChainKey.iteration = 0 then 0 else s.senderChainKey.iteration + 1) := by
    split <;> omega
  have hgap : (if s.senderChainKey.iteration = 0 then 0 else s.senderChainKey.iteration + 1)
      - s.senderChainKey.iteration ≤ 2000 := by
    split <;> omega
  have hfw := deriveSenderKey_forward P s _ hle hgap
  obtain ⟨c, hc⟩ := htotal
    (SenderMessageKey.getCipherKey P ⟨_, P.calculateMAC (stepChain P
      ((if s.senderChainKey.iteration = 0 then 0 else s.senderChainKey.iteration + 1)
        - s.senderChainKey.iteration) s.senderChainKey.chainKey)
      SenderChainKey.MESSAGE_KEY_SEED⟩) x
    (SenderMessageKey.getIv P ⟨_, P.calculateMAC (stepChain P
      ((if s.senderChainKey.iteration = 0 then 0 else s.senderChainKey.iteration + 1)
        - s.senderChainKey.iteration) s.senderChainKey.chainKey)
      SenderChainKey.MESSAGE_KEY_SEED⟩)
  have he := encryptEnvelope_selected P S ids x ⟨[s]⟩ 0 s _ _ hS hsel hfw
  have hp : (((skippedKeys P s.senderChainKey
      ((if s.senderChainKey.iteration = 0 then 0 else s.senderChainKey.iteration + 1)
        - s.senderChainKey.iteration)).foldl
      (fun a k => a.addSenderMessageKey P k) s).setSenderChainKey
      ⟨(if s.senderChainKey.iteration = 0 then 0 else s.senderChainKey.iteration + 1) + 1,
        stepChain P ((if s.senderChainKey.iteration = 0 then 0
          else s.senderChainKey.iteration + 1) - s.senderChainKey.iteration + 1)
          s.senderChainKey.chainKey⟩).signingKeyPrivate = some priv := by
    simp only [SenderKeyState.setSenderChainKey]
    rw [(addAll_frame P _ s).2.2.2, hpriv]
  rw [hc] at he
  simp only [] at he
  rw [hp] at he
  simp only [] at he
  simp only [GroupCipher.encrypt, he, Except.map]
  refine ⟨_, _, rfl, ?_, hp⟩
  simp [SenderKeyStore.storeSenderKey, SenderKeyStore.loadSenderKey,
    SenderKeyRecord.putState]

/-- With a cipher that never throws, consecutive `encrypt` calls on a record holding one state
with a private key all succeed. -/
theorem encryptAll_total (P : Primitives)
    (htotal : ∀ key x iv, ∃ c, P.encryptMessage key x iv = some c)
    (ids : SenderKeyName) (priv : Bytes) (xs : List Bytes) :
    ∀ (S : SenderKeyStore) (s : SenderKeyState),
      S.loadSenderKey ids = some ⟨[s]⟩ → s.signingKeyPrivate = some priv →
      ∃ cs, (encryptAll P ids S xs).1 = .ok cs := by
  induction xs with
  | nil => intro S s _ _; exact ⟨[], rfl⟩
  | cons x xs ih =>
    intro S s hS hpriv
    obtain ⟨c, s', hr, hS', hpriv'⟩ := encrypt_single_total P htotal S ids s priv hS hpriv x
    obtain ⟨cs, hcs⟩ := ih _ s' hS' hpriv'
    refine ⟨c :: cs, ?_⟩
    unfold encryptAll
    rw [hr]
    simp only []
    generalize encryptAll P ids (GroupCipher.encrypt P S ids x).store xs = r at hcs ⊢
    obtain ⟨(e | rest), st⟩ := r
    · simp at hcs
    · simp only [Except.ok.injEq] at hcs
      rw [hcs]

/-- C1 (round trip): the sender record is made by `create` on an empty record and the peer
record by `process`, on an empty record, of the distribution message `create` returned.  If the
cipher's decrypt inverts its encrypt, the signature made with the generated private key
verifies under the generated public key, and envelope parsing inverts serialization, then
whenever the sender's consecutive `encrypt` calls on `xs` return the envelopes `cs`, the peer's
consecutive `decrypt` calls on `cs` all succeed and return `xs` in order; and when the cipher
never throws, the `encrypt` calls do return envelopes. -/
theorem roundtrip (P : Primitives) (rnd : RandomSource)
    (hcipher : ∀ key iv x c, P.encryptMessage key x iv = some c →
      P.decryptMessage key c iv = some x)
    (hsig : ∀ payload, P.verifySignature rnd.generateKeyPair.pubKey payload
      (P.calculateSignature rnd.generateKeyPair.privKey payload) = true)
    (hparse : ∀ m, P.parseEnvelope (P.serializeEnvelope m) = some m)
    (senderStore peerStore : SenderKeyStore) (ids idp : SenderKeyName)
    (rs rp : SenderKeyRecord)
    (hls : senderStore.loadSenderKey ids = some rs) (hes : rs.isEmpty = true)
    (hlp : peerStore.loadSenderKey idp = some rp) (hep : rp.isEmpty = true)
    (dist : SenderKeyDistributionMessage)
    (hdist : (GroupSessionBuilder.create P rnd senderStore ids).result = .ok dist)
    (xs : List Bytes) :
    (∀ cs, (encryptAll P ids (GroupSessionBuilder.create P rnd senderStore ids).store xs).1
        = .ok cs →
      (decryptAll P idp (GroupSessionBuilder.process P peerStore idp dist).store cs).1
        = .ok xs) ∧
    ((∀ key x iv, ∃ c, P.encryptMessage key x iv = some c) →
      ∃ cs, (encryptAll P ids (GroupSessionBuilder.create P rnd senderStore ids).store xs).1
        = .ok cs) := by
  obtain ⟨hres, hfresh⟩ := create_fresh P rnd senderStore ids rs hls hes
  rw [hres] at hdist
  simp only [Except.ok.injEq] at hdist
  subst hdist
  have hrp : rp = ⟨[]⟩ := by
    cases rp with
    | mk l =>
      cases l with
      | nil => rfl
      | cons a l => simp [SenderKeyRecord.isEmpty] at hep
  subst hrp
  have hpeer : (GroupSessionBuilder.process P peerStore idp
      (SenderKeyDistributionMessage.fromFields P rnd.randomInt.val 0 rnd.randomBytes
        rnd.generateKeyPair.pubKey)).store.loadSenderKey idp
      = some ⟨[{ keyId := rnd.randomInt.val, senderChainKey := ⟨0, rnd.randomBytes⟩,
                 signingKeyPublic := rnd.generateKeyPair.pubKey,
                 signingKeyPrivate := none, senderMessageKeys := [] }]⟩ := by
    simp only [GroupSessionBuilder.process, hlp]
    simp [SenderKeyRecord.addSenderKeyState, SenderKeyStore.storeSenderKey,
      SenderKeyStore.loadSenderKey,
      SenderKeyDistributionMessage.fromFields, SenderKeyDistributionMessage.getId,
      SenderKeyDistributionMessage.getIteration, SenderKeyDistributionMessage.getChainKey,
      SenderKeyDistributionMessage.getSignatureKey]
  refine ⟨fun cs henc => ?_, fun htotal => ?_⟩
  · exact roundtrip_all P hcipher hparse _ _ hsig ids idp xs _ _ _ _ cs hfresh hpeer rfl rfl
      rfl rfl henc
  · exact encryptAll_total P htotal ids rnd.generateKeyPair.privKey xs _ _ hfresh rfl

theorem toy_cipher_inverts (key iv x c : Bytes)
    (h : toyPrimitives.encryptMessage key x iv = some c) :
    toyPrimitives.decryptMessage key c iv = some x := by
  simp only [toyPrimitives, Option.some.injEq] at h ⊢
  subst h
  simp

theorem toy_signature_verifies (payload : Bytes) :
    toyPrimitives.verifySignature toyRandom.generateKeyPair.pubKey payload
      (toyPrimitives.calculateSignature toyRandom.generateKeyPair.privKey payload) = true := by
  simp [toyPrimitives, toyRandom]

theorem toy_parse_inverts (m : SenderKeyMessage) :
    toyPrimitives.parseEnvelope (toyPrimitives.serializeEnvelope m) = some m := by
  simp [toyPrimitives]

theorem roundtrip_witness :
    (∀ key iv x c, toyPrimitives.encryptMessage key x iv = some c →
      toyPrimitives.decryptMessage key c iv = some x) ∧
    (∀ payload, toyPrimitives.verifySignature toyRandom.generateKeyPair.pubKey payload
      (toyPrimitives.calculateSignature toyRandom.generateKeyPair.privKey payload) = true) ∧
    (∀ m, toyPrimitives.parseEnvelope (toyPrimitives.serializeEnvelope m) = some m) ∧
    (emptyStore "g").loadSenderKey "g" = some ⟨[]⟩ ∧
    (⟨[]⟩ : SenderKeyRecord).isEmpty = true ∧
    (GroupSessionBuilder.create toyPrimitives toyRandom (emptyStore "g") "g").result
      = .ok toyDistribution ∧
    (encryptAll toyPrimitives "g"
      (GroupSessionBuilder.create toyPrimitives toyRandom (emptyStore "g") "g").store
      [[1], [2]]).1 = .ok [toyEnvelope0, toyEnvelope2] ∧
    (decryptAll toyPrimitives "g"
      (GroupSessionBuilder.process toyPrimitives (emptyStore "g") "g" toyDistribution).store
      [toyEnvelope0, toyEnvelope2]).1 = .ok [[1], [2]] :=
  ⟨toy_cipher_inverts, toy_signature_verifies, toy_parse_inverts, by rfl, by rfl, by rfl,
    by rfl,
    (roundtrip toyPrimitives toyRandom toy_cipher_inverts toy_signature_verifies
      toy_parse_inverts (emptyStore "g") (emptyStore "g") "g" "g" ⟨[]⟩ ⟨[]⟩ (by rfl) (by rfl)
      (by rfl) (by rfl) toyDistribution (by rfl) [[1], [2]]).1 [toyEnvelope0, toyEnvelope2]
      (by rfl)⟩

/-! ## Iteration monotonicity -/

/-- C11 (iteration monotonicity): whatever the target, and whether `deriveSenderKey` returns or
throws, the current chain-key iteration of the state after the call is at least what it was
before; and `getNext` increases the iteration by exactly one. -/
theorem iteration_monotone (P : Primitives) (s : SenderKeyState) (t : Nat)
    (c : SenderChainKey) :
    s.senderChainKey.iteration
      ≤ (GroupCipher.deriveSenderKey P s t).2.senderChainKey.iteration ∧
    (c.getNext P).getIteration = c.getIteration + 1 := by
  refine ⟨?_, rfl⟩
  by_cases h1 : t < s.senderChainKey.iteration
  · rcases deriveSenderKey_old P s t h1 with ⟨k, _, _, h⟩ | ⟨_, h⟩ <;> rw [h]
  · by_cases h2 : 2000 < t - s.senderChainKey.iteration
    · rw [deriveSenderKey_gap P s t (by omega) h2]
    · rw [deriveSenderKey_forward P s t (by omega) (by omega)]
      simp only [SenderKeyState.setSenderChainKey]
      omega

/-! ## Key helper -/

/-- C15 (generated key id, amended): for every outcome of the random source the key id of
`generateSenderKeyId` is a natural below `2^31 - 1`, hence fits in 31 bits; it is the key id of
the state `create` stores for an empty record. -/
theorem generateSenderKeyId_range (P : Primitives) (rnd : RandomSource) (id : SenderKeyName) :
    generateSenderKeyId rnd < 2 ^ 31 - 1 ∧ generateSenderKeyId rnd < 2 ^ 31 ∧
    ((GroupSessionBuilder.create P rnd (emptyStore id) id).store.loadSenderKey id).map
      (fun r => r.senderKeyStates.map (fun s => s.keyId)) = some [generateSenderKeyId rnd] := by
  have h := rnd.randomInt.isLt
  refine ⟨?_, ?_, ?_⟩
  · simp only [generateSenderKeyId]; omega
  · simp only [generateSenderKeyId]; omega
  · have hl : (emptyStore id).loadSenderKey id = some ⟨[]⟩ := by
      simp [emptyStore, SenderKeyStore.loadSenderKey]
    rw [(create_fresh P rnd (emptyStore id) id ⟨[]⟩ hl rfl).2]
    rfl

/-- The claim C15 as stated fails: the draw 0 of `randomInt(2147483647)` gives the key id 0,
which is not positive. -/
theorem generateSenderKeyId_counterexample :
    generateSenderKeyId zeroRandom = 0 ∧ ¬ (0 < generateSenderKeyId zeroRandom) ∧
    ((GroupSessionBuilder.create toyPrimitives zeroRandom (emptyStore "g") "g").store.loadSenderKey
      "g").map (fun r => r.senderKeyStates.map (fun s => s.keyId)) = some [0] := by
  refine ⟨by rfl, by decide, by rfl⟩

/-! ## The distribution message -/

theorem jsAnd_byte_range (x : Int) : 0 ≤ jsAnd x 0xff ∧ jsAnd x 0xff ≤ 255 := by
  have h255 : toUint32 0xff = 255 := by decide
  have hle : toUint32 x &&& 255 ≤ 255 := Nat.and_le_right
  simp only [jsAnd, h255, toInt32]
  have hmod : ((toUint32 x &&& 255 : Nat) : Int) % 4294967296 = ((toUint32 x &&& 255 : Nat) : Int) :=
    Int.emod_eq_of_lt (by omega) (by omega)
  rw [hmod, if_pos (by omega)]
  omega

theorem intsToByteHighAndLow_nibbles :
    ∀ h l : Fin 16, SenderKeyDistributionMessage.intsToByteHighAndLow h.val l.val
      = 16 * h.val + l.val := by
  decide

/-- C18 (version byte): the bytes `serialize()` returns for a message built from fields are the
byte `((CURRENT_VERSION << 4) | CURRENT_VERSION) & 0xFF` followed by the structured encoding of
`{id, iteration, chainKey, signingKey}`; and for all integers `h` and `l`,
`intsToByteHighAndLow(h, l)` is `((h << 4) | l) & 0xFF`, a value in `0..255`. -/
theorem version_byte (P : Primitives) (id iteration : Nat) (chainKey signatureKey : Bytes)
    (h l : Int) :
    (SenderKeyDistributionMessage.fromFields P id iteration chainKey signatureKey).serialize
      = (jsAnd (jsOr (jsShiftLeft P.CURRENT_VERSION 4) P.CURRENT_VERSION) 0xff).toNat
          :: P.protobufEncode id iteration chainKey signatureKey ∧
    SenderKeyDistributionMessage.intsToByteHighAndLow h l
      = jsAnd (jsOr (jsShiftLeft h 4) l) 0xff ∧
    0 ≤ SenderKeyDistributionMessage.intsToByteHighAndLow h l ∧
    SenderKeyDistributionMessage.intsToByteHighAndLow h l ≤ 255 := by
  have key : ∀ a b : Int, SenderKeyDistributionMessage.intsToByteHighAndLow a b
      = jsAnd (jsOr (jsShiftLeft a 4) b) 0xff := by
    intro a b
    obtain ⟨h0, h1⟩ := jsAnd_byte_range (jsOr (jsShiftLeft a 4) b)
    simp only [SenderKeyDistributionMessage.intsToByteHighAndLow, jsRem]
    exact Int.tmod_eq_of_lt h0 (by omega)
  obtain ⟨h0, h1⟩ := jsAnd_byte_range (jsOr (jsShiftLeft h 4) l)
  obtain ⟨v0, v1⟩ := jsAnd_byte_range
    (jsOr (jsShiftLeft P.CURRENT_VERSION 4) P.CURRENT_VERSION)
  refine ⟨?_, key h l, by rw [key]; exact h0, by rw [key]; exact h1⟩
  simp only [SenderKeyDistributionMessage.serialize, SenderKeyDistributionMessage.fromFields,
    key, List.singleton_append]
  rw [Int.emod_eq_of_lt v0 (by omega)]

/-- C19 (distribution-message round trip): when the structured decoder inverts the encoder and
base64 decoding inverts base64 encoding, the message built from the bytes `serialize()` returns
for a message built from fields has the id, iteration, chain key and signature key of the
fields, and its own `serialize()` returns the same bytes. -/
theorem distribution_roundtrip (P : Primitives)
    (hcodec : ∀ id iteration chainKey signingKey,
      P.protobufDecode (P.protobufEncode id iteration chainKey signingKey)
        = some (id, iteration, chainKey, signingKey))
    (hbase64 : ∀ b, P.base64Decode (P.base64Encode b) = b)
    (id iteration : Nat) (chainKey signatureKey : Bytes) :
    ∃ m, SenderKeyDistributionMessage.fromSerialized P
        (SenderKeyDistributionMessage.fromFields P id iteration chainKey
          signatureKey).serialize = some m ∧
      m.getId = id ∧ m.getIteration = iteration ∧ m.getChainKey P = chainKey ∧
      m.getSignatureKey P = signatureKey ∧
      m.serialize = (SenderKeyDistributionMessage.fromFields P id iteration chainKey
        signatureKey).serialize := by
  simp only [SenderKeyDistributionMessage.fromSerialized,
    SenderKeyDistributionMessage.serialize, SenderKeyDistributionMessage.fromFields,
    List.singleton_append, List.drop_succ_cons, List.drop_zero, hcodec]
  exact ⟨_, rfl, rfl, rfl, hbase64 chainKey, hbase64 signatureKey, rfl⟩

theorem toy_codec_inverts (id iteration : Nat) (chainKey signingKey : Bytes) :
    toyPrimitives.protobufDecode (toyPrimitives.protobufEncode id iteration chainKey signingKey)
      = some (id, iteration, chainKey, signingKey) := by
  simp [toyPrimitives]

theorem toy_base64_inverts (b : Bytes) :
    toyPrimitives.base64Decode (toyPrimitives.base64Encode b) = b := by
  simp [toyPrimitives, Function.comp_def]

theorem distribution_roundtrip_witness :
    (∀ id iteration chainKey signingKey,
      toyPrimitives.protobufDecode
        (toyPrimitives.protobufEncode id iteration chainKey signingKey)
        = some (id, iteration, chainKey, signingKey)) ∧
    (∀ b, toyPrimitives.base64Decode (toyPrimitives.base64Encode b) = b) ∧
    toyDistribution.serialize = [51, 7, 0, 32] ++ List.replicate 32 9 ++ [5] ∧
    ∃ m, SenderKeyDistributionMessage.fromSerialized toyPrimitives
        (SenderKeyDistributionMessage.fromFields toyPrimitives 7 0 (List.replicate 32 9)
          [5]).serialize = some m ∧
      m.getId = 7 ∧ m.getIteration = 0 ∧
      m.getChainKey toyPrimitives = List.replicate 32 9 ∧
      m.getSignatureKey toyPrimitives = [5] ∧
      m.serialize = (SenderKeyDistributionMessage.fromFields toyPrimitives 7 0
        (List.replicate 32 9) [5]).serialize :=
  ⟨toy_codec_inverts, toy_base64_inverts, by rfl,
    distribution_roundtrip toyPrimitives toy_codec_inverts toy_base64_inverts 7 0
      (List.replicate 32 9) [5]⟩

/-! ## The session builder -/

theorem getSenderKeyState_newest (r : SenderKeyRecord) (h : r.isEmpty = false) :
    ∃ s, r.senderKeyStates.getLast? = some s ∧
      r.getSenderKeyState none = some (r.senderKeyStates.length - 1, s) := by
  cases r with
  | mk l =>
    cases hl : l.getLast? with
    | none =>
      rw [List.getLast?_eq_none_iff] at hl
      subst hl
      simp [SenderKeyRecord.isEmpty] at h
    | some s =>
      exact ⟨s, rfl, by simp [SenderKeyRecord.getSenderKeyState, hl]⟩

/-- What `create` does on a record that already has a state. -/
theorem create_existing (P : Primitives) (rnd : RandomSource) (store : SenderKeyStore)
    (id : SenderKeyName) (record : SenderKeyRecord)
    (hl : store.loadSenderKey id = some record) (hne : record.isEmpty = false) :
    ∃ s, record.senderKeyStates.getLast? = some s ∧
      GroupSessionBuilder.create P rnd store id =
        ⟨.ok (SenderKeyDistributionMessage.fromFields P s.keyId s.senderChainKey.iteration
            s.senderChainKey.chainKey s.signingKeyPublic),
          some record, store, [.loadSenderKey id]⟩ := by
  obtain ⟨s, hs, hsel⟩ := getSenderKeyState_newest record hne
  refine ⟨s, hs, ?_⟩
  simp only [GroupSessionBuilder.create, hl, hne, Bool.false_eq_true, if_false, hsel]
  rfl

/-- What `create` does on an empty record. -/
theorem create_empty (P : Primitives) (rnd : RandomSource) (store : SenderKeyStore)
    (id : SenderKeyName) (record : SenderKeyRecord)
    (hl : store.loadSenderKey id = some record) (he : record.isEmpty = true) :
    GroupSessionBuilder.create P rnd store id =
      ⟨.ok (SenderKeyDistributionMessage.fromFields P (generateSenderKeyId rnd) 0
          (generateSenderKey rnd) (generateSenderSigningKey rnd none).pub),
        some ⟨[freshState rnd]⟩, store.storeSenderKey id ⟨[freshState rnd]⟩,
        [.loadSenderKey id, .storeSenderKey id ⟨[freshState rnd]⟩]⟩ := by
  simp only [GroupSessionBuilder.create, hl, he, if_true]
  rfl

theorem storeSenderKey_load (store : SenderKeyStore) (id : SenderKeyName)
    (r : SenderKeyRecord) : (store.storeSenderKey id r).loadSenderKey id = some r := by
  simp [SenderKeyStore.storeSenderKey, SenderKeyStore.loadSenderKey]

/-- C13 (`create` is idempotent): on a record that already has a state `create` does not use
the random source, makes no call on the store but the load and leaves record and store as they
were; so of two consecutive `create` calls the second returns the distribution message of the
first (same key id, iteration, chain seed and signing public key), writes nothing, and after
both an initially empty record holds exactly one state. -/
theorem create_idempotent (P : Primitives) (rnd1 rnd2 : RandomSource) (store : SenderKeyStore)
    (id : SenderKeyName) (record : SenderKeyRecord)
    (hl : store.loadSenderKey id = some record) :
    (record.isEmpty = false →
      GroupSessionBuilder.create P rnd1 store id = GroupSessionBuilder.create P rnd2 store id ∧
      (GroupSessionBuilder.create P rnd1 store id).calls = [.loadSenderKey id] ∧
      (GroupSessionBuilder.create P rnd1 store id).store = store ∧
      (GroupSessionBuilder.create P rnd1 store id).record = some record) ∧
    (∃ m, (GroupSessionBuilder.create P rnd1 store id).result = .ok m ∧
      (GroupSessionBuilder.create P rnd2
        (GroupSessionBuilder.create P rnd1 store id).store id).result = .ok m) ∧
    (GroupSessionBuilder.create P rnd2
      (GroupSessionBuilder.create P rnd1 store id).store id).calls = [.loadSenderKey id] ∧
    (GroupSessionBuilder.create P rnd2
      (GroupSessionBuilder.create P rnd1 store id).store id).store
      = (GroupSessionBuilder.create P rnd1 store id).store ∧
    (record.isEmpty = true →
      ∃ s, (GroupSessionBuilder.create P rnd2
        (GroupSessionBuilder.create P rnd1 store id).store id).store.loadSenderKey id
          = some ⟨[s]⟩) := by
  cases he : record.isEmpty with
  | false =>
    obtain ⟨s, _, h1⟩ := create_existing P rnd1 store id record hl he
    obtain ⟨s', hs', h2⟩ := create_existing P rnd2 store id record hl he
    have hss : s' = s := by
      have := hs'.symm.trans ‹record.senderKeyStates.getLast? = some s›
      exact Option.some.inj this
    subst hss
    refine ⟨fun _ => ?_, ?_, ?_, ?_, fun h => absurd h (by simp)⟩
    · rw [h1, h2]
      exact ⟨rfl, rfl, rfl, rfl⟩
    · rw [h1]
      simp only []
      rw [h2]
      exact ⟨_, rfl, rfl⟩
    · rw [h1]
      simp only []
      rw [h2]
    · rw [h1]
      simp only []
      rw [h2]
  | true =>
    have h1 := create_empty P rnd1 store id record hl he
    obtain ⟨s, hs, h2⟩ := create_existing P rnd2
      (GroupSessionBuilder.create P rnd1 store id).store id ⟨[freshState rnd1]⟩
      (by rw [h1]; exact storeSenderKey_load _ _ _) rfl
    simp only [List.getLast?_singleton, Option.some.injEq] at hs
    subst hs
    refine ⟨fun h => absurd h (by simp), ?_, ?_, ?_, fun _ => ?_⟩
    · rw [h2]
      rw [h1]
      exact ⟨_, rfl, rfl⟩
    · rw [h2]
    · rw [h2]
    · rw [h2]
      simp only []
      rw [h1]
      exact ⟨_, storeSenderKey_load _ _ _⟩

theorem create_idempotent_witness :
    (emptyStore "g").loadSenderKey "g" = some ⟨[]⟩ ∧
    (GroupSessionBuilder.create toyPrimitives toyRandom (emptyStore "g") "g").result
      = .ok toyDistribution ∧
    (GroupSessionBuilder.create toyPrimitives zeroRandom
      (GroupSessionBuilder.create toyPrimitives toyRandom (emptyStore "g") "g").store
      "g").result = .ok toyDistribution ∧
    (∃ m, (GroupSessionBuilder.create toyPrimitives toyRandom (emptyStore "g") "g").result
        = .ok m ∧
      (GroupSessionBuilder.create toyPrimitives zeroRandom
        (GroupSessionBuilder.create toyPrimitives toyRandom (emptyStore "g") "g").store
        "g").result = .ok m) ∧
    (GroupSessionBuilder.create toyPrimitives zeroRandom
      (GroupSessionBuilder.create toyPrimitives toyRandom (emptyStore "g") "g").store
      "g").calls = [.loadSenderKey "g"] :=
  ⟨by rfl, by rfl, by rfl,
    (create_idempotent toyPrimitives toyRandom zeroRandom (emptyStore "g") "g" ⟨[]⟩
      (by rfl)).2.1,
    (create_idempotent toyPrimitives toyRandom zeroRandom (emptyStore "g") "g" ⟨[]⟩
      (by rfl)).2.2.1⟩

/-- C14 (the message `create` returns): the distribution message carries the key id, the
current chain-key iteration, the current chain-key seed and the signing public key of the state
the record selects as newest after the call, the record being the one the store then holds; for
an initially empty record the iteration is 0, the seed is the 32 bytes just drawn, the key id
and public key are the generated ones, and the new record was written to the store. -/
theorem create_message (P : Primitives) (rnd : RandomSource) (store : SenderKeyStore)
    (id : SenderKeyName) (record : SenderKeyRecord)
    (hl : store.loadSenderKey id = some record) :
    ∃ r idx s m,
      (GroupSessionBuilder.create P rnd store id).record = some r ∧
      (GroupSessionBuilder.create P rnd store id).store.loadSenderKey id = some r ∧
      r.getSenderKeyState none = some (idx, s) ∧
      (GroupSessionBuilder.create P rnd store id).result = .ok m ∧
      m.getId = s.keyId ∧ m.getIteration = s.senderChainKey.iteration ∧
      m.getChainKey P = s.senderChainKey.chainKey ∧
      m.getSignatureKey P = s.signingKeyPublic ∧
      (record.isEmpty = true →
        m.getIteration = 0 ∧ m.getChainKey P = generateSenderKey rnd ∧
        (m.getChainKey P).length = 32 ∧ m.getId = generateSenderKeyId rnd ∧
        m.getSignatureKey P = (generateSenderSigningKey rnd none).pub ∧
        r = ⟨[freshState rnd]⟩ ∧
        (GroupSessionBuilder.create P rnd store id).calls
          = [.loadSenderKey id, .storeSenderKey id r]) := by
  cases he : record.isEmpty with
  | false =>
    obtain ⟨s, hs, h⟩ := create_existing P rnd store id record hl he
    obtain ⟨s', hs', hsel⟩ := getSenderKeyState_newest record he
    have hss : s' = s := Option.some.inj (hs'.symm.trans hs)
    subst hss
    rw [h]
    exact ⟨record, _, s', _, rfl, hl, hsel, rfl, rfl, rfl, rfl, rfl,
      fun h => absurd h (by simp)⟩
  | true =>
    rw [create_empty P rnd store id record hl he]
    exact ⟨⟨[freshState rnd]⟩, 0, freshState rnd, _, rfl, storeSenderKey_load _ _ _, rfl, rfl,
      rfl, rfl, rfl, rfl,
      fun _ => ⟨rfl, rfl, rnd.randomBytes_length, rfl, rfl, rfl, rfl⟩⟩

theorem create_message_witness :
    (emptyStore "g").loadSenderKey "g" = some ⟨[]⟩ ∧
    ∃ r idx s m,
      (GroupSessionBuilder.create toyPrimitives toyRandom (emptyStore "g") "g").record
        = some r ∧
      (GroupSessionBuilder.create toyPrimitives toyRandom (emptyStore "g")
        "g").store.loadSenderKey "g" = some r ∧
      r.getSenderKeyState none = some (idx, s) ∧
      (GroupSessionBuilder.create toyPrimitives toyRandom (emptyStore "g") "g").result
        = .ok m ∧
      m.getId = s.keyId ∧ m.getIteration = s.senderChainKey.iteration ∧
      m.getChainKey toyPrimitives = s.senderChainKey.chainKey ∧
      m.getSignatureKey toyPrimitives = s.signingKeyPublic ∧
      ((⟨[]⟩ : SenderKeyRecord).isEmpty = true →
        m.getIteration = 0 ∧ m.getChainKey toyPrimitives = generateSenderKey toyRandom ∧
        (m.getChainKey toyPrimitives).length = 32 ∧ m.getId = generateSenderKeyId toyRandom ∧
        m.getSignatureKey toyPrimitives = (generateSenderSigningKey toyRandom none).pub ∧
        r = ⟨[freshState toyRandom]⟩ ∧
        (GroupSessionBuilder.create toyPrimitives toyRandom (emptyStore "g") "g").calls
          = [.loadSenderKey "g", .storeSenderKey "g" r]) :=
  ⟨by rfl, create_message toyPrimitives toyRandom (emptyStore "g") "g" ⟨[]⟩ (by rfl)⟩

/-- C16 (`process`): on a loaded record `process` succeeds for every distribution message; it
stores, in one write after the load, the record made of the previous states, unchanged and in
order, followed by one new state with the key id, iteration, chain-key seed and signing public
key of the message, no signing private key and an empty cache. -/
theorem process_appends (P : Primitives) (store : SenderKeyStore) (id : SenderKeyName)
    (m : SenderKeyDistributionMessage) (record : SenderKeyRecord)
    (hl : store.loadSenderKey id = some record) :
    ∃ s : SenderKeyState,
      s.keyId = m.getId ∧ s.senderChainKey = ⟨m.getIteration, m.getChainKey P⟩ ∧
      s.signingKeyPublic = m.getSignatureKey P ∧ s.signingKeyPrivate = none ∧
      s.senderMessageKeys = [] ∧
      (GroupSessionBuilder.process P store id m).result = .ok () ∧
      (GroupSessionBuilder.process P store id m).record
        = some ⟨record.senderKeyStates ++ [s]⟩ ∧
      (GroupSessionBuilder.process P store id m).store.loadSenderKey id
        = some ⟨record.senderKeyStates ++ [s]⟩ ∧
      (GroupSessionBuilder.process P store id m).calls
        = [.loadSenderKey id, .storeSenderKey id ⟨record.senderKeyStates ++ [s]⟩] := by
  have h : GroupSessionBuilder.process P store id m =
      ⟨.ok (), some (record.addSenderKeyState m.getId m.getIteration (m.getChainKey P)
          (m.getSignatureKey P)),
        store.storeSenderKey id (record.addSenderKeyState m.getId m.getIteration
          (m.getChainKey P) (m.getSignatureKey P)),
        [.loadSenderKey id, .storeSenderKey id (record.addSenderKeyState m.getId
          m.getIteration (m.getChainKey P) (m.getSignatureKey P))]⟩ := by
    simp only [GroupSessionBuilder.process, hl]
  rw [h]
  exact ⟨⟨m.getId, ⟨m.getIteration, m.getChainKey P⟩, m.getSignatureKey P, none, []⟩,
    rfl, rfl, rfl, rfl, rfl, rfl, rfl, storeSenderKey_load _ _ _, rfl⟩

theorem process_appends_witness :
    (emptyStore "g").loadSenderKey "g" = some ⟨[]⟩ ∧
    (GroupSessionBuilder.process toyPrimitives (emptyStore "g") "g"
      toyDistribution).store.loadSenderKey "g" = some ⟨[toyPeerState]⟩ ∧
    ∃ s : SenderKeyState,
      s.keyId = toyDistribution.getId ∧
      s.senderChainKey
        = ⟨toyDistribution.getIteration, toyDistribution.getChainKey toyPrimitives⟩ ∧
      s.signingKeyPublic = toyDistribution.getSignatureKey toyPrimitives ∧
      s.signingKeyPrivate = none ∧ s.senderMessageKeys = [] ∧
      (GroupSessionBuilder.process toyPrimitives (emptyStore "g") "g" toyDistribution).result
        = .ok () ∧
      (GroupSessionBuilder.process toyPrimitives (emptyStore "g") "g" toyDistribution).record
        = some ⟨(⟨[]⟩ : SenderKeyRecord).senderKeyStates ++ [s]⟩ ∧
      (GroupSessionBuilder.process toyPrimitives (emptyStore "g") "g"
        toyDistribution).store.loadSenderKey "g"
        = some ⟨(⟨[]⟩ : SenderKeyRecord).senderKeyStates ++ [s]⟩ ∧
      (GroupSessionBuilder.process toyPrimitives (emptyStore "g") "g" toyDistribution).calls
        = [.loadSenderKey "g",
           .storeSenderKey "g" ⟨(⟨[]⟩ : SenderKeyRecord).senderKeyStates ++ [s]⟩] :=
  ⟨by rfl, by rfl,
    process_appends toyPrimitives (emptyStore "g") "g" toyDistribution ⟨[]⟩ (by rfl)⟩

/-! ## The precondition of `encrypt` -/

/-- C12 (encrypt precondition, amended): on a record without any state `encrypt` fails with
`No session to encrypt message` and leaves the record and the store as they were; when the
state the record selects for sending holds no signing private key, `encrypt` fails too, with
the cipher error or at the signing of the envelope, without a write to the store, after
`deriveSenderKey` has advanced the loaded record object. -/
theorem encrypt_precondition (P : Primitives) (store : SenderKeyStore) (id : SenderKeyName)
    (x : Bytes) (record : SenderKeyRecord)
    (hl : store.loadSenderKey id = some record) :
    (record.isEmpty = true →
      (GroupCipher.encrypt P store id x).result = .error .noSessionToEncrypt ∧
      (GroupCipher.encrypt P store id x).record = some record ∧
      (GroupCipher.encrypt P store id x).store = store ∧
      (GroupCipher.encrypt P store id x).calls = [.loadSenderKey id]) ∧
    (∀ idx s, record.getSenderKeyState none = some (idx, s) → s.signingKeyPrivate = none →
      ((GroupCipher.encrypt P store id x).result = .error .invalidMessage ∨
        (GroupCipher.encrypt P store id x).result = .error .noSigningKey) ∧
      (GroupCipher.encrypt P store id x).store = store ∧
      (GroupCipher.encrypt P store id x).calls = [.loadSenderKey id] ∧
      (GroupCipher.encrypt P store id x).record
        = some (record.putState idx (GroupCipher.deriveSenderKey P s
            (if s.senderChainKey.iteration = 0 then 0
              else s.senderChainKey.iteration + 1)).2)) := by
  constructor
  · intro he
    have hr : record = ⟨[]⟩ := by
      cases record with
      | mk l =>
        cases l with
        | nil => rfl
        | cons a l => simp [SenderKeyRecord.isEmpty] at he
    subst hr
    have hs : (⟨[]⟩ : SenderKeyRecord).getSenderKeyState none = none := rfl
    simp only [GroupCipher.encrypt, GroupCipher.encryptEnvelope, hl, hs, Except.map]
    exact ⟨trivial, trivial, trivial, trivial⟩
  · intro idx s hs hpriv
    have hle : s.senderChainKey.iteration ≤
        (if s.senderChainKey.iteration = 0 then 0 else s.senderChainKey.iteration + 1) := by
      split <;> omega
    have hgap : (if s.senderChainKey.iteration = 0 then 0 else s.senderChainKey.iteration + 1)
        - s.senderChainKey.iteration ≤ 2000 := by
      split <;> omega
    have hfw := deriveSenderKey_forward P s _ hle hgap
    have hd : (GroupCipher.deriveSenderKey P s
        (if s.senderChainKey.iteration = 0 then 0 else s.senderChainKey.iteration + 1)).1
        = .ok ⟨if s.senderChainKey.iteration = 0 then 0 else s.senderChainKey.iteration + 1,
            P.calculateMAC (stepChain P ((if s.senderChainKey.iteration = 0 then 0
              else s.senderChainKey.iteration + 1) - s.senderChainKey.iteration)
              s.senderChainKey.chainKey) SenderChainKey.MESSAGE_KEY_SEED⟩ := by
      rw [hfw]
    have hpair : GroupCipher.deriveSenderKey P s
        (if s.senderChainKey.iteration = 0 then 0 else s.senderChainKey.iteration + 1)
        = (.ok ⟨if s.senderChainKey.iteration = 0 then 0 else s.senderChainKey.iteration + 1,
            P.calculateMAC (stepChain P ((if s.senderChainKey.iteration = 0 then 0
              else s.senderChainKey.iteration + 1) - s.senderChainKey.iteration)
              s.senderChainKey.chainKey) SenderChainKey.MESSAGE_KEY_SEED⟩,
          (GroupCipher.deriveSenderKey P s
            (if s.senderChainKey.iteration = 0 then 0
              else s.senderChainKey.iteration + 1)).2) := by
      rw [← hd]
    have hp := (deriveSenderKey_frame P s
      (if s.senderChainKey.iteration = 0 then 0 else s.senderChainKey.iteration + 1)).2.2
    rw [hpriv] at hp
    have he := encryptEnvelope_selected P store id x record idx s _ _ hl hs hpair
    rw [hp] at he
    simp only [GroupCipher.encrypt, he]
    cases P.encryptMessage _ x _ with
    | none => exact ⟨Or.inl rfl, rfl, rfl, rfl⟩
    | some c => exact ⟨Or.inr rfl, rfl, rfl, rfl⟩

theorem encrypt_precondition_witness :
    (emptyStore "g").loadSenderKey "g" = some ⟨[]⟩ ∧
    (⟨[]⟩ : SenderKeyRecord).isEmpty = true ∧
    (GroupCipher.encrypt toyPrimitives (emptyStore "g") "g" [1]).result
      = .error .noSessionToEncrypt ∧
    (GroupCipher.encrypt toyPrimitives (emptyStore "g") "g" [1]).record = some ⟨[]⟩ ∧
    (GroupCipher.encrypt toyPrimitives (emptyStore "g") "g" [1]).store = emptyStore "g" ∧
    (GroupCipher.encrypt toyPrimitives (emptyStore "g") "g" [1]).calls
      = [.loadSenderKey "g"] :=
  ⟨by rfl, by rfl,
    (encrypt_precondition toyPrimitives (emptyStore "g") "g" [1] ⟨[]⟩ (by rfl)).1 (by rfl)⟩

/-- The claim C12 as stated fails: on a record populated only by `process`, whose one state
holds no signing private key, `encrypt` fails at the signing of the envelope (and with the
cipher error when the cipher throws), not with `No session to encrypt message`, and the loaded
record went from iteration 0 to iteration 1. -/
theorem encrypt_precondition_counterexample :
    toyPeerStore.loadSenderKey "g" = some ⟨[toyPeerState]⟩ ∧
    toyPeerState.signingKeyPrivate = none ∧
    (GroupCipher.encrypt toyPrimitives toyPeerStore "g" [1]).result = .error .noSigningKey ∧
    (GroupCipher.encrypt failingCipherPrimitives toyPeerStore "g" [1]).result
      = .error .invalidMessage ∧
    GroupError.noSigningKey ≠ GroupError.noSessionToEncrypt ∧
    GroupError.invalidMessage ≠ GroupError.noSessionToEncrypt ∧
    (toyPeerStore.loadSenderKey "g").bind sendingChainKey = some ⟨0, List.replicate 32 9⟩ ∧
    (GroupCipher.encrypt toyPrimitives toyPeerStore "g" [1]).record.bind sendingChainKey
      = some ⟨1, List.replicate 32 9 ++ [2]⟩ := by
  refine ⟨by rfl, by rfl, by rfl, by rfl, by decide, by decide, by rfl, by rfl⟩

/-! ## At most one state with a private key -/

theorem getSenderKeyState_getElem? (r : SenderKeyRecord) (k : Option Nat) (idx : Nat)
    (s : SenderKeyState) (h : r.getSenderKeyState k = some (idx, s)) :
    r.senderKeyStates[idx]? = some s := by
  cases k with
  | none =>
    simp only [SenderKeyRecord.getSenderKeyState] at h
    cases hl : r.senderKeyStates.getLast? with
    | none => rw [hl] at h; simp at h
    | some s' =>
      rw [hl] at h
      simp only [Option.some.injEq, Prod.mk.injEq] at h
      rw [← h.1, ← h.2, ← hl, List.getLast?_eq_getElem?]
  | some keyId =>
    simp only [SenderKeyRecord.getSenderKeyState] at h
    exact List.mk_mem_enum_iff_getElem?.1 (List.mem_of_find?_eq_some h)

theorem privateKeyCount_putState (r : SenderKeyRecord) (k : Option Nat) (idx : Nat)
    (s s' : SenderKeyState) (h : r.getSenderKeyState k = some (idx, s))
    (hp : s'.signingKeyPrivate = s.signingKeyPrivate) :
    (r.putState idx s').privateKeyCount = r.privateKeyCount := by
  have hget := getSenderKeyState_getElem? r k idx s h
  obtain ⟨hlt, hs⟩ := List.getElem?_eq_some_iff.1 hget
  simp only [SenderKeyRecord.putState, SenderKeyRecord.privateKeyCount]
  rw [List.countP_set _ _ _ _ hlt, hs, hp]
  have := List.boole_getElem_le_countP (fun s : SenderKeyState => s.signingKeyPrivate.isSome)
    r.senderKeyStates idx hlt
  rw [hs] at this
  omega

theorem privateKeyCount_cases (A B r : SenderKeyRecord) (n : Nat)
    (hA : A.privateKeyCount = n) (hB : B.privateKeyCount = n)
    (h : some A = some r ∨ some B = some r) : r.privateKeyCount = n := by
  rcases h with h | h
  · rw [← Option.some.inj h]; exact hA
  · rw [← Option.some.inj h]; exact hB

theorem encrypt_privateKeyCount (P : Primitives) (store : SenderKeyStore)
    (id : SenderKeyName) (x : Bytes) (record r : SenderKeyRecord)
    (hl : store.loadSenderKey id = some record)
    (h : (GroupCipher.encrypt P store id x).record = some r ∨
      (GroupCipher.encrypt P store id x).store.loadSenderKey id = some r) :
    r.privateKeyCount = record.privateKeyCount := by
  revert h
  simp only [GroupCipher.encrypt]
  unfold GroupCipher.encryptEnvelope
  rw [hl]
  simp only []
  cases hs : record.getSenderKeyState none with
  | none =>
    simp only [hl]
    exact privateKeyCount_cases _ _ _ _ rfl rfl
  | some p =>
    obtain ⟨idx, s⟩ := p
    simp only []
    have hc := privateKeyCount_putState record none idx s
      (GroupCipher.deriveSenderKey P s
        (if s.getSenderChainKey.getIteration = 0 then 0
          else s.getSenderChainKey.getIteration + 1)).2 hs
      (deriveSenderKey_frame P s _).2.2
    generalize GroupCipher.deriveSenderKey P s
      (if s.getSenderChainKey.getIteration = 0 then 0
        else s.getSenderChainKey.getIteration + 1) = d at hc ⊢
    obtain ⟨(e | k), s'⟩ := d
    · simp only [hl]
      exact privateKeyCount_cases _ _ _ _ hc rfl
    · simp only []
      cases hct : GroupCipher.generateCipherText P (k.getIv P) (k.getCipherKey P) x with
      | error e =>
        simp only [hl]
        exact privateKeyCount_cases _ _ _ _ hc rfl
      | ok c =>
        simp only []
        cases hm : SenderKeyMessage.create P s'.getKeyId k.getIteration c
          s'.getSigningKeyPrivate with
        | error e =>
          simp only [hl]
          exact privateKeyCount_cases _ _ _ _ hc rfl
        | ok m =>
          simp only [storeSenderKey_load]
          exact privateKeyCount_cases _ _ _ _ hc hc

theorem decrypt_privateKeyCount (P : Primitives) (store : SenderKeyStore)
    (id : SenderKeyName) (x : Bytes) (record r : SenderKeyRecord)
    (hl : store.loadSenderKey id = some record)
    (h : (GroupCipher.decrypt P store id x).record = some r ∨
      (GroupCipher.decrypt P store id x).store.loadSenderKey id = some r) :
    r.privateKeyCount = record.privateKeyCount := by
  revert h
  unfold GroupCipher.decrypt
  rw [hl]
  simp only []
  cases hp : SenderKeyMessage.fromSerialized P x with
  | error e =>
    simp only [hl]
    exact privateKeyCount_cases _ _ _ _ rfl rfl
  | ok m =>
    simp only []
    cases hs : record.getSenderKeyState (some m.keyId) with
    | none =>
      simp only [hl]
      exact privateKeyCount_cases _ _ _ _ rfl rfl
    | some p =>
      obtain ⟨idx, s⟩ := p
      simp only []
      cases hv : m.verifySignature P s.getSigningKeyPublic with
      | error e =>
        simp only [hl]
        exact privateKeyCount_cases _ _ _ _ rfl rfl
      | ok u =>
        simp only []
        have hc := privateKeyCount_putState record (some m.keyId) idx s
          (GroupCipher.deriveSenderKey P s m.iteration).2 hs
          (deriveSenderKey_frame P s _).2.2
        generalize GroupCipher.deriveSenderKey P s m.iteration = d at hc ⊢
        obtain ⟨(e | k), s'⟩ := d
        · simp only [hl]
          exact privateKeyCount_cases _ _ _ _ hc rfl
        · simp only []
          cases hct : GroupCipher.extractPlainText P (k.getIv P) (k.getCipherKey P)
            m.ciphertext with
          | error e =>
            simp only [hl]
            exact privateKeyCount_cases _ _ _ _ hc rfl
          | ok c =>
            simp only [storeSenderKey_load]
            exact privateKeyCount_cases _ _ _ _ hc hc

theorem create_privateKeyCount (P : Primitives) (rnd : RandomSource) (store : SenderKeyStore)
    (id : SenderKeyName) (record r : SenderKeyRecord)
    (hl : store.loadSenderKey id = some record) (hc : record.privateKeyCount ≤ 1)
    (h : (GroupSessionBuilder.create P rnd store id).record = some r ∨
      (GroupSessionBuilder.create P rnd store id).store.loadSenderKey id = some r) :
    r.privateKeyCount ≤ 1 := by
  revert h
  cases he : record.isEmpty with
  | false =>
    obtain ⟨s, _, h1⟩ := create_existing P rnd store id record hl he
    rw [h1]
    simp only [hl]
    intro h
    rw [privateKeyCount_cases record record r _ rfl rfl h]
    exact hc
  | true =>
    rw [create_empty P rnd store id record hl he]
    simp only [storeSenderKey_load]
    intro h
    rw [privateKeyCount_cases ⟨[freshState rnd]⟩ ⟨[freshState rnd]⟩ r 1 rfl rfl h]

theorem process_privateKeyCount (P : Primitives) (store : SenderKeyStore)
    (id : SenderKeyName) (m : SenderKeyDistributionMessage) (record r : SenderKeyRecord)
    (hl : store.loadSenderKey id = some record)
    (h : (GroupSessionBuilder.process P store id m).record = some r ∨
      (GroupSessionBuilder.process P store id m).store.loadSenderKey id = some r) :
    r.privateKeyCount = record.privateKeyCount := by
  obtain ⟨s, _, _, _, hp, _, _, h1, h2, _⟩ := process_appends P store id m record hl
  rw [h1, h2] at h
  have hcount : (⟨record.senderKeyStates ++ [s]⟩ : SenderKeyRecord).privateKeyCount
      = record.privateKeyCount := by
    simp [SenderKeyRecord.privateKeyCount, List.countP_cons, hp]
  exact privateKeyCount_cases _ _ r _ hcount hcount h

/-- C17 (record invariant): every record reached from the empty record by `create`, `process`,
`encrypt` and `decrypt` calls, stored or left in memory, has at most one state that holds a
signing private key. -/
theorem at_most_one_private_key (P : Primitives) (r : SenderKeyRecord)
    (h : ReachableRecord P r) : r.privateKeyCount ≤ 1 := by
  induction h with
  | empty => simp [SenderKeyRecord.privateKeyCount]
  | stored store id op r r' _ hl hr ih =>
    cases op with
    | create rnd => exact create_privateKeyCount P rnd store id r r' hl ih (Or.inr hr)
    | process m => rw [process_privateKeyCount P store id m r r' hl (Or.inr hr)]; exact ih
    | encrypt x => rw [encrypt_privateKeyCount P store id x r r' hl (Or.inr hr)]; exact ih
    | decrypt x => rw [decrypt_privateKeyCount P store id x r r' hl (Or.inr hr)]; exact ih
  | loaded store id op r r' _ hl hr ih =>
    cases op with
    | create rnd => exact create_privateKeyCount P rnd store id r r' hl ih (Or.inl hr)
    | process m => rw [process_privateKeyCount P store id m r r' hl (Or.inl hr)]; exact ih
    | encrypt x => rw [encrypt_privateKeyCount P store id x r r' hl (Or.inl hr)]; exact ih
    | decrypt x => rw [decrypt_privateKeyCount P store id x r r' hl (Or.inl hr)]; exact ih

theorem at_most_one_private_key_witness :
    ReachableRecord toyPrimitives ⟨[toySenderState, toyPeerState]⟩ ∧
    (⟨[toySenderState, toyPeerState]⟩ : SenderKeyRecord).privateKeyCount = 1 ∧
    (⟨[toySenderState, toyPeerState]⟩ : SenderKeyRecord).privateKeyCount ≤ 1 :=
  ⟨ReachableRecord.stored toySenderStore "g" (.process toyDistribution) ⟨[toySenderState]⟩ _
      (ReachableRecord.stored (emptyStore "g") "g" (.create toyRandom) ⟨[]⟩ _
        ReachableRecord.empty (by rfl) (by rfl)) (by rfl) (by rfl),
    by rfl,
    at_most_one_private_key toyPrimitives ⟨[toySenderState, toyPeerState]⟩
      (ReachableRecord.stored toySenderStore "g" (.process toyDistribution)
        ⟨[toySenderState]⟩ _
        (ReachableRecord.stored (emptyStore "g") "g" (.create toyRandom) ⟨[]⟩ _
          ReachableRecord.empty (by rfl) (by rfl)) (by rfl) (by rfl))⟩

/-! ## Store accesses and the serialization queue -/

theorem process_calls_head (P : Primitives) (store : SenderKeyStore) (id : SenderKeyName)
    (m : SenderKeyDistributionMessage) :
    (GroupSessionBuilder.process P store id m).calls.head? = some (.loadSenderKey id) := by
  unfold GroupSessionBuilder.process
  cases store.loadSenderKey id <;> rfl

theorem create_calls_head (P : Primitives) (rnd : RandomSource) (store : SenderKeyStore)
    (id : SenderKeyName) :
    (GroupSessionBuilder.create P rnd store id).calls.head? = some (.loadSenderKey id) := by
  unfold GroupSessionBuilder.create
  cases store.loadSenderKey id with
  | none => rfl
  | some record =>
    simp only []
    cases record.isEmpty <;> simp only [if_true, Bool.false_eq_true, if_false] <;>
      split <;> rfl

/-- Where the store calls of the four operations are made: those of `encrypt` and of `decrypt`
inside a task submitted under the identity's key; those of `process` and of `create` outside
every task, and each of the two starts with such a `loadSenderKey`. -/
theorem store_access_mediation (P : Primitives) (rnd : RandomSource) (store : SenderKeyStore)
    (id : SenderKeyName) (x : Bytes) (m : SenderKeyDistributionMessage) :
    (GroupCipher.encryptAccesses P store id x).all (fun a => a.task == some id) = true ∧
    (GroupCipher.decryptAccesses P store id x).all (fun a => a.task == some id) = true ∧
    (GroupSessionBuilder.processAccesses P store id m).all (fun a => a.task == none) = true ∧
    (GroupSessionBuilder.createAccesses P rnd store id).all (fun a => a.task == none) = true ∧
    (GroupSessionBuilder.processAccesses P store id m).head?
      = some ⟨none, .loadSenderKey id⟩ ∧
    (GroupSessionBuilder.createAccesses P rnd store id).head?
      = some ⟨none, .loadSenderKey id⟩ := by
  refine ⟨?_, ?_, ?_, ?_, ?_, ?_⟩
  · simp [GroupCipher.encryptAccesses, GroupCipher.queueJob, List.all_map]
  · simp [GroupCipher.decryptAccesses, GroupCipher.queueJob, List.all_map]
  · simp [GroupSessionBuilder.processAccesses, List.all_map]
  · simp [GroupSessionBuilder.createAccesses, List.all_map]
  · simp only [GroupSessionBuilder.processAccesses, List.head?_map, process_calls_head]
    rfl
  · simp only [GroupSessionBuilder.createAccesses, List.head?_map, create_calls_head]
    rfl

/-- C20 (store accesses and the queue), at the failing input: `process` of a distribution message
and `create`, on an empty record, load and store the record outside every queue task, where
the claim wants every store call inside a task of the identity's queue, as those of `encrypt`
are. -/
theorem builder_accesses_outside_queue :
    GroupSessionBuilder.processAccesses toyPrimitives (emptyStore "g") "g" toyDistribution
      = [⟨none, .loadSenderKey "g"⟩, ⟨none, .storeSenderKey "g" ⟨[toyPeerState]⟩⟩] ∧
    GroupSessionBuilder.createAccesses toyPrimitives toyRandom (emptyStore "g") "g"
      = [⟨none, .loadSenderKey "g"⟩, ⟨none, .storeSenderKey "g" ⟨[toySenderState]⟩⟩] ∧
    (GroupCipher.encryptAccesses toyPrimitives toySenderStore "g" [1]).map (fun a => a.task)
      = [some "g", some "g"] := by
  refine ⟨by rfl, by rfl, by rfl⟩

/-! ## Chain-key derivation and the branches of `deriveSenderKey` -/

/-- C24 (chain-key derivation): `getNext` returns the chain key
`(i + 1, HMAC(key = s, data = [0x02]))` and `getSenderMessageKey` the message key of iteration
`i` with seed `HMAC(key = s, data = [0x01])`; the two constants differ, and both results are
functions of `(i, s)` alone (the methods are values computed from the chain key, which they do
not change). -/
theorem chain_key_derivation (P : Primitives) (c : SenderChainKey) :
    c.getNext P = ⟨c.iteration + 1, P.calculateMAC c.chainKey [0x02]⟩ ∧
    c.getSenderMessageKey P = ⟨c.iteration, P.calculateMAC c.chainKey [0x01]⟩ ∧
    SenderChainKey.MESSAGE_KEY_SEED = [0x01] ∧ SenderChainKey.CHAIN_KEY_SEED = [0x02] ∧
    SenderChainKey.MESSAGE_KEY_SEED ≠ SenderChainKey.CHAIN_KEY_SEED ∧
    (∀ c' : SenderChainKey, c'.iteration = c.iteration → c'.chainKey = c.chainKey →
      c'.getNext P = c.getNext P ∧ c'.getSenderMessageKey P = c.getSenderMessageKey P) := by
  refine ⟨rfl, rfl, rfl, rfl, by decide, ?_⟩
  intro c' h1 h2
  cases c
  cases c'
  simp only [] at h1 h2
  subst h1
  subst h2
  exact ⟨rfl, rfl⟩

/-- C30 (`deriveSenderKey` is atomic on error): when `deriveSenderKey` throws, the state object
is exactly what it was before the call, and the error is the outdated-counter error of a target
below the current iteration with no cached key, or the limit error of a target more than 2000
ahead. -/
theorem deriveSenderKey_atomic (P : Primitives) (s : SenderKeyState) (t : Nat) (e : GroupError)
    (h : (GroupCipher.deriveSenderKey P s t).1 = .error e) :
    (GroupCipher.deriveSenderKey P s t).2 = s ∧
    ((e = .outdatedCounter s.senderChainKey.iteration t ∧ t < s.senderChainKey.iteration ∧
        ∀ k ∈ s.senderMessageKeys, k.iteration ≠ t) ∨
      (e = .iterationExceedsLimit ∧ s.senderChainKey.iteration ≤ t ∧
        2000 < t - s.senderChainKey.iteration)) := by
  by_cases h1 : t < s.senderChainKey.iteration
  · rcases deriveSenderKey_old P s t h1 with ⟨k, _, _, hk⟩ | ⟨hno, hk⟩
    · rw [hk] at h
      simp at h
    · rw [hk] at h ⊢
      simp only [Except.error.injEq] at h
      exact ⟨rfl, Or.inl ⟨h.symm, h1, hno⟩⟩
  · by_cases h2 : 2000 < t - s.senderChainKey.iteration
    · have hk := deriveSenderKey_gap P s t (by omega) h2
      rw [hk] at h ⊢
      simp only [Except.error.injEq] at h
      exact ⟨rfl, Or.inr ⟨h.symm, by omega, h2⟩⟩
    · rw [deriveSenderKey_forward P s t (by omega) (by omega)] at h
      simp at h

theorem deriveSenderKey_atomic_witness :
    (GroupCipher.deriveSenderKey toyPrimitives toyState 2001).1
      = .error .iterationExceedsLimit ∧
    (GroupCipher.deriveSenderKey toyPrimitives toyState 2001).2 = toyState ∧
    ((GroupError.iterationExceedsLimit = .outdatedCounter toyState.senderChainKey.iteration 2001 ∧
        2001 < toyState.senderChainKey.iteration ∧
        ∀ k ∈ toyState.senderMessageKeys, k.iteration ≠ 2001) ∨
      (GroupError.iterationExceedsLimit = .iterationExceedsLimit ∧
        toyState.senderChainKey.iteration ≤ 2001 ∧
        2000 < 2001 - toyState.senderChainKey.iteration)) :=
  ⟨by rfl, deriveSenderKey_atomic toyPrimitives toyState 2001 .iterationExceedsLimit (by rfl)⟩

/-- C26 (cache-hit branch): for a target `t` below the current iteration, `deriveSenderKey`
returns a cached key of iteration `t` and removes the entry of `t` when the cache holds one,
and fails with the outdated-counter error, leaving the state as it was, when it holds none; in
both cases the chain key, key id and signing keys are unchanged and the cache entries of every
other iteration are the same, in the same order. -/
theorem cache_hit_branch (P : Primitives) (s : SenderKeyState) (t : Nat)
    (h : t < s.senderChainKey.iteration) :
    ((∃ k ∈ s.senderMessageKeys, k.iteration = t) →
      ∃ k ∈ s.senderMessageKeys, k.iteration = t ∧
        s.senderMessageKeys.find? (fun k => k.iteration == t) = some k ∧
        (GroupCipher.deriveSenderKey P s t).1 = .ok k ∧
        ∀ k' ∈ (GroupCipher.deriveSenderKey P s t).2.senderMessageKeys, k'.iteration ≠ t) ∧
    ((∀ k ∈ s.senderMessageKeys, k.iteration ≠ t) →
      (GroupCipher.deriveSenderKey P s t).1
        = .error (.outdatedCounter s.senderChainKey.iteration t) ∧
      (GroupCipher.deriveSenderKey P s t).2 = s) ∧
    (GroupCipher.deriveSenderKey P s t).2.senderChainKey = s.senderChainKey ∧
    (GroupCipher.deriveSenderKey P s t).2.senderMessageKeys
      = s.senderMessageKeys.filter (fun k => k.iteration != t) ∧
    (∀ k, k.iteration ≠ t →
      (k ∈ (GroupCipher.deriveSenderKey P s t).2.senderMessageKeys ↔ k ∈ s.senderMessageKeys)) := by
  have hfilter : (∀ k ∈ s.senderMessageKeys, k.iteration ≠ t) →
      s.senderMessageKeys.filter (fun k => k.iteration != t) = s.senderMessageKeys := by
    intro hno
    apply List.filter_eq_self.2
    intro k hk
    simpa using hno k hk
  rcases deriveSenderKey_old P s t h with ⟨k, hk, hkt, hd⟩ | ⟨hno, hd⟩
  · have hfind : ∃ k', s.senderMessageKeys.find? (fun k => k.iteration == t) = some k' ∧
        (GroupCipher.deriveSenderKey P s t).1 = .ok k' := by
      cases hf : s.senderMessageKeys.find? (fun k => k.iteration == t) with
      | none =>
        have := List.find?_eq_none.1 hf k hk
        simp [hkt] at this
      | some k' => exact ⟨k', rfl, by rw [deriveSenderKey_hit P s t h k' hf]⟩
    obtain ⟨k', hf, hres⟩ := hfind
    have hk'p : (fun k : SenderMessageKey => k.iteration == t) k' = true :=
      List.find?_some (p := fun k : SenderMessageKey => k.iteration == t) hf
    rw [hd]
    rw [hd] at hres
    refine ⟨fun _ => ⟨k', List.mem_of_find?_eq_some hf, by simpa using hk'p, hf, hres, ?_⟩,
      fun hno => absurd hkt (hno k hk), rfl, rfl, ?_⟩
    · intro k'' hk''
      simpa using (List.mem_filter.1 hk'').2
    · intro k'' hne
      simp only [List.mem_filter, bne_iff_ne, ne_eq]
      exact ⟨fun hm => hm.1, fun hm => ⟨hm, hne⟩⟩
  · rw [hd]
    refine ⟨fun ⟨k, hk, hkt⟩ => absurd hkt (hno k hk), fun _ => ⟨rfl, rfl⟩, rfl,
      (hfilter hno).symm, fun _ _ => Iff.rfl⟩

theorem cache_hit_branch_witness :
    0 < (GroupCipher.deriveSenderKey toyPrimitives toyState 2).2.senderChainKey.iteration ∧
    (GroupCipher.deriveSenderKey toyPrimitives
      (GroupCipher.deriveSenderKey toyPrimitives toyState 2).2 0).1 = .ok ⟨0, [9, 1]⟩ ∧
    (GroupCipher.deriveSenderKey toyPrimitives
      (GroupCipher.deriveSenderKey toyPrimitives toyState 2).2 0).2.senderChainKey
      = (GroupCipher.deriveSenderKey toyPrimitives toyState 2).2.senderChainKey ∧
    (GroupCipher.deriveSenderKey toyPrimitives
      (GroupCipher.deriveSenderKey toyPrimitives toyState 2).2 0).2.senderMessageKeys
      = (GroupCipher.deriveSenderKey toyPrimitives toyState 2).2.senderMessageKeys.filter
          (fun k => k.iteration != 0) :=
  ⟨by decide, by rfl,
    (cache_hit_branch toyPrimitives (GroupCipher.deriveSenderKey toyPrimitives toyState 2).2 0
      (by decide)).2.2.1,
    (cache_hit_branch toyPrimitives (GroupCipher.deriveSenderKey toyPrimitives toyState 2).2 0
      (by decide)).2.2.2.1⟩

theorem skippedKeys_iterations (P : Primitives) (n : Nat) (c : SenderChainKey) :
    (skippedKeys P c n).map (fun k => k.iteration) = List.range' c.iteration n := by
  induction n generalizing c with
  | zero => rfl
  | succ n ih =>
    simp only [skippedKeys, List.map_cons, ih, List.range'_succ]
    rfl

/-- C29 (skipped-key cache invariant): in every state reached from a fresh state by calls of
`deriveSenderKey`, every cached message key has an iteration below the current chain-key
iteration and no two cached keys have the same iteration. -/
theorem cache_invariant (P : Primitives) (s : SenderKeyState) (h : Reachable P s) :
    (∀ k ∈ s.senderMessageKeys, k.iteration < s.senderChainKey.iteration) ∧
    (s.senderMessageKeys.map (fun k => k.iteration)).Nodup := by
  refine ⟨reachable_cache_lt P s h, ?_⟩
  induction h with
  | fresh s h => rw [h]; exact List.nodup_nil
  | step s t hr ih =>
    have hlt := reachable_cache_lt P s hr
    by_cases h1 : t < s.senderChainKey.iteration
    · rcases deriveSenderKey_old P s t h1 with ⟨k', _, _, h⟩ | ⟨_, h⟩
      · rw [h]
        exact ih.sublist ((List.filter_sublist _).map _)
      · rw [h]; exact ih
    · by_cases h2 : 2000 < t - s.senderChainKey.iteration
      · rw [deriveSenderKey_gap P s t (by omega) h2]; exact ih
      · rw [deriveSenderKey_forward P s t (by omega) (by omega)]
        simp only [SenderKeyState.setSenderChainKey]
        have hsuf := addAll_suffix P
          (skippedKeys P s.senderChainKey (t - s.senderChainKey.iteration)) s
        refine List.Nodup.sublist ((hsuf.sublist).map _) ?_
        rw [List.map_append, skippedKeys_iterations]
        refine List.Nodup.append ih (List.nodup_range' _ _) ?_
        intro a ha hb
        obtain ⟨k, hk, hka⟩ := List.mem_map.1 ha
        have := hlt k hk
        have hb' := List.mem_range'_1.1 hb
        omega

theorem cache_invariant_witness :
    Reachable toyPrimitives (deriveAll toyPrimitives toyState [2]).2 ∧
    (deriveAll toyPrimitives toyState [2]).2.senderMessageKeys
      = [⟨0, [9, 1]⟩, ⟨1, [9, 2, 1]⟩] ∧
    (deriveAll toyPrimitives toyState [2]).2.senderChainKey.iteration = 3 ∧
    (∀ k ∈ (deriveAll toyPrimitives toyState [2]).2.senderMessageKeys,
      k.iteration < (deriveAll toyPrimitives toyState [2]).2.senderChainKey.iteration) ∧
    ((deriveAll toyPrimitives toyState [2]).2.senderMessageKeys.map
      (fun k => k.iteration)).Nodup :=
  ⟨Reachable.step _ 2 (Reachable.fresh _ rfl), by rfl, by rfl,
    cache_invariant toyPrimitives _ (Reachable.step _ 2 (Reachable.fresh _ rfl))⟩

/-- C25 (forward derivation): for a target `t` with `c ≤ t ≤ c + 2000` on a state with chain
key `(c, s)`, `deriveSenderKey` returns the message key of iteration `t` with seed
`HMAC(stepChain^(t - c)(s), 0x01)` and sets the chain key to `(t + 1, stepChain^(t - c + 1)(s))`;
the keys it hands to `addSenderMessageKey`, in order, are one key for each iteration `j` with
`c ≤ j < t`, with seed `HMAC(stepChain^(j - c)(s), 0x01)`, and none for `t`: `t - c` keys, at
most 2000.  The cache afterwards is the old cache followed by these keys when they fit in the
cache bound, and a suffix of that list when the oldest entries are evicted. -/
theorem forward_derivation (P : Primitives) (s : SenderKeyState) (t : Nat)
    (h1 : s.senderChainKey.iteration ≤ t) (h2 : t ≤ s.senderChainKey.iteration + 2000) :
    (GroupCipher.deriveSenderKey P s t).1
      = .ok ⟨t, P.calculateMAC (stepChain P (t - s.senderChainKey.iteration)
          s.senderChainKey.chainKey) [0x01]⟩ ∧
    (GroupCipher.deriveSenderKey P s t).2.senderChainKey
      = ⟨t + 1, stepChain P (t - s.senderChainKey.iteration + 1) s.senderChainKey.chainKey⟩ ∧
    (GroupCipher.deriveSenderKey P s t).2.senderMessageKeys
      = ((skippedKeys P s.senderChainKey (t - s.senderChainKey.iteration)).foldl
          (fun a k => a.addSenderMessageKey P k) s).senderMessageKeys ∧
    (skippedKeys P s.senderChainKey (t - s.senderChainKey.iteration)).length
      = t - s.senderChainKey.iteration ∧
    t - s.senderChainKey.iteration ≤ 2000 ∧
    (skippedKeys P s.senderChainKey (t - s.senderChainKey.iteration)).map
        (fun k => k.iteration)
      = List.range' s.senderChainKey.iteration (t - s.senderChainKey.iteration) ∧
    (∀ k, k ∈ skippedKeys P s.senderChainKey (t - s.senderChainKey.iteration) ↔
      ∃ j, j < t - s.senderChainKey.iteration ∧
        k = ⟨s.senderChainKey.iteration + j,
          P.calculateMAC (stepChain P j s.senderChainKey.chainKey) [0x01]⟩) ∧
    (∀ k ∈ skippedKeys P s.senderChainKey (t - s.senderChainKey.iteration),
      k.iteration ≠ t) ∧
    (s.senderMessageKeys.length + (t - s.senderChainKey.iteration) ≤ P.maxMessageKeys →
      (GroupCipher.deriveSenderKey P s t).2.senderMessageKeys
        = s.senderMessageKeys
            ++ skippedKeys P s.senderChainKey (t - s.senderChainKey.iteration)) ∧
    (GroupCipher.deriveSenderKey P s t).2.senderMessageKeys
      <:+ s.senderMessageKeys
            ++ skippedKeys P s.senderChainKey (t - s.senderChainKey.iteration) := by
  have h := deriveSenderKey_forward P s t h1 (by omega)
  refine ⟨by rw [h]; rfl, by rw [h]; rfl, by rw [h]; rfl, length_skippedKeys P _ _, by omega,
    skippedKeys_iterations P _ _, fun k => mem_skippedKeys P _ _ k, ?_, ?_, ?_⟩
  · intro k hk
    obtain ⟨j, hj, hkj⟩ := (mem_skippedKeys P _ _ k).1 hk
    rw [hkj]
    simp only []
    omega
  · intro hfit
    rw [h]
    exact addAll_noEvict P _ s (by rw [length_skippedKeys]; exact hfit)
  · rw [h]
    exact addAll_suffix P _ s

theorem forward_derivation_witness :
    toyState.senderChainKey.iteration ≤ 2 ∧ 2 ≤ toyState.senderChainKey.iteration + 2000 ∧
    (GroupCipher.deriveSenderKey toyPrimitives toyState 2).1 = .ok ⟨2, [9, 2, 2, 1]⟩ ∧
    (GroupCipher.deriveSenderKey toyPrimitives toyState 2).2.senderChainKey
      = ⟨3, [9, 2, 2, 2]⟩ ∧
    (GroupCipher.deriveSenderKey toyPrimitives toyState 2).2.senderMessageKeys
      = [⟨0, [9, 1]⟩, ⟨1, [9, 2, 1]⟩] ∧
    (GroupCipher.deriveSenderKey toyPrimitives toyState 2).2.senderMessageKeys
      <:+ toyState.senderMessageKeys
            ++ skippedKeys toyPrimitives toyState.senderChainKey
                (2 - toyState.senderChainKey.iteration) :=
  ⟨by decide, by decide, by rfl, by rfl, by rfl,
    (forward_derivation toyPrimitives toyState 2 (by decide) (by decide)).2.2.2.2.2.2.2.2.2⟩

theorem mem_addSenderMessageKey (P : Primitives) (s : SenderKeyState) (k : SenderMessageKey)
    (h : 0 < P.maxMessageKeys) : k ∈ (s.addSenderMessageKey P k).senderMessageKeys := by
  simp only [SenderKeyState.addSenderMessageKey]
  split
  · cases hc : s.senderMessageKeys with
    | nil =>
      rename_i hlen
      rw [hc] at hlen
      simp at hlen
      omega
    | cons a l => simp
  · simp

theorem encrypt_record_selected (P : Primitives) (store : SenderKeyStore) (id : SenderKeyName)
    (x : Bytes) (record : SenderKeyRecord) (idx : Nat) (s : SenderKeyState)
    (hl : store.loadSenderKey id = some record)
    (hs : record.getSenderKeyState none = some (idx, s)) :
    (GroupCipher.encrypt P store id x).record
      = some (record.putState idx (GroupCipher.deriveSenderKey P s
          (if s.senderChainKey.iteration = 0 then 0
            else s.senderChainKey.iteration + 1)).2) := by
  simp only [GroupCipher.encrypt, GroupCipher.encryptEnvelope, hl, hs,
    SenderKeyState.getSenderChainKey, SenderChainKey.getIteration]
  generalize GroupCipher.deriveSenderKey P s
    (if s.senderChainKey.iteration = 0 then 0 else s.senderChainKey.iteration + 1) = d
  obtain ⟨(e | k), s'⟩ := d
  · rfl
  · simp only []
    cases GroupCipher.generateCipherText P (k.getIv P) (k.getCipherKey P) x with
    | error e => rfl
    | ok c =>
      simp only []
      cases SenderKeyMessage.create P s'.getKeyId k.getIteration c s'.getSigningKeyPrivate with
      | error e => rfl
      | ok m => rfl

/-- C28 (what `encrypt` asks the ratchet for): `encrypt` calls `deriveSenderKey` on the selected
state with target `0` when its iteration `it` is `0` and `it + 1` when `it > 0`.  For `it = 0`
the state moves to iteration `1` with its cache untouched; for `it > 0` the message key of
iteration `it` is handed to `addSenderMessageKey` (and is in the cache afterwards when the
cache bound is positive) and the state moves to iteration `it + 2`.  A successful call returns
the envelope of the target iteration and stores the record with that state. -/
theorem encrypt_target (P : Primitives) (store : SenderKeyStore) (id : SenderKeyName)
    (x : Bytes) (record : SenderKeyRecord) (idx : Nat) (s : SenderKeyState)
    (hl : store.loadSenderKey id = some record)
    (hs : record.getSenderKeyState none = some (idx, s)) :
    (GroupCipher.encrypt P store id x).record
      = some (record.putState idx (GroupCipher.deriveSenderKey P s
          (if s.senderChainKey.iteration = 0 then 0
            else s.senderChainKey.iteration + 1)).2) ∧
    (s.senderChainKey.iteration = 0 →
      (GroupCipher.deriveSenderKey P s 0).2.senderChainKey.iteration = 1 ∧
      (GroupCipher.deriveSenderKey P s 0).2.senderMessageKeys = s.senderMessageKeys) ∧
    (0 < s.senderChainKey.iteration →
      (GroupCipher.deriveSenderKey P s
        (s.senderChainKey.iteration + 1)).2.senderChainKey.iteration
        = s.senderChainKey.iteration + 2 ∧
      (GroupCipher.deriveSenderKey P s (s.senderChainKey.iteration + 1)).2.senderMessageKeys
        = (s.addSenderMessageKey P ⟨s.senderChainKey.iteration,
            P.calculateMAC s.senderChainKey.chainKey [0x01]⟩).senderMessageKeys ∧
      (0 < P.maxMessageKeys →
        (⟨s.senderChainKey.iteration, P.calculateMAC s.senderChainKey.chainKey [0x01]⟩ :
          SenderMessageKey)
          ∈ (GroupCipher.deriveSenderKey P s
              (s.senderChainKey.iteration + 1)).2.senderMessageKeys)) ∧
    (∀ bytes, (GroupCipher.encrypt P store id x).result = .ok bytes →
      ∃ env : SenderKeyMessage, bytes = P.serializeEnvelope env ∧
        env.iteration = (if s.senderChainKey.iteration = 0 then 0
          else s.senderChainKey.iteration + 1) ∧
        (GroupCipher.encrypt P store id x).store.loadSenderKey id
          = some (record.putState idx (GroupCipher.deriveSenderKey P s
              (if s.senderChainKey.iteration = 0 then 0
                else s.senderChainKey.iteration + 1)).2)) := by
  refine ⟨encrypt_record_selected P store id x record idx s hl hs, ?_, ?_, ?_⟩
  · intro h0
    have h := deriveSenderKey_forward P s 0 (by omega) (by omega)
    rw [h, h0]
    exact ⟨rfl, rfl⟩
  · intro h0
    have h := deriveSenderKey_forward P s (s.senderChainKey.iteration + 1) (by omega)
      (by omega)
    have h1 : s.senderChainKey.iteration + 1 - s.senderChainKey.iteration = 1 := by omega
    rw [h1] at h
    have hc : (GroupCipher.deriveSenderKey P s
        (s.senderChainKey.iteration + 1)).2.senderMessageKeys
        = (s.addSenderMessageKey P ⟨s.senderChainKey.iteration,
            P.calculateMAC s.senderChainKey.chainKey [0x01]⟩).senderMessageKeys := by
      rw [h]
      rfl
    refine ⟨by rw [h]; rfl, hc, fun hmax => ?_⟩
    rw [hc]
    exact mem_addSenderMessageKey P s _ hmax
  · intro bytes hok
    cases hr : (GroupCipher.encryptEnvelope P store id x).result with
    | error e => simp [GroupCipher.encrypt, hr, Except.map] at hok
    | ok env =>
      have hb : bytes = P.serializeEnvelope env := by
        simp only [GroupCipher.encrypt, hr, Except.map, SenderKeyMessage.serialize,
          Except.ok.injEq] at hok
        exact hok.symm
      obtain ⟨k, priv, hd, _, _, henv, he⟩ :=
        encryptEnvelope_ok P store id x record idx s env hl hs hr
      have hle : s.senderChainKey.iteration ≤
          (if s.senderChainKey.iteration = 0 then 0 else s.senderChainKey.iteration + 1) := by
        split <;> omega
      obtain ⟨_, hk, _⟩ := deriveSenderKey_ok_forward P s _ k hd hle
      refine ⟨env, hb, by rw [henv, hk], ?_⟩
      simp only [GroupCipher.encrypt, he]
      exact storeSenderKey_load _ _ _

theorem encrypt_target_witness :
    ((GroupCipher.encrypt toyPrimitives toySenderStore "g" [1]).store).loadSenderKey "g"
      = some ⟨[(GroupCipher.deriveSenderKey toyPrimitives toySenderState 0).2]⟩ ∧
    (⟨[(GroupCipher.deriveSenderKey toyPrimitives toySenderState 0).2]⟩ :
      SenderKeyRecord).getSenderKeyState none
      = some (0, (GroupCipher.deriveSenderKey toyPrimitives toySenderState 0).2) ∧
    (GroupCipher.deriveSenderKey toyPrimitives toySenderState 0).2.senderChainKey.iteration
      = 1 ∧
    (GroupCipher.encryptEnvelope toyPrimitives
      (GroupCipher.encrypt toyPrimitives toySenderStore "g" [1]).store "g" [2]).result
      = .ok toyMessage2 ∧
    (0 < (GroupCipher.deriveSenderKey toyPrimitives toySenderState
        0).2.senderChainKey.iteration →
      (GroupCipher.deriveSenderKey toyPrimitives
        (GroupCipher.deriveSenderKey toyPrimitives toySenderState 0).2
        ((GroupCipher.deriveSenderKey toyPrimitives toySenderState
          0).2.senderChainKey.iteration + 1)).2.senderChainKey.iteration
        = (GroupCipher.deriveSenderKey toyPrimitives toySenderState
            0).2.senderChainKey.iteration + 2 ∧
      (GroupCipher.deriveSenderKey toyPrimitives
        (GroupCipher.deriveSenderKey toyPrimitives toySenderState 0).2
        ((GroupCipher.deriveSenderKey toyPrimitives toySenderState
          0).2.senderChainKey.iteration + 1)).2.senderMessageKeys
        = ((GroupCipher.deriveSenderKey toyPrimitives toySenderState 0).2.addSenderMessageKey
            toyPrimitives
            ⟨(GroupCipher.deriveSenderKey toyPrimitives toySenderState
                0).2.senderChainKey.iteration,
              toyPrimitives.calculateMAC
                (GroupCipher.deriveSenderKey toyPrimitives toySenderState
                  0).2.senderChainKey.chainKey [0x01]⟩).senderMessageKeys ∧
      (0 < toyPrimitives.maxMessageKeys →
        (⟨(GroupCipher.deriveSenderKey toyPrimitives toySenderState
              0).2.senderChainKey.iteration,
            toyPrimitives.calculateMAC
              (GroupCipher.deriveSenderKey toyPrimitives toySenderState
                0).2.senderChainKey.chainKey [0x01]⟩ : SenderMessageKey)
          ∈ (GroupCipher.deriveSenderKey toyPrimitives
              (GroupCipher.deriveSenderKey toyPrimitives toySenderState 0).2
              ((GroupCipher.deriveSenderKey toyPrimitives toySenderState
                0).2.senderChainKey.iteration + 1)).2.senderMessageKeys)) :=
  ⟨by rfl, by rfl, by rfl, by rfl,
    (encrypt_target toyPrimitives (GroupCipher.encrypt toyPrimitives toySenderStore "g" [1]).store
      "g" [2] ⟨[(GroupCipher.deriveSenderKey toyPrimitives toySenderState 0).2]⟩ 0
      (GroupCipher.deriveSenderKey toyPrimitives toySenderState 0).2 (by rfl) (by rfl)).2.2.1⟩

/-! ## The drain loop of `queue_job.js` -/

theorem forLoop_batch (n : Nat) (q : List QueueTask) (off lim i : Nat) (t : QueueTask)
    (hi : i < lim) (ht : q[i]? = some t) :
    processQueue.forLoop (n + 1) q off lim i = some (q, .awaiting off lim i t) := by
  simp only [processQueue.forLoop, hi, if_true, ht]

theorem forLoop_return (n : Nat) (q : List QueueTask) (off lim i : Nat)
    (hi : lim ≤ i) (hl : q.length ≤ lim) :
    processQueue.forLoop (n + 1) q off lim i = some (q, .returned) := by
  have h1 : ¬ i < lim := by omega
  have h2 : ¬ lim < q.length := by omega
  simp only [processQueue.forLoop, h1, h2, if_false]

theorem forLoop_compact (n : Nat) (q : List QueueTask) (off lim i : Nat) (t : QueueTask)
    (hi : lim ≤ i) (hl : lim < q.length) (hg : GARBAGE_COLLECTION_LIMIT ≤ lim)
    (ht : q[lim]? = some t) :
    processQueue.forLoop (n + 2) q off lim i
      = some (q.drop lim,
          .awaiting 0 (min (q.drop lim).length GARBAGE_COLLECTION_LIMIT) 0 t) := by
  have h1 : ¬ i < lim := by omega
  have h3 : lim ≥ GARBAGE_COLLECTION_LIMIT := hg
  have h4 : 0 < min (q.drop lim).length GARBAGE_COLLECTION_LIMIT := by
    simp only [List.length_drop, GARBAGE_COLLECTION_LIMIT]
    omega
  have h5 : (q.drop lim)[0]? = some t := by
    rw [List.getElem?_drop]
    exact ht
  rw [processQueue.forLoop]
  simp only [h1, hl, h3, if_true, if_false]
  exact forLoop_batch n _ _ _ _ t h4 h5

theorem forLoop_offset (n : Nat) (q : List QueueTask) (off lim i : Nat) (t : QueueTask)
    (hi : lim ≤ i) (hl : lim < q.length) (hg : lim < GARBAGE_COLLECTION_LIMIT)
    (ht : q[lim]? = some t) :
    processQueue.forLoop (n + 2) q off lim i
      = some (q, .awaiting lim (min q.length GARBAGE_COLLECTION_LIMIT) lim t) := by
  have h1 : ¬ i < lim := by omega
  have h3 : ¬ lim ≥ GARBAGE_COLLECTION_LIMIT := by omega
  have h4 : lim < min q.length GARBAGE_COLLECTION_LIMIT := by
    omega
  rw [processQueue.forLoop]
  simp only [h1, hl, h3, if_true, if_false]
  exact forLoop_batch n _ _ _ _ t h4 ht

/-- The rounds given to a turn are enough: more rounds give the same result. -/
theorem forLoop_rounds (n : Nat) (q : List QueueTask) (off lim i : Nat) :
    processQueue.forLoop (n + 2) q off lim i = processQueue.forLoop 2 q off lim i ∧
    (processQueue.forLoop 2 q off lim i).isSome = true := by
  by_cases h1 : i < lim
  · cases ht : q[i]? with
    | none =>
      simp [processQueue.forLoop, h1, ht]
    | some t =>
      rw [forLoop_batch (n + 1) q off lim i t h1 ht, forLoop_batch 1 q off lim i t h1 ht]
      exact ⟨rfl, rfl⟩
  · by_cases h2 : lim < q.length
    · obtain ⟨t, ht⟩ : ∃ t, q[lim]? = some t := ⟨q[lim], List.getElem?_eq_getElem h2⟩
      by_cases h3 : GARBAGE_COLLECTION_LIMIT ≤ lim
      · rw [forLoop_compact n q off lim i t (by omega) h2 h3 ht,
          forLoop_compact 0 q off lim i t (by omega) h2 h3 ht]
        exact ⟨rfl, rfl⟩
      · rw [forLoop_offset n q off lim i t (by omega) h2 (by omega) ht,
          forLoop_offset 0 q off lim i t (by omega) h2 (by omega) ht]
        exact ⟨rfl, rfl⟩
    · rw [forLoop_return (n + 1) q off lim i (by omega) (by omega),
        forLoop_return 1 q off lim i (by omega) (by omega)]
      exact ⟨rfl, rfl⟩

/-- The turn after an `await`, for a call of `processQueue` that stands at entry `i` of its
batch: when the array has a next entry the loop parks at it, having dropped either nothing or
the first `GARBAGE_COLLECTION_LIMIT` entries, all of them at or before `i`; when it has none the
loop returns. -/
theorem afterAwait_spec (q : List QueueTask) (off lim i : Nat)
    (hi : i < lim) (hl : lim ≤ q.length) (hg : lim ≤ GARBAGE_COLLECTION_LIMIT) :
    (∀ t, q[i + 1]? = some t →
      ∃ d off' lim' i',
        processQueue.afterAwait q off lim i = some (q.drop d, .awaiting off' lim' i' t) ∧
        i' + d = i + 1 ∧ i' < lim' ∧ lim' ≤ (q.drop d).length ∧
        lim' ≤ GARBAGE_COLLECTION_LIMIT ∧
        (d = 0 ∨ (d = GARBAGE_COLLECTION_LIMIT ∧ i' = 0))) ∧
    (q[i + 1]? = none → processQueue.afterAwait q off lim i = some (q, .returned)) := by
  constructor
  · intro t ht
    have hlen : i + 1 < q.length := by
      by_contra hc
      rw [List.getElem?_eq_none (by omega)] at ht
      exact Option.noConfusion ht
    by_cases h1 : i + 1 < lim
    · exact ⟨0, off, lim, i + 1, by
        rw [processQueue.afterAwait, processQueue.rounds, forLoop_batch 1 q off lim (i + 1) t h1 ht]
        rfl, by omega, h1, by simpa using hl, hg, Or.inl rfl⟩
    · have he : i + 1 = lim := by omega
      have ht' : q[lim]? = some t := by rw [← he]; exact ht
      by_cases h3 : GARBAGE_COLLECTION_LIMIT ≤ lim
      · refine ⟨lim, 0, min (q.drop lim).length GARBAGE_COLLECTION_LIMIT, 0, ?_, by omega, ?_,
          ?_, ?_, Or.inr ⟨by omega, rfl⟩⟩
        · rw [processQueue.afterAwait, processQueue.rounds,
            forLoop_compact 0 q off lim (i + 1) t (by omega) (by omega) h3 ht']
        · simp only [List.length_drop, GARBAGE_COLLECTION_LIMIT]
          omega
        · exact Nat.min_le_left _ _
        · exact Nat.min_le_right _ _
      · refine ⟨0, lim, min q.length GARBAGE_COLLECTION_LIMIT, lim, ?_, by omega, ?_, ?_, ?_,
          Or.inl rfl⟩
        · rw [processQueue.afterAwait, processQueue.rounds,
            forLoop_offset 0 q off lim (i + 1) t (by omega) (by omega) (by omega) ht']
          rfl
        · omega
        · simp
        · exact Nat.min_le_right _ _
  · intro hn
    have hlen : q.length ≤ i + 1 := by
      by_contra hc
      rw [List.getElem?_eq_getElem (by omega)] at hn
      exact Option.noConfusion hn
    rw [processQueue.afterAwait, processQueue.rounds,
      forLoop_return 1 q off lim (i + 1) (by omega) (by omega)]

/-! ## The turns of the queue -/

theorem executeTask_new (st : QueueState) (key : String) (fn : AsyncFunction)
    (h : st.asyncTaskQueues key = none) :
    executeTask st key fn = some
      ⟨fun k => if k = key then some st.activations.length else st.asyncTaskQueues k,
        st.activations ++ [⟨[⟨if fn.name = "" then ⟨key, fn.result⟩ else fn, st.promises⟩], key,
          .awaiting 0 1 0 ⟨if fn.name = "" then ⟨key, fn.result⟩ else fn, st.promises⟩⟩],
        st.promises + 1,
        st.trace ++ [.submitted key st.promises (if fn.name = "" then ⟨key, fn.result⟩ else fn),
          .started key st.promises]⟩ := by
  have hp : ∀ task : QueueTask,
      processQueue [task] = some ([task], .awaiting 0 1 0 task) := fun _ => rfl
  simp only [executeTask, h, hp, Option.map, processQueue.cleanup, processQueue.startEvents,
    List.append_assoc, List.singleton_append]

theorem executeTask_push (st : QueueState) (key : String) (fn : AsyncFunction) (ref : Nat)
    (h : st.asyncTaskQueues key = some ref) :
    executeTask st key fn = some
      ⟨st.asyncTaskQueues,
        st.activations.modify (fun a => ⟨a.taskQueue ++
          [⟨if fn.name = "" then ⟨key, fn.result⟩ else fn, st.promises⟩], a.bucketKey,
          a.position⟩) ref,
        st.promises + 1,
        st.trace ++
          [.submitted key st.promises (if fn.name = "" then ⟨key, fn.result⟩ else fn)]⟩ := by
  simp only [executeTask, h]

theorem resume_next (st : QueueState) (ref : Nat) (q : List QueueTask) (key : String)
    (o l i : Nat) (t t' : QueueTask)
    (ha : st.activations[ref]? = some ⟨q, key, .awaiting o l i t⟩)
    (hi : i < l) (hl : l ≤ q.length) (hg : l ≤ GARBAGE_COLLECTION_LIMIT)
    (hn : q[i + 1]? = some t') :
    ∃ d o' l' i', processQueue.resume st ref = some
      ⟨st.asyncTaskQueues,
        st.activations.set ref ⟨q.drop d, key, .awaiting o' l' i' t'⟩,
        st.promises,
        st.trace ++ [processQueue.settle key t, .started key t'.promise]⟩ ∧
      i' + d = i + 1 ∧ i' < l' ∧ l' ≤ (q.drop d).length ∧ l' ≤ GARBAGE_COLLECTION_LIMIT ∧
      (d = 0 ∨ (d = GARBAGE_COLLECTION_LIMIT ∧ i' = 0)) := by
  obtain ⟨d, o', l', i', hr, h1, h2, h3, h4, h5⟩ := (afterAwait_spec q o l i hi hl hg).1 t' hn
  refine ⟨d, o', l', i', ?_, h1, h2, h3, h4, h5⟩
  simp only [processQueue.resume, ha, hr, Option.map, processQueue.cleanup,
    processQueue.startEvents, List.append_assoc, List.singleton_append]

theorem resume_last (st : QueueState) (ref : Nat) (q : List QueueTask) (key : String)
    (o l i : Nat) (t : QueueTask)
    (ha : st.activations[ref]? = some ⟨q, key, .awaiting o l i t⟩)
    (hi : i < l) (hl : l ≤ q.length) (hg : l ≤ GARBAGE_COLLECTION_LIMIT)
    (hn : q[i + 1]? = none) :
    processQueue.resume st ref = some
      ⟨fun k => if k = key then none else st.asyncTaskQueues k,
        st.activations.set ref ⟨q, key, .returned⟩,
        st.promises,
        st.trace ++ [processQueue.settle key t]⟩ := by
  have hr := (afterAwait_spec q o l i hi hl hg).2 hn
  simp only [processQueue.resume, ha, hr, Option.map, processQueue.cleanup,
    processQueue.startEvents, List.append_nil]

/-! ## The events of one key -/

theorem submittedOn_append (k : String) (t u : List Event) :
    submittedOn k (t ++ u) = submittedOn k t ++ submittedOn k u := by
  simp [submittedOn]

theorem startedOn_append (k : String) (t u : List Event) :
    startedOn k (t ++ u) = startedOn k t ++ startedOn k u := by
  simp [startedOn]

theorem settledOn_append (k : String) (t u : List Event) :
    settledOn k (t ++ u) = settledOn k t ++ settledOn k u := by
  simp [settledOn]

theorem submittedAll_append (t u : List Event) :
    submittedAll (t ++ u) = submittedAll t ++ submittedAll u := by
  simp [submittedAll]

theorem settledAll_append (t u : List Event) :
    settledAll (t ++ u) = settledAll t ++ settledAll u := by
  simp [settledAll]

theorem submittedOn_submitted (k k' : String) (p : Nat) (f : AsyncFunction) :
    submittedOn k [.submitted k' p f] = if k' = k then [p] else [] := by
  simp only [submittedOn, List.filterMap_cons, List.filterMap_nil]
  split <;> simp_all

theorem submittedOn_started (k k' : String) (p : Nat) :
    submittedOn k [.started k' p] = [] := rfl

theorem submittedOn_settle (k k' : String) (t : QueueTask) :
    submittedOn k [processQueue.settle k' t] = [] := by
  simp only [processQueue.settle]
  split <;> rfl

theorem startedOn_submitted (k k' : String) (p : Nat) (f : AsyncFunction) :
    startedOn k [.submitted k' p f] = [] := rfl

theorem startedOn_started (k k' : String) (p : Nat) :
    startedOn k [.started k' p] = if k' = k then [p] else [] := by
  simp only [startedOn, List.filterMap_cons, List.filterMap_nil]
  split <;> simp_all

theorem startedOn_settle (k k' : String) (t : QueueTask) :
    startedOn k [processQueue.settle k' t] = [] := by
  simp only [processQueue.settle]
  split <;> rfl

theorem settledOn_submitted (k k' : String) (p : Nat) (f : AsyncFunction) :
    settledOn k [.submitted k' p f] = [] := rfl

theorem settledOn_started (k k' : String) (p : Nat) :
    settledOn k [.started k' p] = [] := rfl

theorem settledOn_settle (k k' : String) (t : QueueTask) :
    settledOn k [processQueue.settle k' t] = if k' = k then [t.promise] else [] := by
  simp only [processQueue.settle]
  split <;>
  · simp only [settledOn, List.filterMap_cons, List.filterMap_nil]
    split <;> simp_all

theorem submittedAll_submitted (k : String) (p : Nat) (f : AsyncFunction) :
    submittedAll [.submitted k p f] = [p] := rfl

theorem submittedAll_started (k : String) (p : Nat) :
    submittedAll [.started k p] = [] := rfl

theorem submittedAll_settle (k : String) (t : QueueTask) :
    submittedAll [processQueue.settle k t] = [] := by
  simp only [processQueue.settle]
  split <;> rfl

theorem settledAll_settle (k : String) (t : QueueTask) :
    settledAll [processQueue.settle k t] = [t.promise] := by
  simp only [processQueue.settle]
  split <;> rfl

theorem follows_snoc (tr : List Event) (x : Event)
    (h : ∀ pre e post, tr = pre ++ e :: post → e.follows pre) (hx : x.follows tr) :
    ∀ pre e post, tr ++ [x] = pre ++ e :: post → e.follows pre := by
  intro pre e post heq
  rcases List.eq_nil_or_concat post with hp | ⟨post', y, hp⟩
  · subst hp
    have h2 := List.append_inj' heq rfl
    have h3 : x = e := by simpa using h2.2
    rw [← h2.1, ← h3]
    exact hx
  · subst hp
    have h1 : tr ++ [x] = (pre ++ e :: post') ++ [y] := by
      rw [heq]
      simp
    have h2 := List.append_inj' h1 rfl
    exact h pre e post' h2.1

/-! ## The invariant of the queue -/

theorem queueInv_init : QueueInv QueueState.init := by
  refine ⟨?_, ?_, ?_, ?_, ?_, ?_, ?_, ?_⟩
  · intro key ref h
    simp [QueueState.init] at h
  · intro ref q key o l i t h
    simp [QueueState.init] at h
  · intro ref q key h
    simp [QueueState.init] at h
  · intro key _
    exact ⟨rfl, rfl⟩
  · rfl
  · intro k p v h
    simp [QueueState.init] at h
  · intro k p e h
    simp [QueueState.init] at h
  · intro pre e post h
    simp [QueueState.init] at h

theorem queueInv_new (st : QueueState) (hinv : QueueInv st) (key : String) (f : AsyncFunction)
    (h : st.asyncTaskQueues key = none) :
    QueueInv
      ⟨fun k => if k = key then some st.activations.length else st.asyncTaskQueues k,
        st.activations ++ [⟨[⟨f, st.promises⟩], key, .awaiting 0 1 0 ⟨f, st.promises⟩⟩],
        st.promises + 1,
        st.trace ++ [.submitted key st.promises f, .started key st.promises]⟩ := by
  obtain ⟨hidleS, hidleT⟩ := hinv.idle key h
  refine ⟨?_, ?_, ?_, ?_, ?_, ?_, ?_, ?_⟩
  · intro k ref hk
    simp only [] at hk ⊢
    by_cases hkk : k = key
    · rw [if_pos hkk] at hk
      have hr : ref = st.activations.length := (Option.some.inj hk).symm
      subst hr
      exact ⟨[⟨f, st.promises⟩], 0, 1, 0, ⟨f, st.promises⟩, by rw [hkk]; simp⟩
    · rw [if_neg hkk] at hk
      obtain ⟨q, o, l, i, t, ha⟩ := hinv.entry k ref hk
      have hlt : ref < st.activations.length := by
        by_contra hc
        rw [List.getElem?_eq_none (by omega)] at ha
        exact Option.noConfusion ha
      exact ⟨q, o, l, i, t, by rw [List.getElem?_append_left hlt]; exact ha⟩
  · intro ref q k o l i t ha
    simp only [] at ha ⊢
    by_cases hlt : ref < st.activations.length
    · rw [List.getElem?_append_left hlt] at ha
      obtain ⟨h1, h2, h3, h4, h5, h6, h7, h8⟩ := hinv.active ref q k o l i t ha
      have hkk : k ≠ key := by
        intro hc
        rw [hc, h] at h1
        exact Option.noConfusion h1
      have hkk' : ¬ key = k := fun hc => hkk hc.symm
      refine ⟨by rw [if_neg hkk]; exact h1, h2, h3, h4, h5, ?_, ?_, ?_⟩
      · rw [startedOn_append, settledOn_append, h6]
        simp [startedOn, settledOn, hkk']
      · rw [submittedOn_append, settledOn_append, h7]
        simp [submittedOn, settledOn, hkk']
      · intro task ht
        exact List.mem_append_left _ (h8 task ht)
    · have hr : ref = st.activations.length := by
        by_contra hc
        rw [List.getElem?_eq_none (by simp; omega)] at ha
        exact Option.noConfusion ha
      subst hr
      simp only [List.getElem?_concat_length, Option.some.injEq, Activation.mk.injEq,
        Position.awaiting.injEq] at ha
      obtain ⟨hq, hk, ho, hl, hi, ht⟩ := ha
      subst hq hk ho hl hi ht
      refine ⟨by simp, by omega, by simp, by simp [GARBAGE_COLLECTION_LIMIT], by simp, ?_, ?_,
        ?_⟩
      · rw [startedOn_append, settledOn_append, hidleS, hidleT]
        simp [startedOn, settledOn]
      · rw [submittedOn_append, settledOn_append, hidleT]
        simp [submittedOn, settledOn]
      · intro task ht
        simp only [List.drop_zero, List.mem_singleton] at ht
        subst ht
        simp
  · intro ref q k ha
    simp only [] at ha
    by_cases hlt : ref < st.activations.length
    · rw [List.getElem?_append_left hlt] at ha
      exact hinv.sound ref q k ha
    · have hr : ref = st.activations.length := by
        by_contra hc
        rw [List.getElem?_eq_none (by simp; omega)] at ha
        exact Option.noConfusion ha
      subst hr
      simp at ha
  · intro k hk
    simp only [] at hk ⊢
    by_cases hkk : k = key
    · rw [if_pos hkk] at hk
      exact Option.noConfusion hk
    · rw [if_neg hkk] at hk
      have hkk' : ¬ key = k := fun hc => hkk hc.symm
      obtain ⟨h1, h2⟩ := hinv.idle k hk
      rw [startedOn_append, settledOn_append, submittedOn_append, h1, h2]
      simp [startedOn, settledOn, submittedOn, hkk']
  · simp only []
    rw [submittedAll_append, hinv.tickets, List.range_succ]
    rfl
  · intro k p v hm
    simp only [List.mem_append, List.mem_cons, List.mem_singleton, List.not_mem_nil, or_false,
      reduceCtorEq] at hm
    obtain ⟨f', hf, hv⟩ := hinv.resolved k p v hm
    exact ⟨f', List.mem_append_left _ hf, hv⟩
  · intro k p e hm
    simp only [List.mem_append, List.mem_cons, List.mem_singleton, List.not_mem_nil, or_false,
      reduceCtorEq] at hm
    obtain ⟨f', hf, hv⟩ := hinv.rejected k p e hm
    exact ⟨f', List.mem_append_left _ hf, hv⟩
  · have h1 := follows_snoc st.trace (.submitted key st.promises f) hinv.ordered trivial
    have h2 := follows_snoc _ (.started key st.promises) h1 (by
      simp only [Event.follows]
      rw [startedOn_append, settledOn_append, submittedOn_append, hidleS, hidleT]
      simp [startedOn, settledOn, submittedOn])
    intro pre e post heq
    exact h2 pre e post (by rw [← heq]; simp)

theorem getElem?_modify_self {α : Type} (f : α → α) (l : List α) (n : Nat) (a : α)
    (h : l[n]? = some a) : (l.modify f n)[n]? = some (f a) := by
  rw [List.getElem?_modify, h]
  simp

theorem getElem?_modify_other {α : Type} (f : α → α) (l : List α) (n m : Nat) (h : n ≠ m) :
    (l.modify f n)[m]? = l[m]? := by
  rw [List.getElem?_modify]
  cases l[m]? <;> simp [h]

theorem getElem?_lt {α : Type} (l : List α) (n : Nat) (a : α) (h : l[n]? = some a) :
    n < l.length := by
  by_contra hc
  rw [List.getElem?_eq_none (by omega)] at h
  exact Option.noConfusion h

theorem drop_of_getElem? {α : Type} (l : List α) (n : Nat) (a : α) (h : l[n]? = some a) :
    l.drop n = a :: l.drop (n + 1) := by
  obtain ⟨hlt, ha⟩ := List.getElem?_eq_some.1 h
  rw [List.drop_eq_getElem_cons hlt, ha]

theorem queueInv_push (st : QueueState) (hinv : QueueInv st) (key : String) (f : AsyncFunction)
    (ref0 : Nat) (h : st.asyncTaskQueues key = some ref0) :
    QueueInv
      ⟨st.asyncTaskQueues,
        st.activations.modify
          (fun a => ⟨a.taskQueue ++ [⟨f, st.promises⟩], a.bucketKey, a.position⟩) ref0,
        st.promises + 1,
        st.trace ++ [.submitted key st.promises f]⟩ := by
  obtain ⟨q0, o0, l0, i0, t0, ha0⟩ := hinv.entry key ref0 h
  obtain ⟨-, g2, g3, g4, g5, g6, g7, g8⟩ := hinv.active ref0 q0 key o0 l0 i0 t0 ha0
  have hself := getElem?_modify_self
    (fun a : Activation => ⟨a.taskQueue ++ [⟨f, st.promises⟩], a.bucketKey, a.position⟩)
    st.activations ref0 _ ha0
  simp only [] at hself
  refine ⟨?_, ?_, ?_, ?_, ?_, ?_, ?_, ?_⟩
  · intro k ref hk
    simp only [] at hk ⊢
    obtain ⟨q, o, l, i, t, ha⟩ := hinv.entry k ref hk
    by_cases hr : ref0 = ref
    · subst hr
      rw [ha0] at ha
      simp only [Option.some.injEq, Activation.mk.injEq] at ha
      rw [hself, ← ha.2.1]
      exact ⟨_, _, _, _, _, rfl⟩
    · rw [getElem?_modify_other _ _ _ _ hr]
      exact ⟨q, o, l, i, t, ha⟩
  · intro ref q k o l i t ha
    simp only [] at ha ⊢
    by_cases hr : ref0 = ref
    · subst hr
      rw [hself] at ha
      simp only [Option.some.injEq, Activation.mk.injEq, Position.awaiting.injEq] at ha
      obtain ⟨hq, hk, ho, hl, hi, ht⟩ := ha
      subst hq hk ho hl hi ht
      refine ⟨h, g2, by simp; omega, g4, ?_, ?_, ?_, ?_⟩
      · rw [List.getElem?_append_left (by omega)]
        exact g5
      · rw [startedOn_append, settledOn_append, g6]
        simp [startedOn, settledOn]
      · rw [submittedOn_append, settledOn_append, g7,
          List.drop_append_of_le_length (by omega)]
        simp [submittedOn, settledOn]
      · intro task ht
        rw [List.drop_append_of_le_length (by omega)] at ht
        rcases List.mem_append.1 ht with ht | ht
        · exact List.mem_append_left _ (g8 task ht)
        · simp only [List.mem_singleton] at ht
          subst ht
          simp
    · rw [getElem?_modify_other _ _ _ _ hr] at ha
      obtain ⟨h1, h2, h3, h4, h5, h6, h7, h8⟩ := hinv.active ref q k o l i t ha
      have hkk' : ¬ key = k := by
        intro hc
        rw [← hc, h] at h1
        exact hr (Option.some.inj h1)
      refine ⟨h1, h2, h3, h4, h5, ?_, ?_, ?_⟩
      · rw [startedOn_append, settledOn_append, h6]
        simp [startedOn, settledOn]
      · rw [submittedOn_append, settledOn_append, h7]
        simp [submittedOn, settledOn, hkk']
      · intro task ht
        exact List.mem_append_left _ (h8 task ht)
  · intro ref q k ha
    simp only [] at ha
    by_cases hr : ref0 = ref
    · subst hr
      rw [hself] at ha
      simp at ha
    · rw [getElem?_modify_other _ _ _ _ hr] at ha
      exact hinv.sound ref q k ha
  · intro k hk
    simp only [] at hk ⊢
    have hkk' : ¬ key = k := by
      intro hc
      rw [← hc, h] at hk
      exact Option.noConfusion hk
    obtain ⟨h1, h2⟩ := hinv.idle k hk
    rw [startedOn_append, settledOn_append, submittedOn_append, h1, h2]
    simp [startedOn, settledOn, submittedOn, hkk']
  · simp only []
    rw [submittedAll_append, hinv.tickets, List.range_succ]
    rfl
  · intro k p v hm
    simp only [List.mem_append, List.mem_singleton, reduceCtorEq, or_false] at hm
    obtain ⟨f', hf, hv⟩ := hinv.resolved k p v hm
    exact ⟨f', List.mem_append_left _ hf, hv⟩
  · intro k p e hm
    simp only [List.mem_append, List.mem_singleton, reduceCtorEq, or_false] at hm
    obtain ⟨f', hf, hv⟩ := hinv.rejected k p e hm
    exact ⟨f', List.mem_append_left _ hf, hv⟩
  · exact follows_snoc st.trace (.submitted key st.promises f) hinv.ordered trivial

theorem mem_settle (k : String) (t : QueueTask) (tr : List Event)
    (h : Event.submitted k t.promise t.awaitable ∈ tr) :
    (∀ k' p v, Event.resolved k' p v = processQueue.settle k t →
      ∃ f, Event.submitted k' p f ∈ tr ∧ f.result = .value v) ∧
    (∀ k' p e, Event.rejected k' p e = processQueue.settle k t →
      ∃ f, Event.submitted k' p f ∈ tr ∧ f.result = .error e) := by
  constructor
  · intro k' p v he
    simp only [processQueue.settle] at he
    split at he
    · rename_i v' hres
      simp only [Event.resolved.injEq] at he
      obtain ⟨h1, h2, h3⟩ := he
      subst h1 h2 h3
      exact ⟨t.awaitable, h, hres⟩
    · exact Event.noConfusion he
  · intro k' p e he
    simp only [processQueue.settle] at he
    split at he
    · exact Event.noConfusion he
    · rename_i e' hres
      simp only [Event.rejected.injEq] at he
      obtain ⟨h1, h2, h3⟩ := he
      subst h1 h2 h3
      exact ⟨t.awaitable, h, hres⟩

theorem follows_settle (k : String) (t : QueueTask) (tr : List Event)
    (h : startedOn k tr = settledOn k tr ++ [t.promise]) :
    (processQueue.settle k t).follows tr := by
  simp only [processQueue.settle]
  split <;> exact h

theorem queueInv_last (st : QueueState) (hinv : QueueInv st) (ref0 : Nat)
    (q0 : List QueueTask) (key : String) (o0 l0 i0 : Nat) (t0 : QueueTask)
    (ha0 : st.activations[ref0]? = some ⟨q0, key, .awaiting o0 l0 i0 t0⟩)
    (hn : q0[i0 + 1]? = none) :
    QueueInv
      ⟨fun k => if k = key then none else st.asyncTaskQueues k,
        st.activations.set ref0 ⟨q0, key, .returned⟩,
        st.promises,
        st.trace ++ [processQueue.settle key t0]⟩ := by
  obtain ⟨g1, g2, g3, g4, g5, g6, g7, g8⟩ := hinv.active ref0 q0 key o0 l0 i0 t0 ha0
  have hlt := getElem?_lt _ _ _ ha0
  have hdrop : q0.drop i0 = [t0] := by
    rw [drop_of_getElem? _ _ _ g5, List.drop_of_length_le]
    by_contra hc
    rw [List.getElem?_eq_getElem (by omega)] at hn
    exact Option.noConfusion hn
  refine ⟨?_, ?_, ?_, ?_, ?_, ?_, ?_, ?_⟩
  · intro k ref hk
    simp only [] at hk ⊢
    by_cases hkk : k = key
    · rw [if_pos hkk] at hk
      exact Option.noConfusion hk
    · rw [if_neg hkk] at hk
      obtain ⟨q, o, l, i, t, ha⟩ := hinv.entry k ref hk
      have hr : ref0 ≠ ref := by
        intro hc
        subst hc
        rw [ha0] at ha
        simp only [Option.some.injEq, Activation.mk.injEq] at ha
        exact hkk ha.2.1.symm
      exact ⟨q, o, l, i, t, by rw [List.getElem?_set_ne hr]; exact ha⟩
  · intro ref q k o l i t ha
    simp only [] at ha ⊢
    by_cases hr : ref0 = ref
    · subst hr
      rw [List.getElem?_set_self hlt] at ha
      simp at ha
    · rw [List.getElem?_set_ne hr] at ha
      obtain ⟨h1, h2, h3, h4, h5, h6, h7, h8⟩ := hinv.active ref q k o l i t ha
      have hkk : k ≠ key := by
        intro hc
        rw [hc, g1] at h1
        exact hr (Option.some.inj h1)
      have hkk' : ¬ key = k := fun hc => hkk hc.symm
      refine ⟨by rw [if_neg hkk]; exact h1, h2, h3, h4, h5, ?_, ?_, ?_⟩
      · rw [startedOn_append, settledOn_append, h6, startedOn_settle, settledOn_settle,
          if_neg hkk']
        simp
      · rw [submittedOn_append, settledOn_append, h7, submittedOn_settle, settledOn_settle,
          if_neg hkk']
        simp
      · intro task ht
        exact List.mem_append_left _ (h8 task ht)
  · intro ref q k ha
    simp only [] at ha
    by_cases hr : ref0 = ref
    · subst hr
      rw [List.getElem?_set_self hlt] at ha
      simp at ha
    · rw [List.getElem?_set_ne hr] at ha
      exact hinv.sound ref q k ha
  · intro k hk
    simp only [] at hk ⊢
    by_cases hkk : k = key
    · subst hkk
      rw [startedOn_append, settledOn_append, submittedOn_append, startedOn_settle,
        settledOn_settle, submittedOn_settle, if_pos rfl, g6, g7, hdrop]
      simp
    · rw [if_neg hkk] at hk
      have hkk' : ¬ key = k := fun hc => hkk hc.symm
      obtain ⟨h1, h2⟩ := hinv.idle k hk
      rw [startedOn_append, settledOn_append, submittedOn_append, startedOn_settle,
        settledOn_settle, submittedOn_settle, if_neg hkk', h1, h2]
      simp
  · simp only []
    rw [submittedAll_append, hinv.tickets, submittedAll_settle]
    simp
  · intro k p v hm
    simp only [List.mem_append, List.mem_singleton] at hm
    rcases hm with hm | hm
    · obtain ⟨f', hf, hv⟩ := hinv.resolved k p v hm
      exact ⟨f', List.mem_append_left _ hf, hv⟩
    · obtain ⟨f', hf, hv⟩ := (mem_settle key t0 st.trace
        (g8 t0 (by rw [hdrop]; simp))).1 k p v hm
      exact ⟨f', List.mem_append_left _ hf, hv⟩
  · intro k p e hm
    simp only [List.mem_append, List.mem_singleton] at hm
    rcases hm with hm | hm
    · obtain ⟨f', hf, hv⟩ := hinv.rejected k p e hm
      exact ⟨f', List.mem_append_left _ hf, hv⟩
    · obtain ⟨f', hf, hv⟩ := (mem_settle key t0 st.trace
        (g8 t0 (by rw [hdrop]; simp))).2 k p e hm
      exact ⟨f', List.mem_append_left _ hf, hv⟩
  · exact follows_snoc st.trace _ hinv.ordered (follows_settle key t0 st.trace g6)

theorem queueInv_next (st : QueueState) (hinv : QueueInv st) (ref0 : Nat)
    (q0 : List QueueTask) (key : String) (o0 l0 i0 : Nat) (t0 t' : QueueTask)
    (ha0 : st.activations[ref0]? = some ⟨q0, key, .awaiting o0 l0 i0 t0⟩)
    (hn : q0[i0 + 1]? = some t') (d o' l' i' : Nat)
    (hd : i' + d = i0 + 1) (hi' : i' < l') (hl' : l' ≤ (q0.drop d).length)
    (hg' : l' ≤ GARBAGE_COLLECTION_LIMIT) :
    QueueInv
      ⟨st.asyncTaskQueues,
        st.activations.set ref0 ⟨q0.drop d, key, .awaiting o' l' i' t'⟩,
        st.promises,
        st.trace ++ [processQueue.settle key t0, .started key t'.promise]⟩ := by
  obtain ⟨g1, g2, g3, g4, g5, g6, g7, g8⟩ := hinv.active ref0 q0 key o0 l0 i0 t0 ha0
  have hlt := getElem?_lt _ _ _ ha0
  have hdrop : q0.drop i0 = t0 :: q0.drop (i0 + 1) := drop_of_getElem? _ _ _ g5
  have hdrop' : (q0.drop d).drop i' = q0.drop (i0 + 1) := by
    rw [List.drop_drop]
    congr 1
    omega
  have hdrop1 : q0.drop (i0 + 1) = t' :: q0.drop (i0 + 1 + 1) := drop_of_getElem? _ _ _ hn
  have htr : st.trace ++ [processQueue.settle key t0, .started key t'.promise]
      = (st.trace ++ [processQueue.settle key t0]) ++ [.started key t'.promise] := by simp
  refine ⟨?_, ?_, ?_, ?_, ?_, ?_, ?_, ?_⟩
  · intro k ref hk
    simp only [] at hk ⊢
    obtain ⟨q, o, l, i, t, ha⟩ := hinv.entry k ref hk
    by_cases hr : ref0 = ref
    · subst hr
      rw [ha0] at ha
      simp only [Option.some.injEq, Activation.mk.injEq] at ha
      rw [List.getElem?_set_self hlt, ← ha.2.1]
      exact ⟨_, _, _, _, _, rfl⟩
    · exact ⟨q, o, l, i, t, by rw [List.getElem?_set_ne hr]; exact ha⟩
  · intro ref q k o l i t ha
    simp only [] at ha ⊢
    by_cases hr : ref0 = ref
    · subst hr
      rw [List.getElem?_set_self hlt] at ha
      simp only [Option.some.injEq, Activation.mk.injEq, Position.awaiting.injEq] at ha
      obtain ⟨hq, hk, ho, hl, hi, ht⟩ := ha
      subst hq hk ho hl hi ht
      refine ⟨g1, hi', hl', hg', ?_, ?_, ?_, ?_⟩
      · rw [List.getElem?_drop]
        have he : d + i' = i0 + 1 := by omega
        rw [he]
        exact hn
      · rw [htr, startedOn_append, startedOn_append, settledOn_append, settledOn_append,
          startedOn_settle, settledOn_settle, startedOn_started, settledOn_started, g6]
        simp
      · rw [htr, submittedOn_append, submittedOn_append, settledOn_append, settledOn_append,
          submittedOn_settle, settledOn_settle, submittedOn_started, settledOn_started, g7,
          hdrop', hdrop]
        simp
      · intro task ht
        rw [hdrop'] at ht
        exact List.mem_append_left _ (g8 task (by rw [hdrop]; exact List.mem_cons_of_mem _ ht))
    · rw [List.getElem?_set_ne hr] at ha
      obtain ⟨h1, h2, h3, h4, h5, h6, h7, h8⟩ := hinv.active ref q k o l i t ha
      have hkk' : ¬ key = k := by
        intro hc
        rw [← hc, g1] at h1
        exact hr (Option.some.inj h1)
      refine ⟨h1, h2, h3, h4, h5, ?_, ?_, ?_⟩
      · rw [htr, startedOn_append, startedOn_append, settledOn_append, settledOn_append,
          startedOn_settle, settledOn_settle, startedOn_started, settledOn_started, h6,
          if_neg hkk', if_neg hkk']
        simp
      · rw [htr, submittedOn_append, submittedOn_append, settledOn_append, settledOn_append,
          submittedOn_settle, settledOn_settle, submittedOn_started, settledOn_started, h7,
          if_neg hkk']
        simp
      · intro task ht
        exact List.mem_append_left _ (h8 task ht)
  · intro ref q k ha
    simp only [] at ha
    by_cases hr : ref0 = ref
    · subst hr
      rw [List.getElem?_set_self hlt] at ha
      simp at ha
    · rw [List.getElem?_set_ne hr] at ha
      exact hinv.sound ref q k ha
  · intro k hk
    simp only [] at hk ⊢
    have hkk' : ¬ key = k := by
      intro hc
      rw [← hc, g1] at hk
      exact Option.noConfusion hk
    obtain ⟨h1, h2⟩ := hinv.idle k hk
    rw [htr, startedOn_append, startedOn_append, settledOn_append, settledOn_append,
      submittedOn_append, submittedOn_append, startedOn_settle, settledOn_settle,
      submittedOn_settle, startedOn_started, settledOn_started, submittedOn_started,
      if_neg hkk', if_neg hkk', h1, h2]
    simp
  · simp only []
    rw [htr, submittedAll_append, submittedAll_append, hinv.tickets, submittedAll_settle,
      submittedAll_started]
    simp
  · intro k p v hm
    simp only [List.mem_append, List.mem_cons, List.mem_singleton, List.not_mem_nil, or_false,
      reduceCtorEq] at hm
    rcases hm with hm | hm
    · obtain ⟨f', hf, hv⟩ := hinv.resolved k p v hm
      exact ⟨f', List.mem_append_left _ hf, hv⟩
    · obtain ⟨f', hf, hv⟩ := (mem_settle key t0 st.trace
        (g8 t0 (by rw [hdrop]; simp))).1 k p v hm
      exact ⟨f', List.mem_append_left _ hf, hv⟩
  · intro k p e hm
    simp only [List.mem_append, List.mem_cons, List.mem_singleton, List.not_mem_nil, or_false,
      reduceCtorEq] at hm
    rcases hm with hm | hm
    · obtain ⟨f', hf, hv⟩ := hinv.rejected k p e hm
      exact ⟨f', List.mem_append_left _ hf, hv⟩
    · obtain ⟨f', hf, hv⟩ := (mem_settle key t0 st.trace
        (g8 t0 (by rw [hdrop]; simp))).2 k p e hm
      exact ⟨f', List.mem_append_left _ hf, hv⟩
  · have h1 := follows_snoc st.trace _ hinv.ordered (follows_settle key t0 st.trace g6)
    have h2 := follows_snoc _ (.started key t'.promise) h1 (by
      simp only [Event.follows]
      rw [startedOn_append, settledOn_append, submittedOn_append, startedOn_settle,
        settledOn_settle, submittedOn_settle, g6, g7, hdrop, hdrop1, if_pos rfl]
      simp only [List.append_nil, List.map_cons]
      refine ⟨trivial, ?_⟩
      rw [List.getElem?_append_right (by simp)]
      simp)
    intro pre e post heq
    exact h2 pre e post (by rw [← heq]; simp)

/-- A turn `settled` exists only for a call of `processQueue` parked at an `await`. -/
theorem resume_some (st st' : QueueState) (ref : Nat)
    (h : processQueue.resume st ref = some st') :
    ∃ q key o l i t, st.activations[ref]? = some ⟨q, key, .awaiting o l i t⟩ := by
  simp only [processQueue.resume] at h
  cases ha : st.activations[ref]? with
  | none => rw [ha] at h; exact Option.noConfusion h
  | some a =>
    obtain ⟨q, key, pos⟩ := a
    cases pos with
    | awaiting o l i t => exact ⟨q, key, o, l, i, t, rfl⟩
    | returned => rw [ha] at h; exact Option.noConfusion h
    | threw => rw [ha] at h; exact Option.noConfusion h

theorem queueInv_step (st st' : QueueState) (turn : Turn) (hinv : QueueInv st)
    (h : st.step turn = some st') : QueueInv st' := by
  cases turn with
  | executeTask key fn =>
    simp only [QueueState.step] at h
    cases hk : st.asyncTaskQueues key with
    | none =>
      rw [executeTask_new st key fn hk] at h
      rw [← Option.some.inj h]
      exact queueInv_new st hinv key _ hk
    | some ref =>
      rw [executeTask_push st key fn ref hk] at h
      rw [← Option.some.inj h]
      exact queueInv_push st hinv key _ ref hk
  | settled ref =>
    simp only [QueueState.step] at h
    obtain ⟨q, key, o, l, i, t, ha⟩ := resume_some st st' ref h
    obtain ⟨g1, g2, g3, g4, g5, g6, g7, g8⟩ := hinv.active ref q key o l i t ha
    cases hn : q[i + 1]? with
    | none =>
      rw [resume_last st ref q key o l i t ha g2 g3 g4 hn] at h
      rw [← Option.some.inj h]
      exact queueInv_last st hinv ref q key o l i t ha hn
    | some t' =>
      obtain ⟨d, o', l', i', hr, h1, h2, h3, h4, h5⟩ :=
        resume_next st ref q key o l i t t' ha g2 g3 g4 hn
      rw [hr] at h
      rw [← Option.some.inj h]
      exact queueInv_next st hinv ref q key o l i t t' ha hn d o' l' i' h1 h2 h3 h4

theorem queueInv_run (turns : List Turn) (st st' : QueueState) (hinv : QueueInv st)
    (h : st.run turns = some st') : QueueInv st' := by
  induction turns generalizing st with
  | nil =>
    simp only [QueueState.run, Option.some.injEq] at h
    rw [← h]
    exact hinv
  | cons turn turns ih =>
    simp only [QueueState.run] at h
    cases hs : st.step turn with
    | none => rw [hs] at h; exact Option.noConfusion h
    | some st1 =>
      rw [hs] at h
      exact ih st1 (queueInv_step st st1 turn hinv hs) h

/-! ## Consequences of the invariant -/

theorem queueInv_segments (st : QueueState) (hinv : QueueInv st) (key : String) :
    settledOn key st.trace <+: startedOn key st.trace ∧
    startedOn key st.trace <+: submittedOn key st.trace ∧
    (startedOn key st.trace).length ≤ (settledOn key st.trace).length + 1 := by
  cases hk : st.asyncTaskQueues key with
  | none =>
    obtain ⟨h1, h2⟩ := hinv.idle key hk
    rw [h1, h2]
    exact ⟨⟨[], List.append_nil _⟩, ⟨[], List.append_nil _⟩, by omega⟩
  | some ref =>
    obtain ⟨q, o, l, i, t, ha⟩ := hinv.entry key ref hk
    obtain ⟨-, -, -, -, g5, g6, g7, -⟩ := hinv.active ref q key o l i t ha
    rw [g6, g7, drop_of_getElem? _ _ _ g5]
    refine ⟨⟨_, rfl⟩, ?_, by simp⟩
    exact ⟨(q.drop (i + 1)).map QueueTask.promise, by simp⟩

theorem submittedOn_sublist (key : String) (tr : List Event) :
    (submittedOn key tr).Sublist (submittedAll tr) := by
  induction tr with
  | nil => exact List.Sublist.slnil
  | cons e tr ih =>
    have h1 : submittedOn key (e :: tr) = submittedOn key [e] ++ submittedOn key tr :=
      submittedOn_append key [e] tr
    have h2 : submittedAll (e :: tr) = submittedAll [e] ++ submittedAll tr :=
      submittedAll_append [e] tr
    rw [h1, h2]
    refine List.Sublist.append ?_ ih
    cases e with
    | submitted k p f =>
      rw [submittedOn_submitted, submittedAll_submitted]
      split
      · exact List.Sublist.refl _
      · exact List.nil_sublist _
    | started k p => exact List.Sublist.refl _
    | resolved k p v => exact List.Sublist.refl _
    | rejected k p v => exact List.Sublist.refl _

theorem submittedOn_nodup (st : QueueState) (hinv : QueueInv st) (key : String) :
    (submittedOn key st.trace).Nodup := by
  refine List.Nodup.sublist (submittedOn_sublist key st.trace) ?_
  rw [hinv.tickets]
  exact List.nodup_range _

theorem mem_submittedOn (key : String) (p : Nat) (tr : List Event) :
    p ∈ submittedOn key tr ↔ ∃ f, Event.submitted key p f ∈ tr := by
  simp only [submittedOn, List.mem_filterMap]
  constructor
  · rintro ⟨e, he, hp⟩
    cases e with
    | submitted k q f =>
      simp only [] at hp
      split at hp
      · rename_i hk
        simp only [Option.some.injEq] at hp
        subst hk hp
        exact ⟨f, he⟩
      · exact Option.noConfusion hp
    | started k q => exact Option.noConfusion hp
    | resolved k q v => exact Option.noConfusion hp
    | rejected k q v => exact Option.noConfusion hp
  · rintro ⟨f, hf⟩
    exact ⟨_, hf, by simp⟩

theorem mem_settledAll (p : Nat) (tr : List Event) (h : p ∈ settledAll tr) :
    ∃ k, p ∈ settledOn k tr := by
  simp only [settledAll, List.mem_filterMap] at h
  obtain ⟨e, he, hp⟩ := h
  cases e with
  | submitted k q f => exact Option.noConfusion hp
  | started k q => exact Option.noConfusion hp
  | resolved k q v =>
    simp only [Option.some.injEq] at hp
    subst hp
    exact ⟨k, by simp only [settledOn, List.mem_filterMap]; exact ⟨_, he, by simp⟩⟩
  | rejected k q v =>
    simp only [Option.some.injEq] at hp
    subst hp
    exact ⟨k, by simp only [settledOn, List.mem_filterMap]; exact ⟨_, he, by simp⟩⟩

theorem submittedAll_unique (tr : List Event) (h : (submittedAll tr).Nodup)
    (k k' : String) (p : Nat) (f f' : AsyncFunction)
    (h1 : Event.submitted k p f ∈ tr) (h2 : Event.submitted k' p f' ∈ tr) :
    k = k' ∧ f = f' := by
  induction tr with
  | nil => simp at h1
  | cons e tr ih =>
    have hs : submittedAll (e :: tr) = submittedAll [e] ++ submittedAll tr :=
      submittedAll_append [e] tr
    rw [hs] at h
    have hmem : ∀ k0 f0, Event.submitted k0 p f0 ∈ tr → p ∈ submittedAll tr := by
      intro k0 f0 hm
      simp only [submittedAll, List.mem_filterMap]
      exact ⟨_, hm, rfl⟩
    have htail := (List.nodup_append.1 h).2.1
    have hdis := (List.nodup_append.1 h).2.2
    rcases List.mem_cons.1 h1 with e1 | m1 <;> rcases List.mem_cons.1 h2 with e2 | m2
    · rw [← e1] at e2
      simp only [Event.submitted.injEq] at e2
      exact ⟨e2.1.symm, e2.2.2.symm⟩
    · exfalso
      rw [← e1] at hdis
      exact hdis (by rw [submittedAll_submitted]; simp) (hmem k' f' m2)
    · exfalso
      rw [← e2] at hdis
      exact hdis (by rw [submittedAll_submitted]; simp) (hmem k f m1)
    · exact ih htail m1 m2

/-- The promise of the task in flight has not been settled. -/
theorem inflight_unsettled (st : QueueState) (hinv : QueueInv st) (ref : Nat)
    (q : List QueueTask) (key : String) (o l i : Nat) (t : QueueTask)
    (ha : st.activations[ref]? = some ⟨q, key, .awaiting o l i t⟩) :
    t.promise ∉ settledAll st.trace := by
  intro hm
  obtain ⟨-, -, -, -, g5, -, g7, g8⟩ := hinv.active ref q key o l i t ha
  obtain ⟨k, hk⟩ := mem_settledAll _ _ hm
  have hsub : t.promise ∈ submittedOn k st.trace :=
    ((queueInv_segments st hinv k).2.1.subset) ((queueInv_segments st hinv k).1.subset hk)
  obtain ⟨f, hf⟩ := (mem_submittedOn k _ _).1 hsub
  have hdrop := drop_of_getElem? _ _ _ g5
  have hmine := g8 t (by rw [hdrop]; simp)
  have htick : (submittedAll st.trace).Nodup := by
    rw [hinv.tickets]
    exact List.nodup_range _
  obtain ⟨hkk, -⟩ := submittedAll_unique st.trace htick k key t.promise f t.awaitable hf hmine
  subst hkk
  have hnd := submittedOn_nodup st hinv k
  rw [g7, hdrop] at hnd
  have hdis := (List.nodup_append.1 hnd).2.2
  exact hdis hk (by simp)

/-- The events that a turn adds. -/
theorem step_trace (st st' : QueueState) (turn : Turn) (hinv : QueueInv st)
    (h : st.step turn = some st') :
    (∃ es, st'.trace = st.trace ++ es ∧ settledAll es = []) ∨
    (∃ (ref : Nat) (q : List QueueTask) (key : String) (o l i : Nat) (t : QueueTask)
        (es : List Event),
      st.activations[ref]? = some (Activation.mk q key (.awaiting o l i t)) ∧
      st'.trace = st.trace ++ processQueue.settle key t :: es ∧ settledAll es = []) := by
  cases turn with
  | executeTask key fn =>
    simp only [QueueState.step] at h
    left
    cases hk : st.asyncTaskQueues key with
    | none =>
      rw [executeTask_new st key fn hk] at h
      rw [← Option.some.inj h]
      exact ⟨_, rfl, rfl⟩
    | some ref =>
      rw [executeTask_push st key fn ref hk] at h
      rw [← Option.some.inj h]
      exact ⟨_, rfl, rfl⟩
  | settled ref =>
    simp only [QueueState.step] at h
    right
    obtain ⟨q, key, o, l, i, t, ha⟩ := resume_some st st' ref h
    obtain ⟨g1, g2, g3, g4, g5, g6, g7, g8⟩ := hinv.active ref q key o l i t ha
    cases hn : q[i + 1]? with
    | none =>
      rw [resume_last st ref q key o l i t ha g2 g3 g4 hn] at h
      rw [← Option.some.inj h]
      exact ⟨ref, q, key, o, l, i, t, [], ha, rfl, rfl⟩
    | some t' =>
      obtain ⟨d, o', l', i', hr, -⟩ := resume_next st ref q key o l i t t' ha g2 g3 g4 hn
      rw [hr] at h
      rw [← Option.some.inj h]
      exact ⟨ref, q, key, o, l, i, t, [.started key t'.promise], ha, rfl, rfl⟩

theorem settledAll_nodup_step (st st' : QueueState) (turn : Turn) (hinv : QueueInv st)
    (hn : (settledAll st.trace).Nodup) (h : st.step turn = some st') :
    (settledAll st'.trace).Nodup := by
  rcases step_trace st st' turn hinv h with ⟨es, htr, hes⟩ | ⟨ref, q, key, o, l, i, t, es, ha,
    htr, hes⟩
  · rw [htr, settledAll_append, hes, List.append_nil]
    exact hn
  · have hs : settledAll (processQueue.settle key t :: es) = [t.promise] := by
      have := settledAll_append [processQueue.settle key t] es
      rw [List.singleton_append] at this
      rw [this, settledAll_settle, hes]
      rfl
    rw [htr, settledAll_append, hs]
    refine List.nodup_append.2 ⟨hn, List.nodup_singleton _, ?_⟩
    intro a ha1 ha2
    simp only [List.mem_singleton] at ha2
    subst ha2
    exact inflight_unsettled st hinv ref q key o l i t ha ha1

theorem settledAll_nodup_run (turns : List Turn) (st st' : QueueState) (hinv : QueueInv st)
    (hn : (settledAll st.trace).Nodup) (h : st.run turns = some st') :
    (settledAll st'.trace).Nodup := by
  induction turns generalizing st with
  | nil =>
    simp only [QueueState.run, Option.some.injEq] at h
    rw [← h]
    exact hn
  | cons turn turns ih =>
    simp only [QueueState.run] at h
    cases hs : st.step turn with
    | none => rw [hs] at h; exact Option.noConfusion h
    | some st1 =>
      rw [hs] at h
      exact ih st1 (queueInv_step st st1 turn hinv hs)
        (settledAll_nodup_step st st1 turn hinv hn hs) h

theorem toyTurns_run : QueueState.init.run toyTurns = some toyQueueState := by rfl

/-- From a state in which a call of `processQueue` is parked at entry `i` of its array, the
settlements of the `q.length - i` awaited calls, with no arrival in between, run the array to
its end: the call returns, the entry of the key is deleted, and nothing was pushed. -/
theorem drain (m : Nat) : ∀ (st : QueueState), QueueInv st →
    ∀ (ref : Nat) (q : List QueueTask) (key : String) (o l i : Nat) (t : QueueTask),
    st.activations[ref]? = some (Activation.mk q key (.awaiting o l i t)) →
    q.length - i = m + 1 →
    ∃ st', st.run (List.replicate (m + 1) (.settled ref)) = some st' ∧
      st'.asyncTaskQueues key = none ∧
      submittedOn key st'.trace = submittedOn key st.trace := by
  induction m with
  | zero =>
    intro st hinv ref q key o l i t ha hlen
    obtain ⟨g1, g2, g3, g4, g5, g6, g7, g8⟩ := hinv.active ref q key o l i t ha
    have hn : q[i + 1]? = none := List.getElem?_eq_none (by omega)
    have hr := resume_last st ref q key o l i t ha g2 g3 g4 hn
    refine ⟨⟨fun k => if k = key then none else st.asyncTaskQueues k,
      st.activations.set ref ⟨q, key, .returned⟩, st.promises,
      st.trace ++ [processQueue.settle key t]⟩, ?_, ?_, ?_⟩
    · simp only [List.replicate, QueueState.run, QueueState.step, hr, Option.bind]
    · simp
    · simp only []
      rw [submittedOn_append, submittedOn_settle, List.append_nil]
  | succ m ih =>
    intro st hinv ref q key o l i t ha hlen
    obtain ⟨g1, g2, g3, g4, g5, g6, g7, g8⟩ := hinv.active ref q key o l i t ha
    have hlt : i + 1 < q.length := by omega
    have hn : q[i + 1]? = some q[i + 1] := List.getElem?_eq_getElem hlt
    obtain ⟨d, o', l', i', hr, h1, h2, h3, h4, h5⟩ :=
      resume_next st ref q key o l i t _ ha g2 g3 g4 hn
    have hinv' := queueInv_next st hinv ref q key o l i t _ ha hn d o' l' i' h1 h2 h3 h4
    have hlen' : (q.drop d).length - i' = m + 1 := by
      rw [List.length_drop]
      omega
    obtain ⟨st', hrun, hreg, hsub⟩ := ih _ hinv' ref (q.drop d) key o' l' i' q[i + 1]
      (by simp only []; exact List.getElem?_set_self (getElem?_lt _ _ _ ha)) hlen'
    refine ⟨st', ?_, hreg, ?_⟩
    · rw [List.replicate_succ]
      simp only [QueueState.run, QueueState.step, hr, Option.bind]
      exact hrun
    · rw [hsub]
      simp only []
      have htr : st.trace ++ [processQueue.settle key t, Event.started key q[i + 1].promise]
          = (st.trace ++ [processQueue.settle key t]) ++ [.started key q[i + 1].promise] := by
        simp
      rw [htr, submittedOn_append, submittedOn_append, submittedOn_settle,
        submittedOn_started, List.append_nil, List.append_nil]

/-- The drain of an array, in terms of the events: every entry pushed for the key has been
started and settled. -/
theorem drain_all (st : QueueState) (hinv : QueueInv st) (ref : Nat) (q : List QueueTask)
    (key : String) (o l i : Nat) (t : QueueTask)
    (ha : st.activations[ref]? = some (Activation.mk q key (.awaiting o l i t))) :
    ∃ st', st.run (List.replicate (q.length - i) (.settled ref)) = some st' ∧
      st'.asyncTaskQueues key = none ∧
      startedOn key st'.trace = submittedOn key st.trace ∧
      settledOn key st'.trace = submittedOn key st.trace := by
  obtain ⟨g1, g2, g3, g4, g5, g6, g7, g8⟩ := hinv.active ref q key o l i t ha
  obtain ⟨m, hm⟩ : ∃ m, q.length - i = m + 1 := ⟨q.length - i - 1, by omega⟩
  obtain ⟨st', hrun, hreg, hsub⟩ := drain m st hinv ref q key o l i t ha hm
  have hinv' := queueInv_run _ st st' hinv hrun
  obtain ⟨h1, h2⟩ := hinv'.idle key hreg
  exact ⟨st', by rw [hm]; exact hrun, hreg, by rw [h1, hsub], by rw [h2, hsub]⟩

/-- The turn in which the call awaited by a parked call of `processQueue` settles: it exists,
it touches no other call, and it either parks the call at the next entry of the array or, when
there is none, returns and deletes the entry of the key. -/
theorem settled_turn (st : QueueState) (hinv : QueueInv st) (ref : Nat) (q : List QueueTask)
    (key : String) (o l i : Nat) (t : QueueTask)
    (ha : st.activations[ref]? = some (Activation.mk q key (.awaiting o l i t))) :
    ∃ st', st.step (.settled ref) = some st' ∧ QueueInv st' ∧
      (∀ ref' : Nat, ref' ≠ ref → st'.activations[ref']? = st.activations[ref']?) ∧
      (q[i + 1]? = none →
        st'.asyncTaskQueues key = none ∧
        st'.activations[ref]? = some (Activation.mk q key .returned) ∧
        st'.trace = st.trace ++ [processQueue.settle key t]) ∧
      (∀ t', q[i + 1]? = some t' →
        ∃ d o' l' i', st'.asyncTaskQueues key = some ref ∧
          st'.activations[ref]? = some (Activation.mk (q.drop d) key (.awaiting o' l' i' t')) ∧
          i' + d = i + 1 ∧ (d = 0 ∨ (d = GARBAGE_COLLECTION_LIMIT ∧ i' = 0)) ∧
          st'.trace = st.trace ++ [processQueue.settle key t, .started key t'.promise]) := by
  obtain ⟨g1, g2, g3, g4, g5, g6, g7, g8⟩ := hinv.active ref q key o l i t ha
  have hlt := getElem?_lt _ _ _ ha
  cases hn : q[i + 1]? with
  | none =>
    have hr := resume_last st ref q key o l i t ha g2 g3 g4 hn
    refine ⟨_, hr, queueInv_last st hinv ref q key o l i t ha hn, ?_, ?_, ?_⟩
    · intro ref' hne
      exact List.getElem?_set_ne (fun hc => hne hc.symm)
    · intro _
      exact ⟨by simp, List.getElem?_set_self hlt, rfl⟩
    · intro t' ht'
      exact Option.noConfusion ht'
  | some t1 =>
    obtain ⟨d, o', l', i', hr, h1, h2, h3, h4, h5⟩ :=
      resume_next st ref q key o l i t t1 ha g2 g3 g4 hn
    refine ⟨_, hr, queueInv_next st hinv ref q key o l i t t1 ha hn d o' l' i' h1 h2 h3 h4,
      ?_, ?_, ?_⟩
    · intro ref' hne
      exact List.getElem?_set_ne (fun hc => hne hc.symm)
    · intro hc
      exact Option.noConfusion hc
    · intro t' ht'
      have he : t1 = t' := Option.some.inj ht'
      subst he
      exact ⟨d, o', l', i', g1, List.getElem?_set_self hlt, h1, h5, rfl⟩

/-! ## Claims on the queue -/

/-- C23 (bookkeeping of the registry): in every state that a sequence of turns reaches from the
empty registry, `asyncTaskQueues` maps a key to an array exactly when the call of
`processQueue` on that array is parked at an `await` (is active), and a key has at most one
active call.  The settlement of the last entry of an array makes the call return and deletes
the entry of the key; the settlement of an earlier entry keeps the entry.  A call of
`executeTask` always pushes onto an array whose call is active afterwards: for a key without an
entry it is a new array with a new call of `processQueue`, for a key with an entry it is the
array of the entry and no call is started. -/
theorem registry_bookkeeping (turns : List Turn) (st : QueueState)
    (h : QueueState.init.run turns = some st) :
    (∀ (key : String) (ref : Nat), st.asyncTaskQueues key = some ref ↔
      ∃ q o l i t,
        st.activations[ref]? = some (Activation.mk q key (.awaiting o l i t))) ∧
    (∀ (ref ref' : Nat) (q q' : List QueueTask) (key : String) (o o' l l' i i' : Nat)
      (t t' : QueueTask),
      st.activations[ref]? = some (Activation.mk q key (.awaiting o l i t)) →
      st.activations[ref']? = some (Activation.mk q' key (.awaiting o' l' i' t')) →
      ref = ref') ∧
    (∀ (ref : Nat) (q : List QueueTask) (key : String) (o l i : Nat) (t : QueueTask),
      st.activations[ref]? = some (Activation.mk q key (.awaiting o l i t)) →
      ∃ st', st.step (.settled ref) = some st' ∧
        (i + 1 = q.length →
          st'.asyncTaskQueues key = none ∧
          st'.activations[ref]? = some (Activation.mk q key .returned)) ∧
        (i + 1 < q.length →
          st'.asyncTaskQueues key = some ref ∧
          ∃ q' o' l' i' t',
            st'.activations[ref]? = some (Activation.mk q' key (.awaiting o' l' i' t')))) ∧
    (∀ (key : String) (fn : AsyncFunction),
      ∃ st' ref q o l i t,
        st.step (.executeTask key fn) = some st' ∧
        st'.asyncTaskQueues key = some ref ∧
        st'.activations[ref]? = some (Activation.mk q key (.awaiting o l i t)) ∧
        q.getLast? = some ⟨if fn.name = "" then ⟨key, fn.result⟩ else fn, st.promises⟩ ∧
        (st.asyncTaskQueues key = none →
          ref = st.activations.length ∧
          q = [⟨if fn.name = "" then ⟨key, fn.result⟩ else fn, st.promises⟩] ∧
          st'.activations.length = st.activations.length + 1) ∧
        (∀ ref0, st.asyncTaskQueues key = some ref0 →
          ref = ref0 ∧ st'.activations.length = st.activations.length)) := by
  have hinv := queueInv_run turns _ st queueInv_init h
  refine ⟨?_, ?_, ?_, ?_⟩
  · intro key ref
    constructor
    · exact hinv.entry key ref
    · rintro ⟨q, o, l, i, t, ha⟩
      exact (hinv.active ref q key o l i t ha).1
  · intro ref ref' q q' key o o' l l' i i' t t' ha ha'
    have h1 := (hinv.active ref q key o l i t ha).1
    have h2 := (hinv.active ref' q' key o' l' i' t' ha').1
    rw [h1] at h2
    exact Option.some.inj h2
  · intro ref q key o l i t ha
    obtain ⟨st', hs, -, -, hlast, hnext⟩ := settled_turn st hinv ref q key o l i t ha
    refine ⟨st', hs, ?_, ?_⟩
    · intro hlen
      obtain ⟨h1, h2, -⟩ := hlast (List.getElem?_eq_none (by omega))
      exact ⟨h1, h2⟩
    · intro hlen
      obtain ⟨d, o', l', i', h1, h2, -⟩ := hnext q[i + 1] (List.getElem?_eq_getElem hlen)
      exact ⟨h1, _, _, _, _, _, h2⟩
  · intro key fn
    cases hk : st.asyncTaskQueues key with
    | none =>
      refine ⟨_, st.activations.length,
        [⟨if fn.name = "" then ⟨key, fn.result⟩ else fn, st.promises⟩], 0, 1, 0,
        ⟨if fn.name = "" then ⟨key, fn.result⟩ else fn, st.promises⟩,
        executeTask_new st key fn hk, by simp, by simp, rfl, ?_, ?_⟩
      · intro _
        exact ⟨rfl, rfl, by simp⟩
      · intro ref0 hc
        exact Option.noConfusion hc
    | some ref0 =>
      obtain ⟨q, o, l, i, t, ha⟩ := hinv.entry key ref0 hk
      refine ⟨_, ref0, q ++ [⟨if fn.name = "" then ⟨key, fn.result⟩ else fn, st.promises⟩],
        o, l, i, t, executeTask_push st key fn ref0 hk, hk, ?_, by simp, ?_, ?_⟩
      · exact getElem?_modify_self _ _ _ _ ha
      · intro hc
        exact Option.noConfusion hc
      · intro ref1 hc
        exact ⟨Option.some.inj hc, by simp⟩

theorem registry_bookkeeping_witness :
    QueueState.init.run toyTurns = some toyQueueState ∧
    (toyQueueState.asyncTaskQueues "a" = some 0 ↔
      ∃ q o l i t,
        toyQueueState.activations[0]? = some (Activation.mk q "a" (.awaiting o l i t))) :=
  ⟨by rfl, (registry_bookkeeping toyTurns toyQueueState (by rfl)).1 "a" 0⟩

/-- C21 (order within a key, none across keys): in every state that a sequence of turns reaches
from the empty registry, and for every key: when the awaitable of an entry of the key is
called, every entry of the key started before has been settled and the entry is the next one in
the order of submission; when a promise of the key is resolved or rejected, its entry is the one
in flight; so the started entries are a prefix of the submitted ones, the settled ones a prefix
of the started ones, and at most one is in flight.  Two parked calls of `processQueue` belong to
different keys, and their awaited calls may settle in either order; such a state exists. -/
theorem per_key_total_order (turns : List Turn) (st : QueueState)
    (h : QueueState.init.run turns = some st) (key : String) :
    (∀ pre p post, st.trace = pre ++ Event.started key p :: post →
      startedOn key pre = settledOn key pre ∧
      (submittedOn key pre)[(startedOn key pre).length]? = some p) ∧
    (∀ pre p v post, st.trace = pre ++ Event.resolved key p v :: post →
      startedOn key pre = settledOn key pre ++ [p]) ∧
    (∀ pre p e post, st.trace = pre ++ Event.rejected key p e :: post →
      startedOn key pre = settledOn key pre ++ [p]) ∧
    startedOn key st.trace <+: submittedOn key st.trace ∧
    settledOn key st.trace <+: startedOn key st.trace ∧
    (startedOn key st.trace).length ≤ (settledOn key st.trace).length + 1 ∧
    (∀ (ref1 ref2 : Nat) (q1 q2 : List QueueTask) (k1 k2 : String) (o1 o2 l1 l2 i1 i2 : Nat)
      (t1 t2 : QueueTask),
      st.activations[ref1]? = some (Activation.mk q1 k1 (.awaiting o1 l1 i1 t1)) →
      st.activations[ref2]? = some (Activation.mk q2 k2 (.awaiting o2 l2 i2 t2)) →
      ref1 ≠ ref2 →
      k1 ≠ k2 ∧
      (∃ s, st.run [.settled ref1, .settled ref2] = some s) ∧
      (∃ s, st.run [.settled ref2, .settled ref1] = some s)) ∧
    (∃ s, QueueState.init.run
        [.executeTask "a" ⟨"", .value "x"⟩, .executeTask "b" ⟨"", .value "y"⟩] = some s ∧
      startedOn "a" s.trace = [0] ∧ settledOn "a" s.trace = [] ∧
      startedOn "b" s.trace = [1] ∧ settledOn "b" s.trace = []) := by
  have hinv := queueInv_run turns _ st queueInv_init h
  obtain ⟨p1, p2, p3⟩ := queueInv_segments st hinv key
  have hboth : ∀ (ref1 ref2 : Nat) (q1 q2 : List QueueTask) (k1 k2 : String)
      (o1 o2 l1 l2 i1 i2 : Nat) (t1 t2 : QueueTask),
      st.activations[ref1]? = some (Activation.mk q1 k1 (.awaiting o1 l1 i1 t1)) →
      st.activations[ref2]? = some (Activation.mk q2 k2 (.awaiting o2 l2 i2 t2)) →
      ref1 ≠ ref2 → ∃ s, st.run [.settled ref1, .settled ref2] = some s := by
    intro ref1 ref2 q1 q2 k1 k2 o1 o2 l1 l2 i1 i2 t1 t2 ha1 ha2 hne
    obtain ⟨s1, hs1, hinv1, hoth, -, -⟩ := settled_turn st hinv ref1 q1 k1 o1 l1 i1 t1 ha1
    have ha2' : s1.activations[ref2]? = some (Activation.mk q2 k2 (.awaiting o2 l2 i2 t2)) := by
      rw [hoth ref2 (fun hc => hne hc.symm)]
      exact ha2
    obtain ⟨s2, hs2, -⟩ := settled_turn s1 hinv1 ref2 q2 k2 o2 l2 i2 t2 ha2'
    exact ⟨s2, by simp only [QueueState.run, hs1, hs2, Option.bind]⟩
  refine ⟨?_, ?_, ?_, p2, p1, p3, ?_, ?_⟩
  · intro pre p post heq
    exact hinv.ordered pre _ post heq
  · intro pre p v post heq
    exact hinv.ordered pre _ post heq
  · intro pre p e post heq
    exact hinv.ordered pre _ post heq
  · intro ref1 ref2 q1 q2 k1 k2 o1 o2 l1 l2 i1 i2 t1 t2 ha1 ha2 hne
    refine ⟨?_, hboth ref1 ref2 q1 q2 k1 k2 o1 o2 l1 l2 i1 i2 t1 t2 ha1 ha2 hne,
      hboth ref2 ref1 q2 q1 k2 k1 o2 o1 l2 l1 i2 i1 t2 t1 ha2 ha1 (fun hc => hne hc.symm)⟩
    intro hk
    have h1 := (hinv.active ref1 q1 k1 o1 l1 i1 t1 ha1).1
    have h2 := (hinv.active ref2 q2 k2 o2 l2 i2 t2 ha2).1
    rw [hk, h2] at h1
    exact hne (Option.some.inj h1).symm
  · exact ⟨_, rfl, by decide, by decide, by decide, by decide⟩

theorem per_key_total_order_witness :
    QueueState.init.run toyTurns = some toyQueueState ∧
    startedOn "a" toyQueueState.trace <+: submittedOn "a" toyQueueState.trace ∧
    (toyQueueState.activations[0]? = some (Activation.mk toyTaskQueue "a"
        (.awaiting 1 3 1 ⟨⟨"f", .error "y"⟩, 1⟩)) →
      toyQueueState.activations[1]? = some (Activation.mk [⟨⟨"b", .value "z"⟩, 2⟩] "b"
        (.awaiting 0 1 0 ⟨⟨"b", .value "z"⟩, 2⟩)) →
      0 ≠ 1 →
      "a" ≠ "b" ∧
      (∃ s, toyQueueState.run [.settled 0, .settled 1] = some s) ∧
      (∃ s, toyQueueState.run [.settled 1, .settled 0] = some s)) :=
  ⟨by rfl, (per_key_total_order toyTurns toyQueueState (by rfl) "a").2.2.2.1,
    (per_key_total_order toyTurns toyQueueState (by rfl) "a").2.2.2.2.2.2.1 0 1 _ _ "a" "b"
      1 0 3 1 1 0 _ _⟩

/-- C22 (routing of results, isolation of failures): in every state that a sequence of turns
reaches from the empty registry, a promise resolved with a value is the promise of a pushed
function whose call yields that value, a promise rejected with an error is the promise of a
pushed function whose call throws that error, a promise number belongs to one pushed function,
and no promise is settled twice.  The settlement of the entry in flight calls `resolve` with
its value or `reject` with its error and, whichever it is, calls the awaitable of the next
entry of the array when there is one; and the settlements of the remaining awaited calls start
and settle every entry pushed for the key. -/
theorem result_routing (turns : List Turn) (st : QueueState)
    (h : QueueState.init.run turns = some st) :
    (∀ key p v, Event.resolved key p v ∈ st.trace →
      ∃ f, Event.submitted key p f ∈ st.trace ∧ f.result = .value v) ∧
    (∀ key p e, Event.rejected key p e ∈ st.trace →
      ∃ f, Event.submitted key p f ∈ st.trace ∧ f.result = .error e) ∧
    (∀ key key' p f f', Event.submitted key p f ∈ st.trace →
      Event.submitted key' p f' ∈ st.trace → key = key' ∧ f = f') ∧
    (settledAll st.trace).Nodup ∧
    (∀ (ref : Nat) (q : List QueueTask) (key : String) (o l i : Nat) (t : QueueTask),
      st.activations[ref]? = some (Activation.mk q key (.awaiting o l i t)) →
      Event.submitted key t.promise t.awaitable ∈ st.trace ∧
      t.promise ∉ settledAll st.trace ∧
      (∃ st', st.step (.settled ref) = some st' ∧
        (∀ v, t.awaitable.result = .value v →
          st'.trace = st.trace ++ Event.resolved key t.promise v ::
            (match q[i + 1]? with
              | some t' => [Event.started key t'.promise]
              | none => [])) ∧
        (∀ e, t.awaitable.result = .error e →
          st'.trace = st.trace ++ Event.rejected key t.promise e ::
            (match q[i + 1]? with
              | some t' => [Event.started key t'.promise]
              | none => []))) ∧
      (∃ st', st.run (List.replicate (q.length - i) (.settled ref)) = some st' ∧
        startedOn key st'.trace = submittedOn key st.trace ∧
        settledOn key st'.trace = submittedOn key st.trace)) := by
  have hinv := queueInv_run turns _ st queueInv_init h
  refine ⟨hinv.resolved, hinv.rejected, ?_, ?_, ?_⟩
  · intro key key' p f f' h1 h2
    exact submittedAll_unique st.trace (by rw [hinv.tickets]; exact List.nodup_range _)
      key key' p f f' h1 h2
  · exact settledAll_nodup_run turns _ st queueInv_init List.nodup_nil h
  · intro ref q key o l i t ha
    obtain ⟨g1, g2, g3, g4, g5, g6, g7, g8⟩ := hinv.active ref q key o l i t ha
    refine ⟨g8 t (by rw [drop_of_getElem? _ _ _ g5]; simp),
      inflight_unsettled st hinv ref q key o l i t ha, ?_, ?_⟩
    · obtain ⟨st', hs, -, -, hlast, hnext⟩ := settled_turn st hinv ref q key o l i t ha
      have htr : st'.trace = st.trace ++ processQueue.settle key t ::
          (match q[i + 1]? with
            | some t' => [Event.started key t'.promise]
            | none => []) := by
        cases hn : q[i + 1]? with
        | none => exact (hlast hn).2.2
        | some t' =>
          obtain ⟨d, o', l', i', -, -, -, -, ht⟩ := hnext t' hn
          exact ht
      refine ⟨st', hs, ?_, ?_⟩
      · intro v hv
        rw [htr]
        simp only [processQueue.settle, hv]
      · intro e he
        rw [htr]
        simp only [processQueue.settle, he]
    · obtain ⟨st', hrun, -, h1, h2⟩ := drain_all st hinv ref q key o l i t ha
      exact ⟨st', hrun, h1, h2⟩

theorem result_routing_witness :
    QueueState.init.run toyTurns = some toyQueueState ∧
    (Event.resolved "a" 0 "x" ∈ toyQueueState.trace →
      ∃ f, Event.submitted "a" 0 f ∈ toyQueueState.trace ∧ f.result = .value "x") :=
  ⟨by rfl, (result_routing toyTurns toyQueueState (by rfl)).1 "a" 0 "x"⟩

/-- C27 (batches and compaction lose nothing): in every state that a sequence of turns reaches
from the empty registry, a parked call of `processQueue` stands inside its batch, at an entry
of its array, the batch has at most `GARBAGE_COLLECTION_LIMIT` entries, and the entries from
its position on are exactly the entries pushed for the key and not yet settled, in order and
without repetition.  The settlement of the awaited call parks the call at the entry that
followed in the array: inside the batch at `i + 1`; at the end of the batch, with the array
longer, at `offset = executionLimit` when the batch was shorter than the limit, and at index 0
of the array without its first `GARBAGE_COLLECTION_LIMIT` entries when the batch was full; the
entries dropped were all at or before `i`, and the entries after `i` are kept in order.  The
settlements of the remaining awaited calls start and settle every entry pushed for the key,
each once, in the order of submission. -/
theorem batching_loses_nothing (turns : List Turn) (st : QueueState)
    (h : QueueState.init.run turns = some st)
    (ref : Nat) (q : List QueueTask) (key : String) (o l i : Nat) (t : QueueTask)
    (ha : st.activations[ref]? = some (Activation.mk q key (.awaiting o l i t))) :
    (i < l ∧ l ≤ q.length ∧ l ≤ GARBAGE_COLLECTION_LIMIT ∧ q[i]? = some t) ∧
    submittedOn key st.trace
      = settledOn key st.trace ++ (q.drop i).map QueueTask.promise ∧
    startedOn key st.trace = settledOn key st.trace ++ [t.promise] ∧
    (submittedOn key st.trace).Nodup ∧
    (∀ t', q[i + 1]? = some t' →
      ∃ st' d o' l' i', st.step (.settled ref) = some st' ∧
        st'.activations[ref]? = some (Activation.mk (q.drop d) key (.awaiting o' l' i' t')) ∧
        i' + d = i + 1 ∧ (d = 0 ∨ (d = GARBAGE_COLLECTION_LIMIT ∧ i' = 0)) ∧
        (q.drop d).drop i' = q.drop (i + 1) ∧
        st'.trace = st.trace ++ [processQueue.settle key t, .started key t'.promise]) ∧
    (∀ t', q[i + 1]? = some t' →
      (i + 1 < l →
        processQueue.afterAwait q o l i = some (q, .awaiting o l (i + 1) t')) ∧
      (i + 1 = l → l < GARBAGE_COLLECTION_LIMIT →
        processQueue.afterAwait q o l i
          = some (q, .awaiting l (min q.length GARBAGE_COLLECTION_LIMIT) l t')) ∧
      (i + 1 = l → l = GARBAGE_COLLECTION_LIMIT →
        processQueue.afterAwait q o l i
          = some (q.drop GARBAGE_COLLECTION_LIMIT,
              .awaiting 0
                (min (q.length - GARBAGE_COLLECTION_LIMIT) GARBAGE_COLLECTION_LIMIT) 0 t'))) ∧
    (q[i + 1]? = none → processQueue.afterAwait q o l i = some (q, .returned)) ∧
    (∃ st', st.run (List.replicate (q.length - i) (.settled ref)) = some st' ∧
      st'.asyncTaskQueues key = none ∧
      startedOn key st'.trace = submittedOn key st.trace ∧
      settledOn key st'.trace = submittedOn key st.trace ∧
      (startedOn key st'.trace).Nodup) := by
  have hinv := queueInv_run turns _ st queueInv_init h
  obtain ⟨g1, g2, g3, g4, g5, g6, g7, g8⟩ := hinv.active ref q key o l i t ha
  refine ⟨⟨g2, g3, g4, g5⟩, g7, g6, submittedOn_nodup st hinv key, ?_, ?_, ?_, ?_⟩
  · intro t' hn
    obtain ⟨st', hs, -, -, -, hnext⟩ := settled_turn st hinv ref q key o l i t ha
    obtain ⟨d, o', l', i', -, h2, h3, h4, h5⟩ := hnext t' hn
    refine ⟨st', d, o', l', i', hs, h2, h3, h4, ?_, h5⟩
    rw [List.drop_drop]
    congr 1
    omega
  · intro t' hn
    have hlt := getElem?_lt _ _ _ hn
    refine ⟨?_, ?_, ?_⟩
    · intro hb
      rw [processQueue.afterAwait, processQueue.rounds, forLoop_batch 1 q o l (i + 1) t' hb hn]
    · intro he hg
      rw [processQueue.afterAwait, processQueue.rounds,
        forLoop_offset 0 q o l (i + 1) t' (by omega) (by omega) hg (by rw [← he]; exact hn)]
    · intro he hg
      rw [processQueue.afterAwait, processQueue.rounds,
        forLoop_compact 0 q o l (i + 1) t' (by omega) (by omega) (by omega)
          (by rw [← he]; exact hn), List.length_drop, hg]
  · exact (afterAwait_spec q o l i g2 g3 g4).2
  · obtain ⟨st', hrun, hreg, h1, h2⟩ := drain_all st hinv ref q key o l i t ha
    exact ⟨st', hrun, hreg, h1, h2, by rw [h1]; exact submittedOn_nodup st hinv key⟩

theorem batching_loses_nothing_witness :
    QueueState.init.run toyTurns = some toyQueueState ∧
    toyQueueState.activations[0]? = some (Activation.mk toyTaskQueue "a"
      (.awaiting 1 3 1 ⟨⟨"f", .error "y"⟩, 1⟩)) ∧
    (∃ st', toyQueueState.run (List.replicate (toyTaskQueue.length - 1) (.settled 0))
        = some st' ∧
      st'.asyncTaskQueues "a" = none ∧
      startedOn "a" st'.trace = submittedOn "a" toyQueueState.trace ∧
      settledOn "a" st'.trace = submittedOn "a" toyQueueState.trace ∧
      (startedOn "a" st'.trace).Nodup) :=
  ⟨by rfl, by rfl,
    (batching_loses_nothing toyTurns toyQueueState (by rfl) 0 toyTaskQueue "a" 1 3 1
      ⟨⟨"f", .error "y"⟩, 1⟩ (by rfl)).2.2.2.2.2.2.2⟩

end WASignalGroup
